import Mathlib

/-!
Verification development for the `pygments_lexer_IJmacro` repository.

The repository ships one source file, `imagejmacro.py`: a rule table for a
regex-driven tokenizer engine (states, ordered pattern/action rules).  The
engine that interprets the table is not part of the repository's sources;
its behaviour is modelled here from the design document (matching ordered
alternatives anchored at a cursor, a stack of lexical states, include
splicing resolved at construction, a one-character fallback token when no
rule matches, and a guard against zero-width transitions that make no
progress).

The rule table itself is transcribed from `imagejmacro.py`.  The table sets
the flags DOTALL | UNICODE | IGNORECASE | MULTILINE, so `.` matches any
character (including newline), `^` matches at the start of the text or
right after a newline, and all characters are compared case-insensitively.
Character comparisons are folded through an ASCII lower-casing map; the
Unicode extensions of `\s` and `\w` are approximated by their ASCII parts.
-/

namespace IJM

/-- ASCII case folding to a code point: upper-case letters are mapped to
their lower-case code, every other character to its own code.  All
character comparisons of the matcher go through this map, which models the
`re.IGNORECASE` flag set by the table. -/
def lowN (c : Char) : Nat :=
  if 65 ≤ c.toNat ∧ c.toNat ≤ 90 then c.toNat + 32 else c.toNat

theorem lowN_le (c : Char) : c.toNat ≤ lowN c := by
  unfold lowN; split <;> omega

theorem lowN_lt_d800 (c : Char) : lowN c < 55296 ∨ 57343 < lowN c := by
  have h := c.valid
  have hv : c.toNat = c.val.toNat := rfl
  rcases h with h | h
  · unfold lowN; split <;> omega
  · unfold lowN
    have : ¬(65 ≤ c.toNat ∧ c.toNat ≤ 90) := by omega
    rw [if_neg this]; omega

/-- Characters whose code is not a lower-case letter code fold to
themselves, so equality with such a code pins the character down. -/
theorem lowN_eq_of_not_lower {c : Char} {n : Nat}
    (h : ¬(97 ≤ n ∧ n ≤ 122)) (he : lowN c = n) : c.toNat = n := by
  unfold lowN at he
  split at he <;> omega

/-- The regular-expression fragment used by the table, as a shallow AST.
`cls` carries the character-class predicate on folded code points;
`lineStart` is `^` under MULTILINE, `bos` is `\A`, `wordB`/`nonWordB` are
`\b`/`\B`, `look` is a lookahead `(?=r)`, and `any` is `.` under DOTALL. -/
inductive Regex where
  | eps : Regex
  | any : Regex
  | chr : Char → Regex
  | cls : (Nat → Bool) → Regex
  | seq : Regex → Regex → Regex
  | alt : Regex → Regex → Regex
  | star : Regex → Regex
  | lazyStar : Regex → Regex
  | look : Regex → Regex
  | wordB : Regex
  | nonWordB : Regex
  | bos : Regex
  | lineStart : Regex

/-- Greedy `r?`. -/
def Regex.opt (r : Regex) : Regex := .alt r .eps

/-- Greedy `r+`. -/
def Regex.plus (r : Regex) : Regex := .seq r (.star r)

/-- Word characters `[a-zA-Z0-9_]` on folded code points (ASCII `\w`). -/
def wordCls : Nat → Bool := fun n =>
  (97 ≤ n && n ≤ 122) || (48 ≤ n && n ≤ 57) || n = 95

/-- Wordness of the optional character on one side of a `\b` boundary. -/
def optWord : Option Char → Bool
  | none => false
  | some c => wordCls (lowN c)

/-- The character just before the cursor after consuming `n` characters of
`l`, given the character before the cursor was `prev`. -/
def newPrev (prev : Option Char) (l : List Char) (n : Nat) : Option Char :=
  if n = 0 then prev else l.get? (n - 1)

/-- One layer of the matcher: all cases except the repetition of a
`star`/`lazyStar`, which is delegated to the parameter `starF`.  The
result is the list of consumed lengths in backtracking priority order
(the first element is the length the engine reports).  `prev` is the
character before the cursor (`none` at the very start of the text), `l`
the remaining input.  Greedy repetition lists longer matches first, lazy
repetition shorter first; repetition bodies must consume at least one
character per iteration, matching the regex engine's refusal to loop on
empty matches. -/
def mlensGo (starF : Regex → Option Char → List Char → List Nat) :
    Regex → Option Char → List Char → List Nat
  | .eps, _, _ => [0]
  | .any, _, l => if l.isEmpty then [] else [1]
  | .chr c, _, l =>
      match l with
      | [] => []
      | d :: _ => if lowN c = lowN d then [1] else []
  | .cls p, _, l =>
      match l with
      | [] => []
      | d :: _ => if p (lowN d) then [1] else []
  | .seq r s, prev, l =>
      (mlensGo starF r prev l).flatMap (fun n =>
        if n ≤ l.length then
          (mlensGo starF s (newPrev prev l n) (l.drop n)).map (n + ·)
        else [])
  | .alt r s, prev, l => mlensGo starF r prev l ++ mlensGo starF s prev l
  | .star r, prev, l =>
      ((mlensGo starF r prev l).flatMap (fun n =>
        if 0 < n ∧ n ≤ l.length then
          (starF (.star r) (newPrev prev l n) (l.drop n)).map (n + ·)
        else [])) ++ [0]
  | .lazyStar r, prev, l =>
      0 :: ((mlensGo starF r prev l).flatMap (fun n =>
        if 0 < n ∧ n ≤ l.length then
          (starF (.lazyStar r) (newPrev prev l n) (l.drop n)).map (n + ·)
        else []))
  | .look r, prev, l => if (mlensGo starF r prev l).isEmpty then [] else [0]
  | .wordB, prev, l =>
      if optWord prev ≠ optWord l.head? then [0] else []
  | .nonWordB, prev, l =>
      if optWord prev = optWord l.head? then [0] else []
  | .bos, prev, _ => if prev.isNone then [0] else []
  | .lineStart, prev, _ =>
      if prev.isNone ∨ prev.map lowN = some 10 then [0] else []

/-- The matcher with explicit repetition fuel.  Each nested repetition
step consumes one unit of fuel together with at least one character, so
fuel exceeding the input length is always enough. -/
def mlensF : Nat → Regex → Option Char → List Char → List Nat
  | 0, _, _, _ => []
  | fuel + 1, r, prev, l => mlensGo (mlensF fuel) r prev l

/-- All ways the regex can match anchored at the cursor, in backtracking
priority order. -/
def mlens (r : Regex) (prev : Option Char) (l : List Char) : List Nat :=
  mlensF (l.length + 1) r prev l

/-- Length of the match the engine picks at the cursor, if any: the
highest-priority element of `mlens`. -/
def matchLen (r : Regex) (prev : Option Char) (l : List Char) : Option Nat :=
  (mlens r prev l).head?

example : mlens (.chr 'a') none ['A'] = [1] := by decide
example : matchLen (.plus (.cls wordCls)) none "ab-c".toList = some 2 := by decide

theorem flatMap_congr' {α β : Type} {L : List α} {f g : α → List β}
    (h : ∀ a ∈ L, f a = g a) : L.flatMap f = L.flatMap g := by
  induction L with
  | nil => rfl
  | cons a t ih =>
      simp only [List.flatMap_cons]
      rw [h a (by simp), ih (fun a ha => h a (by simp [ha]))]

/-- Beyond the input length the fuel does not matter. -/
theorem mlensF_stable : ∀ f₁ f₂ : Nat, ∀ r : Regex, ∀ prev : Option Char,
    ∀ l : List Char, l.length < f₁ → l.length < f₂ →
    mlensF f₁ r prev l = mlensF f₂ r prev l := by
  intro f₁
  induction f₁ with
  | zero => intro f₂ r prev l h₁; omega
  | succ f₁ ih =>
      intro f₂ r prev l h₁ h₂
      cases f₂ with
      | zero => omega
      | succ f₂ =>
        show mlensGo (mlensF f₁) r prev l = mlensGo (mlensF f₂) r prev l
        induction r generalizing prev l with
        | seq r s ihr ihs =>
            simp only [mlensGo]
            rw [ihr prev l h₁ h₂]
            exact flatMap_congr' (fun n _ => by
              split
              · rw [ihs (newPrev prev l n) (l.drop n)
                  (by simp [List.length_drop]; omega)
                  (by simp [List.length_drop]; omega)]
              · rfl)
        | alt r s ihr ihs =>
            simp only [mlensGo]; rw [ihr prev l h₁ h₂, ihs prev l h₁ h₂]
        | star r ihr =>
            simp only [mlensGo]
            rw [ihr prev l h₁ h₂]
            congr 1
            exact flatMap_congr' (fun n hn => by
              split
              · rename_i hcond
                rw [ih f₂ (.star r) (newPrev prev l n) (l.drop n)
                  (by simp [List.length_drop]; omega)
                  (by simp [List.length_drop]; omega)]
              · rfl)
        | lazyStar r ihr =>
            simp only [mlensGo]
            rw [ihr prev l h₁ h₂]
            congr 1
            exact flatMap_congr' (fun n hn => by
              split
              · rename_i hcond
                rw [ih f₂ (.lazyStar r) (newPrev prev l n) (l.drop n)
                  (by simp [List.length_drop]; omega)
                  (by simp [List.length_drop]; omega)]
              · rfl)
        | look r ihr => simp only [mlensGo]; rw [ihr prev l h₁ h₂]
        | _ => simp only [mlensGo]

/-- Unfolding equation: empty pattern. -/
theorem mlens_eps {prev : Option Char} {l : List Char} :
    mlens .eps prev l = [0] := rfl

/-- Unfolding equation: sequencing, phrased back in terms of `mlens`. -/
theorem mlens_seq {r s : Regex} {prev : Option Char} {l : List Char} :
    mlens (.seq r s) prev l =
      (mlens r prev l).flatMap (fun n =>
        if n ≤ l.length then
          (mlens s (newPrev prev l n) (l.drop n)).map (n + ·)
        else []) := by
  show mlensGo (mlensF l.length) (.seq r s) prev l = _
  simp only [mlensGo]
  refine flatMap_congr' (fun n _ => ?_)
  split
  · show (mlensF (l.length + 1) s _ (l.drop n)).map _ = _
    rw [mlensF_stable (l.length + 1) ((l.drop n).length + 1) s _ (l.drop n)
      (by simp [List.length_drop]; omega) (by omega)]
    rfl
  · rfl

/-- Unfolding equation: alternation. -/
theorem mlens_alt {r s : Regex} {prev : Option Char} {l : List Char} :
    mlens (.alt r s) prev l = mlens r prev l ++ mlens s prev l := rfl

/-- Unfolding equation: greedy repetition. -/
theorem mlens_star {r : Regex} {prev : Option Char} {l : List Char} :
    mlens (.star r) prev l =
      ((mlens r prev l).flatMap (fun n =>
        if 0 < n ∧ n ≤ l.length then
          (mlens (.star r) (newPrev prev l n) (l.drop n)).map (n + ·)
        else [])) ++ [0] := by
  show mlensGo (mlensF l.length) (.star r) prev l = _
  simp only [mlensGo]
  congr 1
  refine flatMap_congr' (fun n _ => ?_)
  split
  · rw [mlensF_stable l.length ((l.drop n).length + 1) (.star r) _ (l.drop n)
      (by simp [List.length_drop]; omega) (by omega)]
    rfl
  · rfl

/-- Unfolding equation: lazy repetition. -/
theorem mlens_lazyStar {r : Regex} {prev : Option Char} {l : List Char} :
    mlens (.lazyStar r) prev l =
      0 :: ((mlens r prev l).flatMap (fun n =>
        if 0 < n ∧ n ≤ l.length then
          (mlens (.lazyStar r) (newPrev prev l n) (l.drop n)).map (n + ·)
        else [])) := by
  show mlensGo (mlensF l.length) (.lazyStar r) prev l = _
  simp only [mlensGo]
  congr 1
  refine flatMap_congr' (fun n _ => ?_)
  split
  · rw [mlensF_stable l.length ((l.drop n).length + 1) (.lazyStar r) _ (l.drop n)
      (by simp [List.length_drop]; omega) (by omega)]
    rfl
  · rfl

/-- Unfolding equation: lookahead. -/
theorem mlens_look {r : Regex} {prev : Option Char} {l : List Char} :
    mlens (.look r) prev l = if (mlens r prev l).isEmpty then [] else [0] := rfl

/-- Every reported match length is within the remaining input. -/
theorem mem_mlensF_le : ∀ fuel : Nat, ∀ r : Regex, ∀ prev : Option Char,
    ∀ l : List Char, ∀ n ∈ mlensF fuel r prev l, n ≤ l.length := by
  intro fuel
  induction fuel with
  | zero => intro r prev l n hn; simp [mlensF] at hn
  | succ fuel ih =>
      intro r
      show ∀ prev l, ∀ n ∈ mlensGo (mlensF fuel) r prev l, n ≤ l.length
      induction r with
      | eps => simp [mlensGo]
      | any => intro prev l; cases l <;> simp [mlensGo]
      | chr c =>
          intro prev l
          match l with
          | [] => simp [mlensGo]
          | d :: t => simp only [mlensGo]; split <;> simp
      | cls p =>
          intro prev l
          match l with
          | [] => simp [mlensGo]
          | d :: t => simp only [mlensGo]; split <;> simp
      | seq r s ihr ihs =>
          intro prev l n hn
          simp only [mlensGo, List.mem_flatMap] at hn
          obtain ⟨m, hm, hn⟩ := hn
          split at hn
          · simp only [List.mem_map] at hn
            obtain ⟨k, hk, rfl⟩ := hn
            have := ihs (newPrev prev l m) (l.drop m) k hk
            simp [List.length_drop] at this
            omega
          · simp at hn
      | alt r s ihr ihs =>
          intro prev l n hn
          rcases List.mem_append.mp hn with h | h
          · exact ihr prev l n h
          · exact ihs prev l n h
      | star r ihr =>
          intro prev l n hn
          rcases List.mem_append.mp hn with h | h
          · simp only [List.mem_flatMap] at h
            obtain ⟨m, hm, hmem⟩ := h
            split at hmem
            · simp only [List.mem_map] at hmem
              obtain ⟨k, hk, rfl⟩ := hmem
              have := ih (.star r) (newPrev prev l m) (l.drop m) k hk
              simp [List.length_drop] at this
              omega
            · simp at hmem
          · simp at h; omega
      | lazyStar r ihr =>
          intro prev l n hn
          rcases List.mem_cons.mp hn with h | h
          · omega
          · simp only [List.mem_flatMap] at h
            obtain ⟨m, hm, hmem⟩ := h
            split at hmem
            · simp only [List.mem_map] at hmem
              obtain ⟨k, hk, rfl⟩ := hmem
              have := ih (.lazyStar r) (newPrev prev l m) (l.drop m) k hk
              simp [List.length_drop] at this
              omega
            · simp at hmem
      | look r ihr => intro prev l; simp only [mlensGo]; split <;> simp
      | wordB => intro prev l; simp only [mlensGo]; split <;> simp
      | nonWordB => intro prev l; simp only [mlensGo]; split <;> simp
      | bos => intro prev l; simp only [mlensGo]; split <;> simp
      | lineStart => intro prev l; simp only [mlensGo]; split <;> simp

/-- Every reported match length is within the remaining input. -/
theorem mem_mlens_le {r : Regex} {prev : Option Char} {l : List Char} :
    ∀ n ∈ mlens r prev l, n ≤ l.length :=
  mem_mlensF_le (l.length + 1) r prev l

/-- Lower bound on the number of characters any match of the pattern
consumes. -/
def minLen : Regex → Nat
  | .eps => 0
  | .any => 1
  | .chr _ => 1
  | .cls _ => 1
  | .seq r s => minLen r + minLen s
  | .alt r s => min (minLen r) (minLen s)
  | .star _ => 0
  | .lazyStar _ => 0
  | .look _ => 0
  | .wordB => 0
  | .nonWordB => 0
  | .bos => 0
  | .lineStart => 0

/-- Every reported match length is at least `minLen`. -/
theorem mem_mlensF_minLen : ∀ fuel : Nat, ∀ r : Regex, ∀ prev : Option Char,
    ∀ l : List Char, ∀ n ∈ mlensF fuel r prev l, minLen r ≤ n := by
  intro fuel
  induction fuel with
  | zero => intro r prev l n hn; simp [mlensF] at hn
  | succ fuel ih =>
      intro r
      show ∀ prev l, ∀ n ∈ mlensGo (mlensF fuel) r prev l, minLen r ≤ n
      induction r with
      | eps => simp [mlensGo, minLen]
      | any => intro prev l; cases l <;> simp [mlensGo, minLen]
      | chr c =>
          intro prev l
          match l with
          | [] => simp [mlensGo]
          | d :: t => simp only [mlensGo, minLen]; split <;> simp
      | cls p =>
          intro prev l
          match l with
          | [] => simp [mlensGo]
          | d :: t => simp only [mlensGo, minLen]; split <;> simp
      | seq r s ihr ihs =>
          intro prev l n hn
          simp only [mlensGo, List.mem_flatMap] at hn
          obtain ⟨m, hm, hn⟩ := hn
          split at hn
          · simp only [List.mem_map] at hn
            obtain ⟨k, hk, rfl⟩ := hn
            have h1 := ihr prev l m hm
            have h2 := ihs (newPrev prev l m) (l.drop m) k hk
            simp [minLen]; omega
          · simp at hn
      | alt r s ihr ihs =>
          intro prev l n hn
          rcases List.mem_append.mp hn with h | h
          · have := ihr prev l n h; simp [minLen]; omega
          · have := ihs prev l n h; simp [minLen]; omega
      | star r ihr => intro prev l n hn; simp [minLen]
      | lazyStar r ihr => intro prev l n hn; simp [minLen]
      | look r ihr => intro prev l; simp only [mlensGo, minLen]; split <;> simp
      | wordB => intro prev l; simp only [mlensGo, minLen]; split <;> simp
      | nonWordB => intro prev l; simp only [mlensGo, minLen]; split <;> simp
      | bos => intro prev l; simp only [mlensGo, minLen]; split <;> simp
      | lineStart => intro prev l; simp only [mlensGo, minLen]; split <;> simp

/-- Every reported match length is at least `minLen`. -/
theorem mem_mlens_minLen {r : Regex} {prev : Option Char} {l : List Char} :
    ∀ n ∈ mlens r prev l, minLen r ≤ n :=
  mem_mlensF_minLen (l.length + 1) r prev l

/-- The length the engine picks obeys both bounds. -/
theorem matchLen_bounds {r : Regex} {prev : Option Char} {l : List Char}
    {n : Nat} (h : matchLen r prev l = some n) :
    minLen r ≤ n ∧ n ≤ l.length := by
  have hm : n ∈ mlens r prev l := by
    unfold matchLen at h
    cases hl : mlens r prev l with
    | nil => rw [hl] at h; simp at h
    | cons a t => rw [hl] at h; simp at h; simp [hl, h]
  exact ⟨mem_mlens_minLen n hm, mem_mlens_le n hm⟩

/-- A greedy repetition always matches (possibly consuming nothing). -/
theorem mlens_star_ne_nil {r : Regex} {prev : Option Char} {l : List Char} :
    mlens (.star r) prev l ≠ [] := by
  rw [mlens_star]; simp

/-- Token kinds used by the table (a flat rendering of the dotted kind
hierarchy of the source), plus the engine's fallback `Error` kind for
characters matched by no rule. -/
inductive TokenKind where
  | Text
  | Comment
  | CommentSingle
  | CommentMultiline
  | CommentHashbang
  | NumberFloat
  | NumberBin
  | NumberOct
  | NumberHex
  | NumberInteger
  | Punctuation
  | Operator
  | Keyword
  | KeywordDeclaration
  | KeywordConstant
  | NameBuiltin
  | NameVariable
  | NameVariableInstance
  | NameOther
  | StringDouble
  | StringSingle
  | StringBacktick
  | StringInterpol
  | StringRegex
  | Error
  deriving DecidableEq, Repr

/-- An emitted token: start offset, kind, and the consumed slice of the
input (so the end offset is `start + text.length`). -/
structure Token where
  start : Nat
  kind : TokenKind
  text : List Char
  deriving DecidableEq, Repr

/-- One element of a rule's state transition: either pop the active frame
or push a named state.  The source writes a single name, `'#pop'`, or a
tuple such as `('#pop', 'badregex')`; a tuple is applied element by
element, in order. -/
inductive StackCmd where
  | pop : StackCmd
  | push : String → StackCmd
  deriving DecidableEq, Repr

/-- Apply one stack command.  Modelled from the spec: a Pop on the
bottom-most frame is a defined no-op (stays at root) rather than an
error.  The head of the list is the active (top) frame. -/
def applyCmd : StackCmd → List String → List String
  | .pop, st => if st.length ≤ 1 then st else st.tail
  | .push s, st => s :: st

/-- Apply a rule's whole transition, first element first. -/
def applyOps (ops : List StackCmd) (st : List String) : List String :=
  ops.foldl (fun st c => applyCmd c st) st

/-- A rule of a flattened (include-free) state: a pattern rule with its
token kind and transition, or the unconditional `default(...)`
transition. -/
inductive FEntry where
  | rule : Regex → TokenKind → List StackCmd → FEntry
  | dflt : List StackCmd → FEntry

/-- Try the entries in declared order and return the first match: its
consumed length, token kind and transition.  A `default` entry always
fires, consuming nothing (its kind is irrelevant because zero-width steps
emit no token). -/
def findMatch : List FEntry → Option Char → List Char →
    Option (Nat × TokenKind × List StackCmd)
  | [], _, _ => none
  | .rule r k ops :: rest, prev, l =>
      match matchLen r prev l with
      | some n => some (n, k, ops)
      | none => findMatch rest prev l
  | .dflt ops :: _, _, _ => some (0, .Text, ops)

/-- The active state: the top (head) frame, `"root"` for the empty stack
(which the engine never produces). -/
def stackTop (st : List String) : String := st.headD "root"

/-- The character before the cursor, `none` at offset zero. -/
def prevAt (input : List Char) (pos : Nat) : Option Char :=
  if pos = 0 then none else input.get? (pos - 1)

/-- Result of one matching step of the scanner. -/
inductive StepOut where
  | halt : StepOut
  | fail : StepOut
  | go : Option Token → Nat → List String → Bool → StepOut
  deriving DecidableEq, Repr

/-- One step of the scanner, modelled from the spec.  At end of input the
scan ends.  Otherwise the first matching rule of the active state's
flattened rule list fires: a match of `n ≥ 1` characters emits one token
and advances the cursor by `n`; a zero-width match (including `default`)
emits nothing and only performs its transition.  The flag `g` records
that the previous step was a zero-width step that left the stack
unchanged: a second such step at the same offset is the table-authoring
error the spec requires the engine to raise instead of looping.  When no
rule matches, the engine consumes exactly one character as a fallback
`Error` token and continues. -/
def istepGo (input : List Char) (pos : Nat) (stack : List String) (g : Bool) :
    Nat × TokenKind × List StackCmd → StepOut
  | (0, _, ops) =>
      if applyOps ops stack = stack then
        if g then .fail else .go none pos stack true
      else .go none pos (applyOps ops stack) false
  | (n + 1, k, ops) =>
      .go (some ⟨pos, k, (input.drop pos).take (n + 1)⟩) (pos + (n + 1))
        (applyOps ops stack) false

/-- One step of the scanner (see `istepGo` for the dispatch on the winning
rule's consumed length). -/
def istep (flat : String → List FEntry) (input : List Char) (pos : Nat)
    (stack : List String) (g : Bool) : StepOut :=
  if input.length ≤ pos then .halt
  else
    match findMatch (flat (stackTop stack)) (prevAt input pos) (input.drop pos) with
    | some res => istepGo input pos stack g res
    | none => .go (some ⟨pos, .Error, (input.drop pos).take 1⟩) (pos + 1) stack false

/-- Outcome of a whole scan: the token stream and final stack, the
scan-time table error, or fuel exhaustion (never reached with enough
fuel). -/
inductive ScanResult where
  | ok : List Token → List String → ScanResult
  | tableError : ScanResult
  | outOfFuel : ScanResult
  deriving DecidableEq, Repr

/-- Prepend an optional token to the stream of a successful outcome. -/
def consTok (t : Option Token) : ScanResult → ScanResult
  | .ok toks fs => .ok ((t.toList) ++ toks) fs
  | r => r

/-- The scan loop: iterate `istep` until end of input, collecting emitted
tokens. -/
def scanLoop (flat : String → List FEntry) (input : List Char) :
    Nat → Nat → List String → Bool → ScanResult
  | 0, _, _, _ => .outOfFuel
  | fuel + 1, pos, stack, g =>
      match istep flat input pos stack g with
      | .halt => .ok [] stack
      | .fail => .tableError
      | .go t p' s' g' => consTok t (scanLoop flat input fuel p' s' g')

/-- A whole scan from the initial configuration (cursor at 0, stack one
`"root"` frame).  Three steps per character plus a final halting step
always suffice as fuel for the table under study. -/
def scan (flat : String → List FEntry) (input : List Char) : ScanResult :=
  scanLoop flat input (3 * input.length + 3) 0 ["root"] false


/-! ## The rule table of `imagejmacro.py`

The regular expressions below are transcribed rule by rule from the
`tokens` table of `ImageJMacroLexer`.  Escaped metacharacters become
literal characters; unescaped `.` becomes `Regex.any` (DOTALL is set);
all classes are evaluated on case-folded code points (IGNORECASE is set).
The Unicode extensions of `\s` and `\w` are approximated by their ASCII
parts. -/

/-- The backtick character. -/
def btC : Char := Char.ofNat 96

/-- The opening-brace character. -/
def obrC : Char := Char.ofNat 123

/-- The closing-brace character. -/
def cbrC : Char := Char.ofNat 125

/-- A sequence of literal characters. -/
def rstr (s : String) : Regex := s.data.foldr (fun c r => .seq (.chr c) r) .eps

/-- Alternation over a list, leftmost alternative first; the empty list
never matches. -/
def ralts (l : List Regex) : Regex := l.foldr .alt (.cls fun _ => false)

/-- A character class listing its members. -/
def oneOf (cs : List Char) : Regex :=
  .cls (fun n => cs.any (fun c => lowN c = n))

/-- A negated character class. -/
def noneOf (cs : List Char) : Regex :=
  .cls (fun n => !cs.any (fun c => lowN c = n))

/-- The class `\s` (ASCII part). -/
def spaceP : Nat → Bool := fun n =>
  n = 32 || n = 9 || n = 10 || n = 13 || n = 11 || n = 12

/-- The class `\d` / `[0-9]`. -/
def digitP : Nat → Bool := fun n => 48 ≤ n && n ≤ 57

/-- The class `[$a-zA-Z_]` on folded code points. -/
def identStartP : Nat → Bool := fun n =>
  n = 36 || (97 ≤ n && n ≤ 122) || n = 95

/-- The class `[\w.\-:$]` on folded code points. -/
def varContP : Nat → Bool := fun n =>
  wordCls n || n = 46 || n = 45 || n = 58 || n = 36

/-- The class `[\w-]` on folded code points. -/
def identContP : Nat → Bool := fun n => wordCls n || n = 45

/-- The class `[0-7]`. -/
def octP : Nat → Bool := fun n => 48 ≤ n && n ≤ 55

/-- The class `[0-9a-fA-F]` on folded code points. -/
def hexP : Nat → Bool := fun n => digitP n || (97 ≤ n && n ≤ 102)

/-- Rule `\s+` of `commentsandwhitespace`. -/
def wsRe : Regex := .plus (.cls spaceP)

/-- Rule `<!--` of `commentsandwhitespace`. -/
def htmlRe : Regex := rstr "<!--"

/-- Rule `//.*?\n` of `commentsandwhitespace`. -/
def lineCommentRe : Regex :=
  .seq (rstr "//") (.seq (.lazyStar .any) (.chr (Char.ofNat 10)))

/-- Rule `/\*.*?\*/` of `commentsandwhitespace`. -/
def blockCommentRe : Regex :=
  .seq (rstr "/*") (.seq (.lazyStar .any) (rstr "*/"))

/-- Rule `/(\\.|[^[/\\\n]|\[(\\.|[^\]\\\n])*])+/([gimuy]+\b|\B)` of
`slashstartsregex`: a regex literal. -/
def regexLitRe : Regex :=
  .seq (.chr '/')
    (.seq
      (.plus (ralts
        [.seq (.chr (Char.ofNat 92)) .any,
         noneOf ['[', '/', Char.ofNat 92, Char.ofNat 10],
         .seq (.chr '[')
           (.seq (.star (ralts
              [.seq (.chr (Char.ofNat 92)) .any,
               noneOf [']', Char.ofNat 92, Char.ofNat 10]]))
             (.chr ']'))]))
      (.seq (.chr '/')
        (.alt (.seq (.plus (oneOf ['g', 'i', 'm', 'u', 'y'])) .wordB)
          .nonWordB)))

/-- The zero-width rule `(?=/)` of `slashstartsregex`. -/
def slashLookRe : Regex := .look (.chr '/')

/-- Rule `\n` of `badregex`. -/
def nlRe : Regex := .chr (Char.ofNat 10)

/-- Rule `\A#! ?/.*?\n` of `root`. -/
def hashbangRe : Regex :=
  .seq .bos
    (.seq (rstr "#!")
      (.seq (.opt (.chr ' '))
        (.seq (.chr '/') (.seq (.lazyStar .any) (.chr (Char.ofNat 10))))))

/-- Rule `^(?=\s|/|<!--)` of `root`: at a line start, look ahead for
whitespace, a slash or an HTML comment opener. -/
def lslRe : Regex :=
  .seq .lineStart (.look (ralts [.cls spaceP, .chr '/', rstr "<!--"]))

/-- Rule `(\.\d+|[0-9]+\.[0-9]*)([eE][-+]?[0-9]+)?` of `root`. -/
def floatRe : Regex :=
  .seq
    (.alt (.seq (.chr '.') (.plus (.cls digitP)))
          (.seq (.plus (.cls digitP)) (.seq (.chr '.') (.star (.cls digitP)))))
    (.opt (.seq (oneOf ['e', 'E'])
      (.seq (.opt (oneOf ['-', '+'])) (.plus (.cls digitP)))))

/-- Rule `0[bB][01]+` of `root`. -/
def binRe : Regex :=
  .seq (.chr '0') (.seq (oneOf ['b', 'B']) (.plus (oneOf ['0', '1'])))

/-- Rule `0[oO][0-7]+` of `root`. -/
def octRe : Regex :=
  .seq (.chr '0') (.seq (oneOf ['o', 'O']) (.plus (.cls octP)))

/-- Rule `0[xX][0-9a-fA-F]+` of `root`. -/
def hexRe : Regex :=
  .seq (.chr '0') (.seq (oneOf ['x', 'X']) (.plus (.cls hexP)))

/-- Rule `[0-9]+` of `root`. -/
def intRe : Regex := .plus (.cls digitP)

/-- Rule `\.\.\.|=>` of `root`. -/
def dotsRe : Regex := .alt (rstr "...") (rstr "=>")

/-- Rule `\+\+|--|~|&&|\?|:|\|\||\\(?=\n)|(<<|>>>?|==?|!=?|[-<>+*%&|^/])=?`
of `root`: the operators. -/
def opRe : Regex :=
  ralts
    [rstr "++", rstr "--", .chr '~', rstr "&&", .chr '?', .chr ':',
     rstr "||",
     .seq (.chr (Char.ofNat 92)) (.look (.chr (Char.ofNat 10))),
     .seq (ralts
        [rstr "<<", .seq (rstr ">>") (.opt (.chr '>')),
         .seq (.chr '=') (.opt (.chr '=')),
         .seq (.chr '!') (.opt (.chr '=')),
         oneOf ['-', '<', '>', '+', '*', '%', '&', '|', '^', '/']])
       (.opt (.chr '='))]

/-- Rule `[{(\[;,]` of `root`. -/
def openPunctRe : Regex := oneOf [obrC, '(', '[', ';', ',']

/-- Rule `[})\].]` of `root`. -/
def closePunctRe : Regex := oneOf [cbrC, ')', ']', '.']

/-- Rule `(for|in|while|do|return|if|else)\b` of `root`. -/
def kwRe : Regex :=
  .seq (ralts (["for", "in", "while", "do", "return", "if", "else"].map rstr))
    .wordB

/-- Rule `(var|macro|function)\b` of `root`. -/
def declKwRe : Regex :=
  .seq (ralts (["var", "macro", "function"].map rstr)) .wordB

/-- Rule `(true|false|NaN|PI)\b` of `root`. -/
def constKwRe : Regex :=
  .seq (ralts (["true", "false", "NaN", "PI"].map rstr)) .wordB

def builtinWords : List String :=
  ["Array.concat", "Array.copy", "Array.fill", "Array.findMaxima",
   "Array.findMinima", "Array.fourier", "Array.getSequence", "Array.getStatistics",
   "Array.getVertexAngles", "Array.print", "Array.rankPositions", "Array.resample",
   "Array.reverse", "Array.rotate", "Array.show", "Array.slice",
   "Array.sort", "Array.trim", "Dialog.addCheckbox", "Dialog.addCheckboxGroup",
   "Dialog.addChoice", "Dialog.addHelp", "Dialog.addMessage", "Dialog.addNumber",
   "Dialog.addRadioButtonGroup", "Dialog.addSlider", "Dialog.addString", "Dialog.create",
   "Dialog.getCheckbox", "Dialog.getChoice", "Dialog.getNumber", "Dialog.getRadioButton",
   "Dialog.getString", "Dialog.setInsets", "Dialog.setLocation", "Dialog.show",
   "Ext ", "File.append", "File.close", "File.copy",
   "File.dateLastModified", "File.delete", "File.directory", "File.exists",
   "File.getName", "File.getParent", "File.isDirectory", "File.lastModified",
   "File.length", "File.makeDirectory", "File.name", "File.nameWithoutExtension",
   "File.open", "File.openAsRawString", "File.openAsString", "File.openDialog",
   "File.openUrlAsString", "File.rename", "File.saveString", "File.separator",
   "Fit.doFit", "Fit.f", "Fit.getEquation", "Fit.logResults",
   "Fit.nEquations", "Fit.nParams", "Fit.p", "Fit.plot",
   "Fit.rSquared", "Fit.showDialog", "IJ.currentMemory", "IJ.deleteRows",
   "IJ.freeMemory", "IJ.getToolName", "IJ.log", "IJ.maxMemory",
   "IJ.pad", "IJ.redirectErrorMessages", "IJ.renameResults", "List.clear",
   "List.get", "List.getList", "List.getValue", "List.set",
   "List.setCommands", "List.setList", "List.setMeasurements", "List.size",
   "Overlay.activateSelection", "Overlay.add", "Overlay.addSelection", "Overlay.clear",
   "Overlay.copy", "Overlay.drawEllipse", "Overlay.drawLabels", "Overlay.drawLine",
   "Overlay.drawRect", "Overlay.drawString", "Overlay.hidden", "Overlay.hide",
   "Overlay.lineTo", "Overlay.measure", "Overlay.moveSelection", "Overlay.moveTo",
   "Overlay.paste", "Overlay.remove", "Overlay.removeSelection", "Overlay.setPosition",
   "Overlay.show", "Overlay.size", "Plot.add", "Plot.addText",
   "Plot.create", "Plot.drawLine", "Plot.drawNormalizedLine", "Plot.drawVectors",
   "Plot.getLimits", "Plot.getValues", "Plot.makeHighResolution", "Plot.setAxisLabelSize",
   "Plot.setBackgroundColor", "Plot.setColor", "Plot.setFontSize", "Plot.setFormatFlags",
   "Plot.setFrameSize", "Plot.setJustification", "Plot.setLegend", "Plot.setLimits",
   "Plot.setLimitsToFit", "Plot.setLineWidth", "Plot.setLogScaleX", "Plot.setLogScaleY",
   "Plot.setXYLabels", "Plot.show", "Plot.showValues", "Plot.update",
   "Plot.useTemplate", "Roi.contains", "Roi.getBounds", "Roi.getCoordinates",
   "Roi.getDefaultColor", "Roi.getFillColor", "Roi.getName", "Roi.getProperties",
   "Roi.getProperty", "Roi.getSplineAnchors", "Roi.getStrokeColor", "Roi.getType",
   "Roi.move", "Roi.setFillColor", "Roi.setName", "Roi.setPolygonSplineAnchors",
   "Roi.setPolylineSplineAnchors", "Roi.setProperty", "Roi.setStrokeColor", "Roi.setStrokeWidth",
   "Stack.getActiveChannels", "Stack.getDimensions", "Stack.getDisplayMode", "Stack.getFrameInterval",
   "Stack.getFrameRate", "Stack.getOrthoViewsID", "Stack.getPosition", "Stack.getStatistics",
   "Stack.getUnits", "Stack.isHyperstack", "Stack.setActiveChannels", "Stack.setChannel",
   "Stack.setDimensions", "Stack.setDisplayMode", "Stack.setFrame", "Stack.setFrameInterval",
   "Stack.setFrameRate", "Stack.setOrthoViews", "Stack.setPosition", "Stack.setSlice",
   "Stack.setTUnit", "Stack.setZUnit", "Stack.stopOrthoViews", "Stack.swap",
   "String.append", "String.buffer", "String.copy", "String.copyResults",
   "String.getResultsHeadings", "String.paste", "String.resetBuffer", "String.show",
   "abs", "acos", "asin", "atan",
   "atan2", "autoUpdate", "beep", "bitDepth",
   "calibrate", "call", "changeValues", "charCodeAt",
   "close", "cos", "d2s", "doCommand",
   "doWand", "drawLine", "drawOval", "drawRect",
   "drawString", "dump", "endsWith", "eval",
   "exec", "exit", "exp", "fill",
   "fillOval", "fillRect", "floodFill", "floor",
   "fromCharCode", "getArgument", "getBoolean", "getBoundingRect",
   "getCursorLoc", "getDateAndTime", "getDimensions", "getDirectory",
   "getDisplayedArea", "getFileList", "getFontList", "getHeight",
   "getHistogram", "getImageID", "getImageInfo", "getInfo",
   "getLine", "getList", "getLocationAndSize", "getLut",
   "getMetadata", "getMinAndMax", "getNumber", "getPixel",
   "getPixelSize", "getProfile", "getRawStatistics", "getResult",
   "getResultLabel", "getResultString", "getSelectionBounds", "getSelectionCoordinates",
   "getSliceNumber", "getStatistics", "getString", "getStringWidth",
   "getThreshold", "getTime", "getTitle", "getValue",
   "getVersion", "getVoxelSize", "getWidth", "getZoom",
   "imageCalculator", "indexOf", "is", "isActive",
   "isKeyDown", "isNaN", "isOpen", "lastIndexOf",
   "lengthOf", "lineTo", "log", "makeArrow",
   "makeEllipse", "makeLine", "makeOval", "makePoint",
   "makePolygon", "makeRectangle", "makeSelection", "makeText",
   "matches", "maxOf", "minOf", "moveTo",
   "nImages", "nResults", "nSlices", "newArray",
   "newImage", "newMenu", "open", "parseFloat",
   "parseInt", "pow", "print", "random",
   "rename", "replace", "requires", "reset",
   "resetMinAndMax", "resetThreshold", "restoreSettings", "roiManager",
   "round", "run", "runMacro", "save",
   "saveAs", "saveSettings", "screenHeight", "screenWidth",
   "selectImage", "selectWindow", "selectionContains", "selectionName",
   "selectionType", "setAutoThreshold", "setBackgroundColor", "setBatchMode",
   "setColor", "setFont", "setForegroundColor", "setJustification",
   "setKeyDown", "setLineWidth", "setLocation", "setLut",
   "setMetadata", "setMinAndMax", "setOption", "setPasteMode",
   "setPixel", "setRGBWeights", "setResult", "setSelectionLocation",
   "setSelectionName", "setSlice", "setThreshold", "setTool",
   "setVoxelSize", "setZCoordinate", "setupUndo", "showMessage",
   "showMessageWithCancel", "showProgress", "showStatus", "showText",
   "sin", "snapshot", "split", "sqrt",
   "startsWith", "substring", "tan", "toBinary",
   "toHex", "toLowerCase", "toScaled", "toString",
   "toUnscaled", "toUpperCase", "toolID", "updateDisplay",
   "updateResults", "wait", "waitForUser"]

/-- One alternative of the builtin-name rule.  The source does not escape
the dots in these names, so with DOTALL every `.` matches any character. -/
def bword (s : String) : Regex :=
  s.data.foldr (fun c r => .seq (if c = '.' then .any else .chr c) r) .eps

/-- The builtin-name rule of `root`: the big alternation followed by `\b`. -/
def builtinRe : Regex := .seq (ralts (builtinWords.map bword)) .wordB

/-- Rule `"(\\\\|\\"|[^"])*"` of `root`. -/
def dqRe : Regex :=
  .seq (.chr '"')
    (.seq (.star (ralts
       [rstr "\\\\", .seq (.chr (Char.ofNat 92)) (.chr '"'), noneOf ['"']]))
      (.chr '"'))

/-- Rule `'(\\\\|\\'|[^'])*'` of `root`. -/
def sqRe : Regex :=
  .seq (.chr (Char.ofNat 39))
    (.seq (.star (ralts
       [rstr "\\\\", .seq (.chr (Char.ofNat 92)) (.chr (Char.ofNat 39)),
        noneOf [Char.ofNat 39]]))
      (.chr (Char.ofNat 39)))

/-- The backtick rule of `root`. -/
def btRe : Regex := .chr btC

/-- Rule `[$a-zA-Z_][\w.\-:$]*\s*[:=]\s` of `root`. -/
def varRe : Regex :=
  .seq (.cls identStartP)
    (.seq (.star (.cls varContP))
      (.seq (.star (.cls spaceP)) (.seq (oneOf [':', '=']) (.cls spaceP))))

/-- Rule `@[$a-zA-Z_][\w.\-:$]*\s*[:=]\s` of `root`. -/
def atVarRe : Regex := .seq (.chr '@') varRe

/-- Rule `@` of `root`. -/
def atRe : Regex := .chr '@'

/-- Rule `@?[$a-zA-Z_][\w-]*` of `root`. -/
def identRe : Regex :=
  .seq (.opt (.chr '@')) (.seq (.cls identStartP) (.star (.cls identContP)))

/-- Rule `\\\\` of `interp`. -/
def escEscRe : Regex := rstr "\\\\"

/-- Rule `\\`` (escaped backtick) of `interp`. -/
def escBtRe : Regex := .seq (.chr (Char.ofNat 92)) (.chr btC)

/-- Rule `\$\{` of `interp`. -/
def interpOpenRe : Regex := .seq (.chr '$') (.chr obrC)

/-- Rule `\$` of `interp`. -/
def dollarRe : Regex := .chr '$'

/-- Rule `[^`\\$]+` of `interp`. -/
def chunkRe : Regex := .plus (noneOf [btC, Char.ofNat 92, '$'])

/-- Rule `\}` of `interp-inside`. -/
def braceCloseRe : Regex := .chr cbrC

/-- An entry of the raw (unflattened) table: a pattern rule, an
`include(...)`, or a `default(...)`. -/
inductive TEntry where
  | tok : Regex → TokenKind → List StackCmd → TEntry
  | inc : String → TEntry
  | dflt : List StackCmd → TEntry

/-- A rule table: an ordered association of state names to entries. -/
abbrev Table : Type := List (String × List TEntry)

/-- The `commentsandwhitespace` state. -/
def cwsEntries : List TEntry :=
  [.tok wsRe .Text [],
   .tok htmlRe .Comment [],
   .tok lineCommentRe .CommentSingle [],
   .tok blockCommentRe .CommentMultiline []]

/-- The `slashstartsregex` state. -/
def slashEntries : List TEntry :=
  [.inc "commentsandwhitespace",
   .tok regexLitRe .StringRegex [.pop],
   .tok slashLookRe .Text [.pop, .push "badregex"],
   .dflt [.pop]]

/-- The `badregex` state. -/
def badregexEntries : List TEntry := [.tok nlRe .Text [.pop]]

/-- The `root` state. -/
def rootEntries : List TEntry :=
  [.tok hashbangRe .CommentHashbang [],
   .tok lslRe .Text [.push "slashstartsregex"],
   .inc "commentsandwhitespace",
   .tok floatRe .NumberFloat [],
   .tok binRe .NumberBin [],
   .tok octRe .NumberOct [],
   .tok hexRe .NumberHex [],
   .tok intRe .NumberInteger [],
   .tok dotsRe .Punctuation [],
   .tok opRe .Operator [.push "slashstartsregex"],
   .tok openPunctRe .Punctuation [.push "slashstartsregex"],
   .tok closePunctRe .Punctuation [],
   .tok kwRe .Keyword [.push "slashstartsregex"],
   .tok declKwRe .KeywordDeclaration [.push "slashstartsregex"],
   .tok constKwRe .KeywordConstant [],
   .tok builtinRe .NameBuiltin [],
   .tok dqRe .StringDouble [],
   .tok sqRe .StringSingle [],
   .tok btRe .StringBacktick [.push "interp"],
   .tok varRe .NameVariable [.push "slashstartsregex"],
   .tok atVarRe .NameVariableInstance [.push "slashstartsregex"],
   .tok atRe .NameOther [.push "slashstartsregex"],
   .tok identRe .NameOther [.push "slashstartsregex"]]

/-- The `interp` state. -/
def interpEntries : List TEntry :=
  [.tok btRe .StringBacktick [.pop],
   .tok escEscRe .StringBacktick [],
   .tok escBtRe .StringBacktick [],
   .tok interpOpenRe .StringInterpol [.push "interp-inside"],
   .tok dollarRe .StringBacktick [],
   .tok chunkRe .StringBacktick []]

/-- The `interp-inside` state. -/
def interpInsideEntries : List TEntry :=
  [.tok braceCloseRe .StringInterpol [.pop],
   .inc "root"]

/-- The whole `tokens` table of `ImageJMacroLexer`, in declaration order. -/
def ijmTable : Table :=
  [("commentsandwhitespace", cwsEntries),
   ("slashstartsregex", slashEntries),
   ("badregex", badregexEntries),
   ("root", rootEntries),
   ("interp", interpEntries),
   ("interp-inside", interpInsideEntries)]

/-- Look a state up in a table, first binding wins. -/
def lookupState (tbl : Table) (s : String) : Option (List TEntry) :=
  ((List.find? (fun p => p.1 = s) tbl)).map (fun p => p.2)

/-- Flatten one entry list, delegating `include` expansion to `expand`.
Fails (`none`) when an include target is unknown or expansion does not
terminate within the allotted depth. -/
def flattenOne (expand : String → Option (List FEntry)) :
    List TEntry → Option (List FEntry)
  | [] => some []
  | .tok r k ops :: rest => (flattenOne expand rest).map (.rule r k ops :: ·)
  | .dflt ops :: rest => (flattenOne expand rest).map (.dflt ops :: ·)
  | .inc s :: rest =>
      match expand s, flattenOne expand rest with
      | some a, some b => some (a ++ b)
      | _, _ => none

/-- Resolve a state to its flattened, include-free rule list, with a
depth budget for transitive includes.  Modelled from the spec: include
expansion is resolved once at construction time into a flat ordered list,
and must be acyclic; a cycle exhausts any finite depth and reports
failure. -/
def flattenState (tbl : Table) : Nat → String → Option (List FEntry)
  | 0, _ => none
  | fuel + 1, s =>
      match lookupState tbl s with
      | none => none
      | some es => flattenOne (flattenState tbl fuel) es

/-- Names a `push` command or an `include` refers to, for validation. -/
def refNames (es : List TEntry) : List String :=
  es.flatMap (fun e =>
    match e with
    | TEntry.tok _ _ ops =>
        ops.filterMap (fun c =>
          match c with
          | StackCmd.push s => some s
          | StackCmd.pop => none)
    | TEntry.dflt ops =>
        ops.filterMap (fun c =>
          match c with
          | StackCmd.push s => some s
          | StackCmd.pop => none)
    | TEntry.inc s => [s])

/-- Construction-time validation, modelled from the spec: every state
referenced by a push or an include must be defined, and include expansion
must terminate (the include graph is acyclic, so a depth budget of the
number of states suffices). -/
def checkTable (tbl : Table) : Bool :=
  tbl.all (fun p =>
    (flattenState tbl (tbl.length + 1) p.1).isSome &&
    (refNames p.2).all (fun s => (lookupState tbl s).isSome))

/-- The construction-time failure of `new_engine`. -/
inductive TableError where
  | badTable : TableError
  deriving DecidableEq, Repr

/-- Engine construction, modelled from the spec: validate the table and
return the flattened rule lists, or fail with a `TableError` before any
scan can start. -/
def new_engine (tbl : Table) :
    Except TableError (String → List FEntry) :=
  if checkTable tbl then
    .ok (fun s => (flattenState tbl (tbl.length + 1) s).getD [])
  else .error .badTable

/-- The flattened rule lists of the table under study. -/
def ijmFlat : String → List FEntry :=
  fun s => (flattenState ijmTable (ijmTable.length + 1) s).getD []

/-- Scan a string with the `imagejmacro.py` table. -/
def scanIjm (s : String) : ScanResult := scan ijmFlat s.data

/-! ## Generic engine lemmas -/

/-- An entry fires at a cursor position: a pattern entry whose pattern
matches there, or a `default` entry (which always fires). -/
def entryFires (e : FEntry) (prev : Option Char) (l : List Char) : Prop :=
  match e with
  | .rule r _ _ => (matchLen r prev l).isSome
  | .dflt _ => True

/-- Unfolding: searching the empty rule list. -/
theorem findMatch_nil {prev : Option Char} {l : List Char} :
    findMatch [] prev l = none := rfl

/-- Unfolding: a leading pattern rule. -/
theorem findMatch_cons_rule {r : Regex} {k : TokenKind} {ops : List StackCmd}
    {t : List FEntry} {prev : Option Char} {l : List Char} :
    findMatch (.rule r k ops :: t) prev l =
      match matchLen r prev l with
      | some n => some (n, k, ops)
      | none => findMatch t prev l := rfl

/-- A leading pattern rule that matches wins. -/
theorem findMatch_rule_some {r : Regex} {k : TokenKind} {ops : List StackCmd}
    {t : List FEntry} {prev : Option Char} {l : List Char} {n : Nat}
    (hm : matchLen r prev l = some n) :
    findMatch (.rule r k ops :: t) prev l = some (n, k, ops) := by
  rw [findMatch_cons_rule, hm]

/-- A leading pattern rule that fails is skipped. -/
theorem findMatch_rule_none {r : Regex} {k : TokenKind} {ops : List StackCmd}
    {t : List FEntry} {prev : Option Char} {l : List Char}
    (hm : matchLen r prev l = none) :
    findMatch (.rule r k ops :: t) prev l = findMatch t prev l := by
  rw [findMatch_cons_rule, hm]

/-- Unfolding: a leading `default` always fires. -/
theorem findMatch_cons_dflt {ops : List StackCmd} {t : List FEntry}
    {prev : Option Char} {l : List Char} :
    findMatch (.dflt ops :: t) prev l = some (0, .Text, ops) := rfl

/-- The first matching entry decides the outcome: entries after it are
never consulted. -/
theorem findMatch_early (l₁ : List FEntry) (e : FEntry) (l₂ : List FEntry)
    (prev : Option Char) (l : List Char) (h : entryFires e prev l) :
    findMatch (l₁ ++ e :: l₂) prev l = findMatch (l₁ ++ [e]) prev l := by
  induction l₁ with
  | nil =>
      match e, h with
      | .rule r k ops, h =>
          have h' : (matchLen r prev l).isSome = true := h
          simp only [List.nil_append]
          cases hm : matchLen r prev l with
          | none => rw [hm] at h'; simp at h'
          | some n =>
              rw [findMatch_rule_some hm, findMatch_rule_some hm]
      | .dflt ops, _ =>
          simp only [List.nil_append, findMatch_cons_dflt]
  | cons a t ih =>
      match a with
      | .rule r k ops =>
          simp only [List.cons_append]
          cases hm : matchLen r prev l with
          | none => rw [findMatch_rule_none hm, findMatch_rule_none hm]; exact ih
          | some n =>
              rw [findMatch_rule_some hm, findMatch_rule_some hm]
      | .dflt ops =>
          simp only [List.cons_append, findMatch_cons_dflt]

/-- Splitting the search over an appended rule list. -/
theorem findMatch_append (a b : List FEntry) (prev : Option Char)
    (l : List Char) :
    findMatch (a ++ b) prev l =
      ((findMatch a prev l).rec (findMatch b prev l) (fun r => some r)) := by
  induction a with
  | nil => rfl
  | cons e t ih =>
      match e with
      | .rule r k ops =>
          simp only [List.cons_append]
          cases hm : matchLen r prev l with
          | none =>
              rw [findMatch_rule_none hm, findMatch_rule_none hm, ih]
          | some n =>
              rw [findMatch_rule_some hm, findMatch_rule_some hm]
      | .dflt ops =>
          simp only [List.cons_append, findMatch_cons_dflt]

/-- What the engine consumes never exceeds the remaining input. -/
theorem findMatch_some_le {es : List FEntry} {prev : Option Char}
    {l : List Char} {n : Nat} {k : TokenKind} {ops : List StackCmd}
    (h : findMatch es prev l = some (n, k, ops)) : n ≤ l.length := by
  induction es with
  | nil => simp [findMatch] at h
  | cons e t ih =>
      match e with
      | .rule r k' ops' =>
          unfold findMatch at h
          cases hm : matchLen r prev l with
          | none => rw [hm] at h; exact ih h
          | some m =>
              rw [hm] at h
              simp only [Option.some.injEq] at h
              obtain ⟨rfl, -, -⟩ := h
              exact (matchLen_bounds hm).2
      | .dflt ops' =>
          unfold findMatch at h
          simp only [Option.some.injEq] at h
          obtain ⟨rfl, -, -⟩ := h
          omega

/-- Every winning entry comes from the list, keeping its kind and
transition, and for pattern entries the consumed length is what the
pattern matched. -/
theorem findMatch_some_mem {es : List FEntry} {prev : Option Char}
    {l : List Char} {n : Nat} {k : TokenKind} {ops : List StackCmd}
    (h : findMatch es prev l = some (n, k, ops)) :
    (∃ r, FEntry.rule r k ops ∈ es ∧ matchLen r prev l = some n) ∨
    (FEntry.dflt ops ∈ es ∧ n = 0) := by
  induction es with
  | nil => simp [findMatch] at h
  | cons e t ih =>
      match e with
      | .rule r k' ops' =>
          unfold findMatch at h
          cases hm : matchLen r prev l with
          | none =>
              rw [hm] at h
              rcases ih h with ⟨r', hmem, hr⟩ | ⟨hmem, hn⟩
              · exact .inl ⟨r', by simp [hmem], hr⟩
              · exact .inr ⟨by simp [hmem], hn⟩
          | some m =>
              rw [hm] at h
              simp only [Option.some.injEq] at h
              obtain ⟨rfl, rfl, rfl⟩ := h
              exact .inl ⟨r, by simp, hm⟩
      | .dflt ops' =>
          unfold findMatch at h
          simp only [Option.some.injEq] at h
          obtain ⟨rfl, rfl, rfl⟩ := h
          exact .inr ⟨by simp, rfl⟩

/-- Reduction: a finished scan. -/
theorem istep_eq_halt {flat : String → List FEntry} {input : List Char}
    {pos : Nat} {stack : List String} {g : Bool}
    (hend : input.length ≤ pos) :
    istep flat input pos stack g = .halt := by
  unfold istep; rw [if_pos hend]

/-- Reduction: the fallback step when no rule matches. -/
theorem istep_eq_fallback {flat : String → List FEntry} {input : List Char}
    {pos : Nat} {stack : List String} {g : Bool}
    (hend : ¬ input.length ≤ pos)
    (hfm : findMatch (flat (stackTop stack)) (prevAt input pos)
      (input.drop pos) = none) :
    istep flat input pos stack g =
      .go (some ⟨pos, .Error, (input.drop pos).take 1⟩) (pos + 1) stack false := by
  unfold istep; rw [if_neg hend, hfm]

/-- Reduction: a winning rule dispatches through `istepGo`. -/
theorem istep_eq_found {flat : String → List FEntry} {input : List Char}
    {pos : Nat} {stack : List String} {g : Bool}
    {res : Nat × TokenKind × List StackCmd}
    (hend : ¬ input.length ≤ pos)
    (hfm : findMatch (flat (stackTop stack)) (prevAt input pos)
      (input.drop pos) = some res) :
    istep flat input pos stack g = istepGo input pos stack g res := by
  unfold istep; rw [if_neg hend, hfm]

/-- Reduction: a zero-width winner transits without emitting. -/
theorem istepGo_zero {input : List Char} {pos : Nat} {stack : List String}
    {g : Bool} {k : TokenKind} {ops : List StackCmd} :
    istepGo input pos stack g (0, k, ops) =
      if applyOps ops stack = stack then
        if g then .fail else .go none pos stack true
      else .go none pos (applyOps ops stack) false := rfl

/-- Reduction: a consuming winner emits one token. -/
theorem istepGo_succ {input : List Char} {pos : Nat} {stack : List String}
    {g : Bool} {n : Nat} {k : TokenKind} {ops : List StackCmd} :
    istepGo input pos stack g (n + 1, k, ops) =
      .go (some ⟨pos, k, (input.drop pos).take (n + 1)⟩) (pos + (n + 1))
        (applyOps ops stack) false := rfl

/-- Reduction of the loop on a halting step. -/
theorem scanLoop_succ_halt {flat : String → List FEntry} {input : List Char}
    {fuel pos : Nat} {stack : List String} {g : Bool}
    (h : istep flat input pos stack g = .halt) :
    scanLoop flat input (fuel + 1) pos stack g = .ok [] stack := by
  unfold scanLoop; rw [h]

/-- Reduction of the loop on the failing step. -/
theorem scanLoop_succ_fail {flat : String → List FEntry} {input : List Char}
    {fuel pos : Nat} {stack : List String} {g : Bool}
    (h : istep flat input pos stack g = .fail) :
    scanLoop flat input (fuel + 1) pos stack g = .tableError := by
  unfold scanLoop; rw [h]

/-- Reduction of the loop on a progressing step. -/
theorem scanLoop_succ_go {flat : String → List FEntry} {input : List Char}
    {fuel pos : Nat} {stack : List String} {g : Bool} {t : Option Token}
    {p' : Nat} {s' : List String} {g' : Bool}
    (h : istep flat input pos stack g = .go t p' s' g') :
    scanLoop flat input (fuel + 1) pos stack g =
      consTok t (scanLoop flat input fuel p' s' g') := by
  conv_lhs => unfold scanLoop
  rw [h]

/-- Contiguity of a token stream: the first token starts at `p`, each
token is nonempty and starts where the previous one ended, and the last
one ends at `e`.  This is exactly "strictly increasing, contiguous,
non-overlapping spans from `p` to `e`". -/
def covers : List Token → Nat → Nat → Prop
  | [], p, e => p = e
  | t :: ts, p, e => t.start = p ∧ t.text ≠ [] ∧ covers ts (p + t.text.length) e

/-- A successful scan loop emits exactly the remaining input, split into
contiguous nonempty tokens. -/
theorem scanLoop_covers (flat : String → List FEntry) (input : List Char) :
    ∀ fuel pos stack g toks fs, pos ≤ input.length →
    scanLoop flat input fuel pos stack g = .ok toks fs →
    toks.flatMap Token.text = input.drop pos ∧ covers toks pos input.length := by
  intro fuel
  induction fuel with
  | zero => intro pos stack g toks fs hp h; simp [scanLoop] at h
  | succ fuel ih =>
      intro pos stack g toks fs hp h
      by_cases hend : input.length ≤ pos
      · rw [scanLoop_succ_halt (istep_eq_halt hend)] at h
        simp only [ScanResult.ok.injEq] at h
        obtain ⟨rfl, rfl⟩ := h
        have : pos = input.length := by omega
        subst this
        simp [covers, List.drop_length]
      · cases hfm : findMatch (flat (stackTop stack)) (prevAt input pos)
            (input.drop pos) with
        | some res =>
            obtain ⟨n, k, ops⟩ := res
            cases n with
            | zero =>
                by_cases hst : applyOps ops stack = stack
                · cases g with
                  | false =>
                      have hstep : istep flat input pos stack false
                          = .go none pos stack true := by
                        rw [istep_eq_found hend hfm, istepGo_zero,
                          if_pos hst]; rfl
                      rw [scanLoop_succ_go hstep] at h
                      cases hrec : scanLoop flat input fuel pos stack true with
                      | ok toks' fs' =>
                          rw [hrec] at h
                          simp only [consTok, Option.toList, List.nil_append,
                            ScanResult.ok.injEq] at h
                          obtain ⟨rfl, rfl⟩ := h
                          exact ih pos stack true toks' fs' (by omega) hrec
                      | tableError => rw [hrec] at h; simp [consTok] at h
                      | outOfFuel => rw [hrec] at h; simp [consTok] at h
                  | true =>
                      rw [scanLoop_succ_fail
                        (by rw [istep_eq_found hend hfm, istepGo_zero,
                          if_pos hst]; rfl)] at h
                      simp at h
                · have hstep : istep flat input pos stack g
                      = .go none pos (applyOps ops stack) false := by
                    rw [istep_eq_found hend hfm, istepGo_zero, if_neg hst]
                  rw [scanLoop_succ_go hstep] at h
                  cases hrec : scanLoop flat input fuel pos (applyOps ops stack)
                      false with
                  | ok toks' fs' =>
                      rw [hrec] at h
                      simp only [consTok, Option.toList, List.nil_append,
                        ScanResult.ok.injEq] at h
                      obtain ⟨rfl, rfl⟩ := h
                      exact ih pos (applyOps ops stack) false toks' fs'
                        (by omega) hrec
                  | tableError => rw [hrec] at h; simp [consTok] at h
                  | outOfFuel => rw [hrec] at h; simp [consTok] at h
            | succ m =>
                rw [scanLoop_succ_go
                  (by rw [istep_eq_found hend hfm, istepGo_succ])] at h
                have hle : m + 1 ≤ input.length - pos := by
                  have := findMatch_some_le hfm
                  simp [List.length_drop] at this
                  omega
                cases hrec : scanLoop flat input fuel (pos + (m + 1))
                    (applyOps ops stack) false with
                | ok toks' fs' =>
                    rw [hrec] at h
                    simp only [consTok, Option.toList, List.singleton_append,
                      ScanResult.ok.injEq] at h
                    obtain ⟨rfl, rfl⟩ := h
                    obtain ⟨ih1, ih2⟩ := ih (pos + (m + 1)) (applyOps ops stack)
                      false toks' fs' (by omega) hrec
                    have hlen : ((input.drop pos).take (m + 1)).length = m + 1 := by
                      simp [List.length_take, List.length_drop]
                      omega
                    have hkey : (input.drop pos).take (m + 1)
                        ++ input.drop (pos + (m + 1)) = input.drop pos := by
                      have h1 : input.drop (pos + (m + 1))
                          = (input.drop pos).drop (m + 1) := by
                        rw [List.drop_drop, Nat.add_comm]
                      rw [h1, List.take_append_drop]
                    have hne : (input.drop pos).take (m + 1) ≠ [] := by
                      intro hc
                      rw [hc] at hlen
                      simp at hlen
                    refine ⟨?_, rfl, hne, ?_⟩
                    · simp only [List.flatMap_cons, ih1]
                      exact hkey
                    · show covers toks' (pos + ((input.drop pos).take (m + 1)).length)
                        input.length
                      rw [hlen]
                      exact ih2
                | tableError => rw [hrec] at h; simp [consTok] at h
                | outOfFuel => rw [hrec] at h; simp [consTok] at h
        | none =>
            rw [scanLoop_succ_go (istep_eq_fallback hend hfm)] at h
            cases hrec : scanLoop flat input fuel (pos + 1) stack false with
            | ok toks' fs' =>
                rw [hrec] at h
                simp only [consTok, Option.toList, List.singleton_append,
                  ScanResult.ok.injEq] at h
                obtain ⟨rfl, rfl⟩ := h
                obtain ⟨ih1, ih2⟩ := ih (pos + 1) stack false toks' fs'
                  (by omega) hrec
                have hlen : ((input.drop pos).take 1).length = 1 := by
                  simp [List.length_take, List.length_drop]
                  omega
                have hkey : (input.drop pos).take 1 ++ input.drop (pos + 1)
                    = input.drop pos := by
                  have h1 : input.drop (pos + 1) = (input.drop pos).drop 1 := by
                    rw [List.drop_drop, Nat.add_comm]
                  rw [h1, List.take_append_drop]
                have hne : (input.drop pos).take 1 ≠ [] := by
                  intro hc
                  rw [hc] at hlen
                  simp at hlen
                refine ⟨?_, rfl, hne, ?_⟩
                · simp only [List.flatMap_cons, ih1]
                  exact hkey
                · show covers toks' (pos + ((input.drop pos).take 1).length)
                    input.length
                  rw [hlen]
                  exact ih2
            | tableError => rw [hrec] at h; simp [consTok] at h
            | outOfFuel => rw [hrec] at h; simp [consTok] at h

/-! ## The flattened states of the table -/

/-- The flattened `commentsandwhitespace` rules. -/
def cwsFlat : List FEntry :=
  [.rule wsRe .Text [],
   .rule htmlRe .Comment [],
   .rule lineCommentRe .CommentSingle [],
   .rule blockCommentRe .CommentMultiline []]

/-- The flattened `slashstartsregex` rules: the spliced
`commentsandwhitespace` rules first, then its own. -/
def slFlat : List FEntry :=
  [.rule wsRe .Text [],
   .rule htmlRe .Comment [],
   .rule lineCommentRe .CommentSingle [],
   .rule blockCommentRe .CommentMultiline [],
   .rule regexLitRe .StringRegex [.pop],
   .rule slashLookRe .Text [.pop, .push "badregex"],
   .dflt [.pop]]

/-- The flattened `badregex` rules. -/
def badregexFlat : List FEntry := [.rule nlRe .Text [.pop]]

/-- The flattened `root` rules. -/
def rootFlat : List FEntry :=
  [.rule hashbangRe .CommentHashbang [],
   .rule lslRe .Text [.push "slashstartsregex"],
   .rule wsRe .Text [],
   .rule htmlRe .Comment [],
   .rule lineCommentRe .CommentSingle [],
   .rule blockCommentRe .CommentMultiline [],
   .rule floatRe .NumberFloat [],
   .rule binRe .NumberBin [],
   .rule octRe .NumberOct [],
   .rule hexRe .NumberHex [],
   .rule intRe .NumberInteger [],
   .rule dotsRe .Punctuation [],
   .rule opRe .Operator [.push "slashstartsregex"],
   .rule openPunctRe .Punctuation [.push "slashstartsregex"],
   .rule closePunctRe .Punctuation [],
   .rule kwRe .Keyword [.push "slashstartsregex"],
   .rule declKwRe .KeywordDeclaration [.push "slashstartsregex"],
   .rule constKwRe .KeywordConstant [],
   .rule builtinRe .NameBuiltin [],
   .rule dqRe .StringDouble [],
   .rule sqRe .StringSingle [],
   .rule btRe .StringBacktick [.push "interp"],
   .rule varRe .NameVariable [.push "slashstartsregex"],
   .rule atVarRe .NameVariableInstance [.push "slashstartsregex"],
   .rule atRe .NameOther [.push "slashstartsregex"],
   .rule identRe .NameOther [.push "slashstartsregex"]]

/-- The flattened `interp` rules. -/
def interpFlat : List FEntry :=
  [.rule btRe .StringBacktick [.pop],
   .rule escEscRe .StringBacktick [],
   .rule escBtRe .StringBacktick [],
   .rule interpOpenRe .StringInterpol [.push "interp-inside"],
   .rule dollarRe .StringBacktick [],
   .rule chunkRe .StringBacktick []]

/-- The flattened `interp-inside` rules: its own brace rule, then the
spliced `root` rules. -/
def iiFlat : List FEntry := .rule braceCloseRe .StringInterpol [.pop] :: rootFlat

theorem ijmFlat_cws : ijmFlat "commentsandwhitespace" = cwsFlat := rfl

theorem ijmFlat_sl : ijmFlat "slashstartsregex" = slFlat := rfl

theorem ijmFlat_badregex : ijmFlat "badregex" = badregexFlat := rfl

theorem ijmFlat_root : ijmFlat "root" = rootFlat := rfl

theorem ijmFlat_interp : ijmFlat "interp" = interpFlat := rfl

theorem ijmFlat_ii : ijmFlat "interp-inside" = iiFlat := rfl

/-! ## Pattern facts used by the progress argument -/

theorem mlens_chr_nil {c : Char} {prev : Option Char} :
    mlens (.chr c) prev [] = [] := rfl

theorem mlens_chr_cons {c d : Char} {prev : Option Char} {t : List Char} :
    mlens (.chr c) prev (d :: t) = if lowN c = lowN d then [1] else [] := rfl

theorem mlens_cls_nil {p : Nat → Bool} {prev : Option Char} :
    mlens (.cls p) prev [] = [] := rfl

theorem mlens_cls_cons {p : Nat → Bool} {prev : Option Char} {d : Char}
    {t : List Char} :
    mlens (.cls p) prev (d :: t) = if p (lowN d) then [1] else [] := rfl

/-- A leading whitespace character makes the `\s+` rule match. -/
theorem matchLen_ws_isSome {prev : Option Char} {c : Char} {rest : List Char}
    (hs : spaceP (lowN c) = true) :
    (matchLen wsRe prev (c :: rest)).isSome = true := by
  show (matchLen (.seq (.cls spaceP) (.star (.cls spaceP))) prev (c :: rest)).isSome = true
  unfold matchLen
  rw [mlens_seq]
  rw [mlens_cls_cons, if_pos hs]
  simp only [List.flatMap_cons, List.flatMap_nil, List.append_nil]
  rw [if_pos (by simp)]
  cases hstar : mlens (.star (.cls spaceP)) (newPrev prev (c :: rest) 1)
      ((c :: rest).drop 1) with
  | nil => exact absurd hstar mlens_star_ne_nil
  | cons a t => simp

/-- Conversely, if `\s+` fails then the head is not whitespace. -/
theorem space_of_ws_none {prev : Option Char} {c : Char} {rest : List Char}
    (h : matchLen wsRe prev (c :: rest) = none) : spaceP (lowN c) = false := by
  cases hb : spaceP (lowN c) with
  | false => rfl
  | true =>
      have := @matchLen_ws_isSome prev c rest hb
      rw [h] at this
      simp at this

/-- A leading slash makes the lookahead `(?=/)` match zero characters. -/
theorem matchLen_slashLook_some {prev : Option Char} {c : Char}
    {rest : List Char} (hs : lowN c = 47) :
    matchLen slashLookRe prev (c :: rest) = some 0 := by
  have hc : lowN '/' = lowN c := by rw [hs]; decide
  show (mlens (.look (.chr '/')) prev (c :: rest)).head? = some 0
  rw [mlens_look, mlens_chr_cons, if_pos hc]
  rfl

/-- If the lookahead `(?=/)` fails, the slash pattern has no match at all. -/
theorem chr_slash_nil_of_slashLook_none {prev : Option Char} {l : List Char}
    (h : matchLen slashLookRe prev l = none) :
    mlens (.chr '/') prev l = [] := by
  unfold matchLen slashLookRe at h
  rw [mlens_look] at h
  by_cases he : (mlens (.chr '/') prev l).isEmpty
  · simpa using he
  · rw [if_neg he] at h
    simp at h

/-- If the `<!--` rule fails, its pattern has no match at all. -/
theorem html_nil_of_none {prev : Option Char} {l : List Char}
    (h : matchLen htmlRe prev l = none) : mlens htmlRe prev l = [] := by
  unfold matchLen at h
  exact List.head?_eq_none_iff.mp h

/-- If none of whitespace, `<!--` and `(?=/)` match, then the line-start
lookahead rule `^(?=\s|/|<!--)` cannot match either: its lookahead is
exactly the disjunction of those three possibilities. -/
theorem matchLen_lsl_none_of {prev : Option Char} {l : List Char}
    (hws : ∀ c rest, l = c :: rest → spaceP (lowN c) = false)
    (hsl : mlens (.chr '/') prev l = [])
    (hhtml : mlens htmlRe prev l = []) :
    matchLen lslRe prev l = none := by
  show (mlens (.seq .lineStart
    (.look (ralts [.cls spaceP, .chr '/', rstr "<!--"]))) prev l).head? = none
  rw [mlens_seq]
  have halts : mlens (ralts [.cls spaceP, .chr '/', rstr "<!--"]) prev l = [] := by
    show mlens (.alt (.cls spaceP) (.alt (.chr '/')
      (.alt htmlRe (.cls fun _ => false)))) prev l = []
    rw [mlens_alt, mlens_alt, mlens_alt]
    have h1 : mlens (.cls spaceP) prev l = [] := by
      cases l with
      | nil => rfl
      | cons c rest =>
          rw [mlens_cls_cons, hws c rest rfl]
          simp
    have h4 : mlens (.cls (fun _ => false)) prev l = [] := by
      cases l with
      | nil => rfl
      | cons c rest => rw [mlens_cls_cons]; simp
    rw [h1, hsl, hhtml, h4]
    rfl
  have hlook : mlens (.look (ralts [.cls spaceP, .chr '/', rstr "<!--"]))
      prev l = [] := by
    rw [mlens_look, halts]
    rfl
  cases hls : mlens .lineStart prev l with
  | nil => simp
  | cons a t =>
      have heq : (if prev.isNone ∨ prev.map lowN = some 10 then ([0] : List Nat)
          else []) = a :: t := hls
      by_cases hcond : prev.isNone = true ∨ prev.map lowN = some 10
      · rw [if_pos hcond] at heq
        injection heq with h1 h2
        subst h1; subst h2
        simp only [List.flatMap_cons, List.flatMap_nil, List.append_nil]
        rw [if_pos (by omega)]
        have hd : l.drop 0 = l := by simp
        have hp : newPrev prev l 0 = prev := rfl
        rw [hd, hp, hlook]
        simp
      · rw [if_neg hcond] at heq
        simp at heq

/-! ## Stack invariant of the table's reachable configurations -/

theorem cons_ne_self' {A : Type} {a : A} {l : List A} : a :: l ≠ l := by
  intro h
  have := congrArg List.length h
  simp at this

theorem getLast?_cons_ne {A : Type} {a : A} {t : List A} (ht : t ≠ []) :
    (a :: t).getLast? = t.getLast? := by
  cases t with
  | nil => exact absurd rfl ht
  | cons b u => simp [List.getLast?_cons_cons]

theorem applyOps_nil {st : List String} : applyOps [] st = st := rfl

theorem applyOps_pop {st : List String} :
    applyOps [.pop] st = if st.length ≤ 1 then st else st.tail := rfl

theorem applyOps_push {X : String} {st : List String} :
    applyOps [.push X] st = X :: st := rfl

theorem applyOps_popPush {X : String} {st : List String} :
    applyOps [.pop, .push X] st =
      X :: (if st.length ≤ 1 then st else st.tail) := rfl

theorem stackTop_cons {a : String} {t : List String} : stackTop (a :: t) = a := rfl

/-- The states that can ever sit on the stack while scanning with the
table: `commentsandwhitespace` is only ever included, never pushed. -/
def stNames : List String :=
  ["root", "slashstartsregex", "badregex", "interp", "interp-inside"]

/-- Invariant of every reachable stack: nonempty, rooted at `"root"`,
with `slashstartsregex` never buried under another frame, and all frames
drawn from the pushable state names. -/
def INVst (stack : List String) : Prop :=
  stack ≠ [] ∧ stack.getLast? = some "root" ∧
  "slashstartsregex" ∉ stack.tail ∧ ∀ x ∈ stack, x ∈ stNames

theorem INVst_init : INVst ["root"] := by
  refine ⟨by simp, rfl, by simp, ?_⟩
  intro x hx
  simp at hx
  simp [hx, stNames]

theorem INVst_no_sl {stack : List String} (h : INVst stack)
    (htop : stackTop stack ≠ "slashstartsregex") :
    "slashstartsregex" ∉ stack := by
  obtain ⟨hne, -, htl, -⟩ := h
  cases stack with
  | nil => simp
  | cons a t =>
      simp only [List.mem_cons]
      rintro (rfl | hmem)
      · exact htop rfl
      · exact htl hmem

theorem INVst_push {stack : List String} {X : String} (h : INVst stack)
    (hX : X ∈ stNames) (hns : "slashstartsregex" ∉ stack) :
    INVst (X :: stack) := by
  obtain ⟨hne, hlast, htl, hmem⟩ := h
  refine ⟨by simp, ?_, ?_, ?_⟩
  · rw [getLast?_cons_ne hne]; exact hlast
  · simpa using hns
  · intro x hx
    rcases List.mem_cons.mp hx with rfl | hx
    · exact hX
    · exact hmem x hx

theorem INVst_pop {stack : List String} (h : INVst stack) :
    INVst (applyOps [.pop] stack) := by
  rw [applyOps_pop]
  by_cases hl : stack.length ≤ 1
  · rw [if_pos hl]; exact h
  · rw [if_neg hl]
    obtain ⟨hne, hlast, htl, hmem⟩ := h
    cases stack with
    | nil => simp at hl
    | cons a t =>
        have ht : t ≠ [] := by
          intro hc
          rw [hc] at hl
          simp at hl
        refine ⟨ht, ?_, ?_, ?_⟩
        · show t.getLast? = some "root"
          rw [← getLast?_cons_ne (a := a) ht]; exact hlast
        · show "slashstartsregex" ∉ t.tail
          intro hc
          exact htl (List.mem_of_mem_tail hc)
        · show ∀ x ∈ t, x ∈ stNames
          intro x hx
          exact hmem x (List.mem_cons_of_mem a hx)

/-- Shape of the stack when `slashstartsregex` is active. -/
theorem sl_shape {stack : List String} (h : INVst stack)
    (htop : stackTop stack = "slashstartsregex") :
    ∃ t, stack = "slashstartsregex" :: t ∧ t ≠ [] ∧
      t.getLast? = some "root" ∧ "slashstartsregex" ∉ t ∧
      ∀ x ∈ t, x ∈ stNames := by
  obtain ⟨hne, hlast, htl, hmem⟩ := h
  cases stack with
  | nil => exact absurd rfl hne
  | cons a t =>
      have ha : a = "slashstartsregex" := htop
      subst ha
      have ht : t ≠ [] := by
        intro hc
        subst hc
        simp [List.getLast?] at hlast
      refine ⟨t, rfl, ht, ?_, htl, ?_⟩
      · rw [← getLast?_cons_ne (a := "slashstartsregex") ht]; exact hlast
      · intro x hx
        exact hmem x (List.mem_cons_of_mem _ hx)

/-! ## Which rules can win in each state -/

set_option maxRecDepth 100000 in
/-- In `root`, a zero-width winner can only be the line-start lookahead
rule, which pushes `slashstartsregex`. -/
theorem root_zero {prev : Option Char} {l : List Char} {k : TokenKind}
    {ops : List StackCmd}
    (h : findMatch rootFlat prev l = some (0, k, ops)) :
    ops = [.push "slashstartsregex"] ∧ (matchLen lslRe prev l).isSome = true := by
  rcases findMatch_some_mem h with ⟨r, hmem, hr⟩ | ⟨hmem, -⟩
  · have hle := (matchLen_bounds hr).1
    simp only [rootFlat, List.mem_cons, List.not_mem_nil, or_false] at hmem
    rcases hmem with h'|h'|h'|h'|h'|h'|h'|h'|h'|h'|h'|h'|h'|h'|h'|h'|h'|h'|h'|h'|h'|h'|h'|h'|h'|h'
    all_goals cases h'
    all_goals first
      | exact absurd hle (by decide)
      | exact ⟨rfl, by rw [hr]; rfl⟩
  · simp [rootFlat] at hmem

set_option maxRecDepth 100000 in
/-- In `root`, every winning rule's transition is one of: none, push
`slashstartsregex`, push `interp`. -/
theorem root_ops {prev : Option Char} {l : List Char} {n : Nat}
    {k : TokenKind} {ops : List StackCmd}
    (h : findMatch rootFlat prev l = some (n, k, ops)) :
    ops = [] ∨ ops = [.push "slashstartsregex"] ∨ ops = [.push "interp"] := by
  rcases findMatch_some_mem h with ⟨r, hmem, -⟩ | ⟨hmem, -⟩
  · simp only [rootFlat, List.mem_cons, List.not_mem_nil, or_false] at hmem
    rcases hmem with h'|h'|h'|h'|h'|h'|h'|h'|h'|h'|h'|h'|h'|h'|h'|h'|h'|h'|h'|h'|h'|h'|h'|h'|h'|h'
    all_goals cases h'
    all_goals first
      | exact .inl rfl
      | exact .inr (.inl rfl)
      | exact .inr (.inr rfl)
  · simp [rootFlat] at hmem

/-- In `interp-inside`, a zero-width winner can only be the spliced
line-start lookahead rule of `root`. -/
theorem ii_zero {prev : Option Char} {l : List Char} {k : TokenKind}
    {ops : List StackCmd}
    (h : findMatch iiFlat prev l = some (0, k, ops)) :
    ops = [.push "slashstartsregex"] ∧ (matchLen lslRe prev l).isSome = true := by
  unfold iiFlat at h
  cases h1 : matchLen braceCloseRe prev l with
  | some n =>
      rw [findMatch_rule_some h1] at h
      simp only [Option.some.injEq, Prod.mk.injEq] at h
      obtain ⟨hn, -, -⟩ := h
      subst hn
      exact absurd (matchLen_bounds h1).1 (by decide)
  | none =>
      rw [findMatch_rule_none h1] at h
      exact root_zero h

/-- In `interp-inside`, every winning transition is a pop (the closing
brace) or one of the `root` transitions. -/
theorem ii_ops {prev : Option Char} {l : List Char} {n : Nat}
    {k : TokenKind} {ops : List StackCmd}
    (h : findMatch iiFlat prev l = some (n, k, ops)) :
    ops = [.pop] ∨ ops = [] ∨ ops = [.push "slashstartsregex"] ∨
      ops = [.push "interp"] := by
  unfold iiFlat at h
  cases h1 : matchLen braceCloseRe prev l with
  | some m =>
      rw [findMatch_rule_some h1] at h
      simp only [Option.some.injEq, Prod.mk.injEq] at h
      obtain ⟨-, -, hops⟩ := h
      exact .inl hops.symm
  | none =>
      rw [findMatch_rule_none h1] at h
      exact .inr (root_ops h)

/-- In `slashstartsregex`, a zero-width winner is either the `(?=/)` rule
(which swaps to `badregex`) or the final `default` (a bare pop), and in
the latter case none of the whitespace, `<!--` and `(?=/)` patterns
matched. -/
theorem sl_zero {prev : Option Char} {l : List Char} {k : TokenKind}
    {ops : List StackCmd}
    (h : findMatch slFlat prev l = some (0, k, ops)) :
    (ops = [.pop, .push "badregex"] ∧ matchLen slashLookRe prev l = some 0) ∨
    (ops = [.pop] ∧ matchLen wsRe prev l = none ∧
      matchLen htmlRe prev l = none ∧ matchLen slashLookRe prev l = none) := by
  unfold slFlat at h
  cases h1 : matchLen wsRe prev l with
  | some n =>
      rw [findMatch_rule_some h1] at h
      simp only [Option.some.injEq, Prod.mk.injEq] at h
      obtain ⟨hn, -, -⟩ := h
      subst hn
      exact absurd (matchLen_bounds h1).1 (by decide)
  | none =>
  rw [findMatch_rule_none h1] at h
  cases h2 : matchLen htmlRe prev l with
  | some n =>
      rw [findMatch_rule_some h2] at h
      simp only [Option.some.injEq, Prod.mk.injEq] at h
      obtain ⟨hn, -, -⟩ := h
      subst hn
      exact absurd (matchLen_bounds h2).1 (by decide)
  | none =>
  rw [findMatch_rule_none h2] at h
  cases h3 : matchLen lineCommentRe prev l with
  | some n =>
      rw [findMatch_rule_some h3] at h
      simp only [Option.some.injEq, Prod.mk.injEq] at h
      obtain ⟨hn, -, -⟩ := h
      subst hn
      exact absurd (matchLen_bounds h3).1 (by decide)
  | none =>
  rw [findMatch_rule_none h3] at h
  cases h4 : matchLen blockCommentRe prev l with
  | some n =>
      rw [findMatch_rule_some h4] at h
      simp only [Option.some.injEq, Prod.mk.injEq] at h
      obtain ⟨hn, -, -⟩ := h
      subst hn
      exact absurd (matchLen_bounds h4).1 (by decide)
  | none =>
  rw [findMatch_rule_none h4] at h
  cases h5 : matchLen regexLitRe prev l with
  | some n =>
      rw [findMatch_rule_some h5] at h
      simp only [Option.some.injEq, Prod.mk.injEq] at h
      obtain ⟨hn, -, -⟩ := h
      subst hn
      exact absurd (matchLen_bounds h5).1 (by decide)
  | none =>
  rw [findMatch_rule_none h5] at h
  cases h6 : matchLen slashLookRe prev l with
  | some n =>
      rw [findMatch_rule_some h6] at h
      simp only [Option.some.injEq, Prod.mk.injEq] at h
      obtain ⟨hn, -, hops⟩ := h
      subst hn
      exact .inl ⟨hops.symm, rfl⟩
  | none =>
      rw [findMatch_rule_none h6, findMatch_cons_dflt] at h
      simp only [Option.some.injEq, Prod.mk.injEq] at h
      obtain ⟨-, -, hops⟩ := h
      exact .inr ⟨hops.symm, rfl, rfl, rfl⟩

/-- In `slashstartsregex`, every winning transition is empty, a pop, or
the pop-and-push to `badregex`. -/
theorem sl_ops {prev : Option Char} {l : List Char} {n : Nat}
    {k : TokenKind} {ops : List StackCmd}
    (h : findMatch slFlat prev l = some (n, k, ops)) :
    ops = [] ∨ ops = [.pop] ∨ ops = [.pop, .push "badregex"] := by
  rcases findMatch_some_mem h with ⟨r, hmem, -⟩ | ⟨hmem, -⟩
  · simp only [slFlat, List.mem_cons, List.not_mem_nil, or_false] at hmem
    rcases hmem with h'|h'|h'|h'|h'|h'|h'
    all_goals cases h'
    all_goals first
      | exact .inl rfl
      | exact .inr (.inl rfl)
      | exact .inr (.inr rfl)
  · simp only [slFlat, List.mem_cons, List.not_mem_nil, or_false] at hmem
    rcases hmem with h'|h'|h'|h'|h'|h'|h'
    all_goals cases h'
    all_goals first
      | exact .inl rfl
      | exact .inr (.inl rfl)

/-- `badregex` has no zero-width rule. -/
theorem badregex_zero {prev : Option Char} {l : List Char} {k : TokenKind}
    {ops : List StackCmd}
    (h : findMatch badregexFlat prev l = some (0, k, ops)) : False := by
  unfold badregexFlat at h
  cases h1 : matchLen nlRe prev l with
  | some n =>
      rw [findMatch_rule_some h1] at h
      simp only [Option.some.injEq, Prod.mk.injEq] at h
      obtain ⟨hn, -, -⟩ := h
      subst hn
      exact absurd (matchLen_bounds h1).1 (by decide)
  | none =>
      rw [findMatch_rule_none h1, findMatch_nil] at h
      simp at h

/-- In `badregex`, the only transition is a pop. -/
theorem badregex_ops {prev : Option Char} {l : List Char} {n : Nat}
    {k : TokenKind} {ops : List StackCmd}
    (h : findMatch badregexFlat prev l = some (n, k, ops)) : ops = [.pop] := by
  rcases findMatch_some_mem h with ⟨r, hmem, -⟩ | ⟨hmem, -⟩
  · simp only [badregexFlat, List.mem_cons, List.not_mem_nil, or_false] at hmem
    cases hmem
    rfl
  · simp [badregexFlat] at hmem

/-- `interp` has no zero-width rule. -/
theorem interp_zero {prev : Option Char} {l : List Char} {k : TokenKind}
    {ops : List StackCmd}
    (h : findMatch interpFlat prev l = some (0, k, ops)) : False := by
  rcases findMatch_some_mem h with ⟨r, hmem, hr⟩ | ⟨hmem, -⟩
  · have hle := (matchLen_bounds hr).1
    simp only [interpFlat, List.mem_cons, List.not_mem_nil, or_false] at hmem
    rcases hmem with h'|h'|h'|h'|h'|h'
    all_goals cases h'
    all_goals exact absurd hle (by decide)
  · simp [interpFlat] at hmem

/-- In `interp`, every winning transition is empty, a pop, or the push to
`interp-inside`. -/
theorem interp_ops {prev : Option Char} {l : List Char} {n : Nat}
    {k : TokenKind} {ops : List StackCmd}
    (h : findMatch interpFlat prev l = some (n, k, ops)) :
    ops = [] ∨ ops = [.pop] ∨ ops = [.push "interp-inside"] := by
  rcases findMatch_some_mem h with ⟨r, hmem, -⟩ | ⟨hmem, -⟩
  · simp only [interpFlat, List.mem_cons, List.not_mem_nil, or_false] at hmem
    rcases hmem with h'|h'|h'|h'|h'|h'
    all_goals cases h'
    all_goals first
      | exact .inl rfl
      | exact .inr (.inl rfl)
      | exact .inr (.inr rfl)
  · simp [interpFlat] at hmem

/-! ## Totality of the scan for the table under study -/

/-- The line-start lookahead rule can fire at this offset. -/
def lslLive (input : List Char) (pos : Nat) : Bool :=
  (matchLen lslRe (prevAt input pos) (input.drop pos)).isSome

/-- How many more zero-width steps the scan can take at this offset: at
most two (the line-start lookahead push, then one transition out of
`slashstartsregex`). -/
def phase (input : List Char) (pos : Nat) (stack : List String) : Nat :=
  if stackTop stack = "slashstartsregex" then 1
  else if (stackTop stack = "root" ∨ stackTop stack = "interp-inside")
      ∧ lslLive input pos then 2
  else 0

theorem phase_le {input : List Char} {pos : Nat} {stack : List String} :
    phase input pos stack ≤ 2 := by
  unfold phase
  split
  · omega
  · split <;> omega

/-- Every configuration satisfying the stack invariant completes the scan
within the fuel budget `3 × (remaining characters) + phase`: each step
either consumes at least one character or is one of the finitely many
zero-width transitions, which strictly decrease the phase. -/
theorem scanLoop_ijm_ok (input : List Char) :
    ∀ fuel pos stack g, INVst stack → pos ≤ input.length →
    3 * (input.length - pos) + phase input pos stack < fuel →
    ∃ toks fs, scanLoop ijmFlat input fuel pos stack g = .ok toks fs := by
  intro fuel
  induction fuel with
  | zero => intro pos stack g hI hp hm; omega
  | succ fuel ih =>
      intro pos stack g hI hp hm
      by_cases hend : input.length ≤ pos
      · exact ⟨[], stack, scanLoop_succ_halt (istep_eq_halt hend)⟩
      · have hposlt : pos < input.length := by omega
        have fallback : findMatch (ijmFlat (stackTop stack)) (prevAt input pos)
            (input.drop pos) = none →
            ∃ toks fs, scanLoop ijmFlat input (fuel + 1) pos stack g
              = .ok toks fs := by
          intro hfm
          obtain ⟨toks, fs, hrec⟩ := ih (pos + 1) stack false hI (by omega)
            (by have := @phase_le input (pos + 1) stack
                have := @phase_le input pos stack
                omega)
          exact ⟨⟨pos, .Error, (input.drop pos).take 1⟩ :: toks, fs, by
            rw [scanLoop_succ_go (istep_eq_fallback hend hfm), hrec]; rfl⟩
        have consume : ∀ m k ops,
            findMatch (ijmFlat (stackTop stack)) (prevAt input pos)
              (input.drop pos) = some (m + 1, k, ops) →
            INVst (applyOps ops stack) →
            ∃ toks fs, scanLoop ijmFlat input (fuel + 1) pos stack g
              = .ok toks fs := by
          intro m k ops hfm hI'
          have hle : m + 1 ≤ input.length - pos := by
            have := findMatch_some_le hfm
            simp [List.length_drop] at this
            omega
          obtain ⟨toks, fs, hrec⟩ := ih (pos + (m + 1)) (applyOps ops stack)
            false hI' (by omega)
            (by have := @phase_le input (pos + (m + 1)) (applyOps ops stack)
                omega)
          exact ⟨⟨pos, k, (input.drop pos).take (m + 1)⟩ :: toks, fs, by
            rw [scanLoop_succ_go
              ((istep_eq_found hend hfm).trans istepGo_succ), hrec]; rfl⟩
        have zw : ∀ k ops,
            findMatch (ijmFlat (stackTop stack)) (prevAt input pos)
              (input.drop pos) = some (0, k, ops) →
            applyOps ops stack ≠ stack →
            INVst (applyOps ops stack) →
            phase input pos (applyOps ops stack) < phase input pos stack →
            ∃ toks fs, scanLoop ijmFlat input (fuel + 1) pos stack g
              = .ok toks fs := by
          intro k ops hfm hne hI' hph
          obtain ⟨toks, fs, hrec⟩ := ih pos (applyOps ops stack) false hI'
            hp (by omega)
          exact ⟨toks, fs, by
            rw [scanLoop_succ_go (by
              rw [istep_eq_found hend hfm, istepGo_zero, if_neg hne]), hrec]
            rfl⟩
        have htop5 : stackTop stack ∈ stNames := by
          obtain ⟨hne, -, -, hmem⟩ := hI
          cases stack with
          | nil => exact absurd rfl hne
          | cons a t => exact hmem a (by simp)
        simp only [stNames, List.mem_cons, List.not_mem_nil, or_false] at htop5
        rcases htop5 with hroot | hsl | hbad | hint | hii
        · -- active state: root
          have hns : "slashstartsregex" ∉ stack :=
            INVst_no_sl hI (by rw [hroot]; decide)
          cases hfm : findMatch (ijmFlat (stackTop stack)) (prevAt input pos)
              (input.drop pos) with
          | none => exact fallback hfm
          | some res =>
              obtain ⟨n, k, ops⟩ := res
              have hfm' : findMatch rootFlat (prevAt input pos)
                  (input.drop pos) = some (n, k, ops) := by
                rw [← ijmFlat_root, ← hroot]; exact hfm
              cases n with
              | zero =>
                  obtain ⟨hops, hlive⟩ := root_zero hfm'
                  subst hops
                  have happ : applyOps [.push "slashstartsregex"] stack
                      = "slashstartsregex" :: stack := applyOps_push
                  refine zw _ _ hfm ?_ ?_ ?_
                  · rw [happ]; exact cons_ne_self'
                  · rw [happ]
                    exact INVst_push hI (by simp [stNames]) hns
                  · rw [happ]
                    have h1 : phase input pos ("slashstartsregex" :: stack)
                        = 1 := by
                      simp [phase, stackTop]
                    have h2 : phase input pos stack = 2 := by
                      unfold phase
                      rw [if_neg (by rw [hroot]; decide),
                        if_pos ⟨Or.inl hroot, hlive⟩]
                    omega
              | succ m =>
                  rcases root_ops hfm' with rfl | rfl | rfl
                  · exact consume m k [] hfm (by rw [applyOps_nil]; exact hI)
                  · exact consume m k _ hfm (by
                      rw [applyOps_push]
                      exact INVst_push hI (by simp [stNames]) hns)
                  · exact consume m k _ hfm (by
                      rw [applyOps_push]
                      exact INVst_push hI (by simp [stNames]) hns)
        · -- active state: slashstartsregex
          obtain ⟨t, hshape, ht, hlast_t, hsl_t, hmem_t⟩ := sl_shape hI hsl
          have htlen : 0 < t.length := List.length_pos.mpr ht
          have hlen2 : ¬(stack.length ≤ 1) := by
            rw [hshape]
            simp only [List.length_cons]
            omega
          cases hfm : findMatch (ijmFlat (stackTop stack)) (prevAt input pos)
              (input.drop pos) with
          | none => exact fallback hfm
          | some res =>
              obtain ⟨n, k, ops⟩ := res
              have hfm' : findMatch slFlat (prevAt input pos)
                  (input.drop pos) = some (n, k, ops) := by
                rw [← ijmFlat_sl, ← hsl]; exact hfm
              have hIbad : INVst ("badregex" :: t) := by
                refine ⟨by simp, ?_, ?_, ?_⟩
                · rw [getLast?_cons_ne ht]; exact hlast_t
                · show "slashstartsregex" ∉ t
                  exact hsl_t
                · intro x hx
                  rcases List.mem_cons.mp hx with rfl | hx
                  · simp [stNames]
                  · exact hmem_t x hx
              have happbad : applyOps [.pop, .push "badregex"] stack
                  = "badregex" :: t := by
                rw [applyOps_popPush, if_neg hlen2, hshape]
                rfl
              have hIt : INVst t := by
                refine ⟨ht, hlast_t, ?_, hmem_t⟩
                intro hc
                exact hsl_t (List.mem_of_mem_tail hc)
              have happpop : applyOps [.pop] stack = t := by
                rw [applyOps_pop, if_neg hlen2, hshape]
                rfl
              have hphsl : phase input pos stack = 1 := by
                unfold phase
                rw [if_pos hsl]
              cases n with
              | zero =>
                  rcases sl_zero hfm' with ⟨hops, hlook⟩ |
                    ⟨hops, hws, hhtml, hlook⟩
                  · subst hops
                    refine zw _ _ hfm ?_ ?_ ?_
                    · rw [happbad, hshape]
                      intro hc
                      injection hc with hc1
                      exact absurd hc1 (by decide)
                    · rw [happbad]; exact hIbad
                    · rw [happbad, hphsl]
                      unfold phase
                      rw [stackTop_cons]
                      rw [if_neg (by decide),
                        if_neg (by rintro ⟨hc | hc, -⟩ <;>
                          exact absurd hc (by decide))]
                      omega
                  · subst hops
                    have hlslnone : matchLen lslRe (prevAt input pos)
                        (input.drop pos) = none := by
                      refine matchLen_lsl_none_of ?_ ?_ ?_
                      · intro c rest hEq
                        rw [hEq] at hws
                        exact space_of_ws_none hws
                      · exact chr_slash_nil_of_slashLook_none hlook
                      · exact html_nil_of_none hhtml
                    have hlivefalse : lslLive input pos = false := by
                      unfold lslLive
                      rw [hlslnone]
                      rfl
                    refine zw _ _ hfm ?_ ?_ ?_
                    · rw [happpop, hshape]
                      intro hc
                      exact cons_ne_self' hc.symm
                    · rw [happpop]; exact hIt
                    · rw [happpop, hphsl]
                      have : phase input pos t = 0 := by
                        unfold phase
                        rw [if_neg ?topne, if_neg ?condne]
                        case topne =>
                          intro hc
                          apply hsl_t
                          rw [← hc]
                          unfold stackTop
                          cases t with
                          | nil => exact absurd rfl ht
                          | cons b u => simp
                        case condne =>
                          rintro ⟨-, hc⟩
                          rw [hlivefalse] at hc
                          exact Bool.false_ne_true hc
                      omega
              | succ m =>
                  rcases sl_ops hfm' with rfl | rfl | rfl
                  · exact consume m k [] hfm (by rw [applyOps_nil]; exact hI)
                  · exact consume m k _ hfm (by rw [happpop]; exact hIt)
                  · exact consume m k _ hfm (by rw [happbad]; exact hIbad)
        · -- active state: badregex
          cases hfm : findMatch (ijmFlat (stackTop stack)) (prevAt input pos)
              (input.drop pos) with
          | none => exact fallback hfm
          | some res =>
              obtain ⟨n, k, ops⟩ := res
              have hfm' : findMatch badregexFlat (prevAt input pos)
                  (input.drop pos) = some (n, k, ops) := by
                rw [← ijmFlat_badregex, ← hbad]; exact hfm
              cases n with
              | zero => exact absurd hfm' (fun hc => badregex_zero hc)
              | succ m =>
                  obtain rfl := badregex_ops hfm'
                  exact consume m k _ hfm (INVst_pop hI)
        · -- active state: interp
          cases hfm : findMatch (ijmFlat (stackTop stack)) (prevAt input pos)
              (input.drop pos) with
          | none => exact fallback hfm
          | some res =>
              obtain ⟨n, k, ops⟩ := res
              have hfm' : findMatch interpFlat (prevAt input pos)
                  (input.drop pos) = some (n, k, ops) := by
                rw [← ijmFlat_interp, ← hint]; exact hfm
              cases n with
              | zero => exact absurd hfm' (fun hc => interp_zero hc)
              | succ m =>
                  rcases interp_ops hfm' with rfl | rfl | rfl
                  · exact consume m k [] hfm (by rw [applyOps_nil]; exact hI)
                  · exact consume m k _ hfm (INVst_pop hI)
                  · exact consume m k _ hfm (by
                      rw [applyOps_push]
                      exact INVst_push hI (by simp [stNames])
                        (INVst_no_sl hI (by rw [hint]; decide)))
        · -- active state: interp-inside
          have hns : "slashstartsregex" ∉ stack :=
            INVst_no_sl hI (by rw [hii]; decide)
          cases hfm : findMatch (ijmFlat (stackTop stack)) (prevAt input pos)
              (input.drop pos) with
          | none => exact fallback hfm
          | some res =>
              obtain ⟨n, k, ops⟩ := res
              have hfm' : findMatch iiFlat (prevAt input pos)
                  (input.drop pos) = some (n, k, ops) := by
                rw [← ijmFlat_ii, ← hii]; exact hfm
              cases n with
              | zero =>
                  obtain ⟨hops, hlive⟩ := ii_zero hfm'
                  subst hops
                  have happ : applyOps [.push "slashstartsregex"] stack
                      = "slashstartsregex" :: stack := applyOps_push
                  refine zw _ _ hfm ?_ ?_ ?_
                  · rw [happ]; exact cons_ne_self'
                  · rw [happ]
                    exact INVst_push hI (by simp [stNames]) hns
                  · rw [happ]
                    have h1 : phase input pos ("slashstartsregex" :: stack)
                        = 1 := by
                      simp [phase, stackTop]
                    have h2 : phase input pos stack = 2 := by
                      unfold phase
                      rw [if_neg (by rw [hii]; decide),
                        if_pos ⟨Or.inr hii, hlive⟩]
                    omega
              | succ m =>
                  rcases ii_ops hfm' with rfl | rfl | rfl | rfl
                  · exact consume m k _ hfm (INVst_pop hI)
                  · exact consume m k [] hfm (by rw [applyOps_nil]; exact hI)
                  · exact consume m k _ hfm (by
                      rw [applyOps_push]
                      exact INVst_push hI (by simp [stNames]) hns)
                  · exact consume m k _ hfm (by
                      rw [applyOps_push]
                      exact INVst_push hI (by simp [stNames]) hns)

/-- Every scan of the table under study succeeds within fuel linear in
the input length. -/
theorem scan_ijm_ok (input : List Char) :
    ∃ toks fs, scan ijmFlat input = .ok toks fs := by
  unfold scan
  refine scanLoop_ijm_ok input (3 * input.length + 3) 0 ["root"] false
    INVst_init (by omega) ?_
  have := @phase_le input 0 ["root"]
  omega

/-! ## Further step facts -/

theorem char_eq_of_toNat {c d : Char} (h : c.toNat = d.toNat) : c = d := by
  rw [← Char.ofNat_toNat c, ← Char.ofNat_toNat d, h]

/-- Every progressing step moves the cursor forward, or is a zero-width
transition that emits nothing and stays put. -/
theorem istep_pos_mono {flat : String → List FEntry} {input : List Char}
    {pos : Nat} {stack : List String} {g : Bool} {t : Option Token}
    {p' : Nat} {s' : List String} {g' : Bool}
    (h : istep flat input pos stack g = .go t p' s' g') :
    pos ≤ p' ∧ (pos < p' ∨ (t = none ∧ p' = pos)) := by
  by_cases hend : input.length ≤ pos
  · rw [istep_eq_halt hend] at h
    cases h
  · cases hfm : findMatch (flat (stackTop stack)) (prevAt input pos)
        (input.drop pos) with
    | none =>
        rw [istep_eq_fallback hend hfm] at h
        cases h
        exact ⟨by omega, .inl (by omega)⟩
    | some res =>
        obtain ⟨n, k, ops⟩ := res
        rw [istep_eq_found hend hfm] at h
        cases n with
        | zero =>
            rw [istepGo_zero] at h
            by_cases hst : applyOps ops stack = stack
            · rw [if_pos hst] at h
              cases g with
              | true => simp at h
              | false =>
                  simp only [Bool.false_eq_true, if_false] at h
                  cases h
                  exact ⟨le_refl _, .inr ⟨rfl, rfl⟩⟩
            · rw [if_neg hst] at h
              cases h
              exact ⟨le_refl _, .inr ⟨rfl, rfl⟩⟩
        | succ m =>
            rw [istepGo_succ] at h
            cases h
            exact ⟨by omega, .inl (by omega)⟩

/-! ## The claims -/

/-- Claim C1: for every input, the scan succeeds and emits tokens whose
spans are strictly increasing, contiguous and non-overlapping
(`covers toks 0 input.length`), and whose texts concatenate back to the
original input exactly. -/
theorem spec_c1_token_stream_partitions_input (input : List Char) :
    ∃ toks fs, scan ijmFlat input = .ok toks fs ∧
      toks.flatMap Token.text = input ∧ covers toks 0 input.length := by
  obtain ⟨toks, fs, h⟩ := scan_ijm_ok input
  obtain ⟨h1, h2⟩ := scanLoop_covers ijmFlat input (3 * input.length + 3)
    0 ["root"] false toks fs (by omega) h
  exact ⟨toks, fs, h, by simpa using h1, h2⟩

set_option maxRecDepth 100000 in
/-- Claim C2: rules are tried in declaration order and the first whose
pattern matches at the cursor wins; once an entry fires, later entries
are never consulted, even if they would match more text.  Concretely, on
`"@foo"` in `root` the bare `@` rule emits a one-character token although
the later identifier rule would have matched all four characters. -/
theorem spec_c2_first_matching_rule_wins :
    (∀ (l₁ : List FEntry) (e : FEntry) (l₂ : List FEntry)
       (prev : Option Char) (l : List Char), entryFires e prev l →
       findMatch (l₁ ++ e :: l₂) prev l = findMatch (l₁ ++ [e]) prev l) ∧
    scanIjm "@foo" = .ok
      [⟨0, .NameOther, ['@']⟩, ⟨1, .NameOther, ['f', 'o', 'o']⟩]
      ["slashstartsregex", "root"] ∧
    matchLen identRe none "@foo".data = some 4 :=
  ⟨findMatch_early, by decide, by decide⟩

/-- Closed instance of claim C2's quantified part. -/
theorem spec_c2_witness :
    entryFires (FEntry.rule atRe .NameOther [.push "slashstartsregex"])
      none ['@', 'f'] ∧
    findMatch ([FEntry.rule dotsRe .Punctuation []] ++
        FEntry.rule atRe .NameOther [.push "slashstartsregex"] ::
          [FEntry.rule identRe .NameOther [.push "slashstartsregex"]])
        none ['@', 'f'] =
      findMatch ([FEntry.rule dotsRe .Punctuation []] ++
        [FEntry.rule atRe .NameOther [.push "slashstartsregex"]]) none ['@', 'f'] :=
  ⟨by show (matchLen atRe none ['@', 'f']).isSome = true; decide,
   spec_c2_first_matching_rule_wins.1
    [FEntry.rule dotsRe .Punctuation []]
    (FEntry.rule atRe .NameOther [.push "slashstartsregex"])
    [FEntry.rule identRe .NameOther [.push "slashstartsregex"]]
    none ['@', 'f'] (by show (matchLen atRe none ['@', 'f']).isSome = true; decide)⟩

theorem applyOps_pushes (names : List String) :
    ∀ st, applyOps (names.map .push) st = names.reverse ++ st := by
  induction names with
  | nil => intro st; rfl
  | cons a t ih =>
      intro st
      show applyOps (t.map .push) (a :: st) = (a :: t).reverse ++ st
      rw [ih (a :: st)]
      simp

theorem applyOps_pops : ∀ (m : Nat) (l : List String), l.length ≤ m →
    applyOps (List.replicate m .pop) (l ++ ["root"]) = ["root"] := by
  intro m
  induction m with
  | zero =>
      intro l hl
      have : l = [] := by
        cases l with
        | nil => rfl
        | cons a t => simp at hl
      subst this
      rfl
  | succ m ih =>
      intro l hl
      show applyOps (List.replicate m .pop) (applyCmd .pop (l ++ ["root"])) = _
      cases l with
      | nil =>
          have h1 : applyCmd .pop ([] ++ ["root"]) = [] ++ ["root"] := rfl
          rw [h1]
          exact ih [] (by simp)
      | cons a t =>
          have h1 : applyCmd .pop ((a :: t) ++ ["root"]) = t ++ ["root"] := by
            show (if ((a :: t) ++ ["root"]).length ≤ 1 then _ else _) = _
            rw [if_neg (by simp)]
            rfl
          rw [h1]
          exact ih t (by simp at hl ⊢; omega)

/-- Claim C4: a Pop on the bottom-most (root) frame is a defined no-op,
and `N` pushes followed by `M ≥ N` pops always land back on the root
frame, never in an error. -/
theorem spec_c4_pop_on_bottom_noop :
    applyCmd .pop ["root"] = ["root"] ∧
    (∀ (names : List String) (m : Nat), names.length ≤ m →
      applyOps (List.replicate m .pop)
        (applyOps (names.map .push) ["root"]) = ["root"]) := by
  refine ⟨rfl, ?_⟩
  intro names m hm
  rw [applyOps_pushes]
  exact applyOps_pops m names.reverse (by simpa using hm)

/-- Closed instance of claim C4: two pushes and three pops end at root. -/
theorem spec_c4_witness :
    ([("a" : String), "b"].length ≤ 3) ∧
    applyOps (List.replicate 3 .pop)
      (applyOps ([("a" : String), "b"].map .push) ["root"]) = ["root"] :=
  ⟨by decide, spec_c4_pop_on_bottom_noop.2 ["a", "b"] 3 (by decide)⟩

/-- Claim C7: the scan of any finite input terminates within fuel linear
in the input length (three steps per character plus a constant), the
cursor never moves backwards, and every step either consumes at least one
character or is a zero-width transition that emits nothing (the
table-error guard handles the ones that make no progress). -/
theorem spec_c7_scan_terminates_linear :
    (∀ input : List Char, ∃ toks fs,
      scanLoop ijmFlat input (3 * input.length + 3) 0 ["root"] false
        = .ok toks fs) ∧
    (∀ (flat : String → List FEntry) (input : List Char) (pos : Nat)
       (stack : List String) (g : Bool) (t : Option Token) (p' : Nat)
       (s' : List String) (g' : Bool),
      istep flat input pos stack g = .go t p' s' g' →
      pos ≤ p' ∧ (pos < p' ∨ (t = none ∧ p' = pos))) :=
  ⟨fun input => scan_ijm_ok input,
   fun _ _ _ _ _ _ _ _ _ h => istep_pos_mono h⟩

/-- Closed instance of claim C7's quantified parts. -/
theorem spec_c7_witness :
    (∃ toks fs, scanLoop ijmFlat ['i', 'f'] (3 * 2 + 3) 0 ["root"] false
      = .ok toks fs) ∧
    (istep ijmFlat ['i', 'f'] 0 ["root"] false =
      .go (some ⟨0, .Keyword, ['i', 'f']⟩) 2 ["slashstartsregex", "root"] false →
      (0 : Nat) ≤ 2 ∧ ((0 : Nat) < 2 ∨ (some (⟨0, .Keyword, ['i', 'f']⟩ : Token)
        = none ∧ 2 = 0))) :=
  ⟨spec_c7_scan_terminates_linear.1 ['i', 'f'],
   fun h => spec_c7_scan_terminates_linear.2 ijmFlat ['i', 'f'] 0 ["root"]
     false _ 2 ["slashstartsregex", "root"] false h⟩

/-- A character folding to code 10 is the newline character. -/
theorem eq_nl_of_lowN_ten {c : Char} (h : lowN c = 10) : c = Char.ofNat 10 := by
  have h1 : c.toNat = 10 := lowN_eq_of_not_lower (by omega) h
  exact char_eq_of_toNat (by rw [h1]; decide)

/-- Claim C3, general part and the `badregex` instance: when no rule of
the active state matches, the engine emits exactly one one-character
`Error` token and moves on (it never aborts); in state `badregex`, whose
only rule matches a newline, every non-newline character is such a
fallback. -/
theorem spec_c3_fallback_single_error_char :
    (∀ (flat : String → List FEntry) (input : List Char) (pos : Nat)
       (stack : List String) (g : Bool), ¬ input.length ≤ pos →
       findMatch (flat (stackTop stack)) (prevAt input pos)
         (input.drop pos) = none →
       istep flat input pos stack g =
         .go (some ⟨pos, .Error, (input.drop pos).take 1⟩) (pos + 1)
           stack false) ∧
    (∀ c : Char, c ≠ Char.ofNat 10 → ∀ (prev : Option Char) (rest : List Char),
       findMatch (ijmFlat "badregex") prev (c :: rest) = none) ∧
    scanIjm "/x\n" = .ok
      [⟨0, .Error, ['/']⟩, ⟨1, .Error, ['x']⟩, ⟨2, .Text, ['\n']⟩]
      ["root"] := by
  refine ⟨?_, ?_, by decide⟩
  · intro flat input pos stack g hend hfm
    exact istep_eq_fallback hend hfm
  · intro c hc prev rest
    rw [ijmFlat_badregex]
    show findMatch [.rule nlRe .Text [.pop]] prev (c :: rest) = none
    have hml : matchLen nlRe prev (c :: rest) = none := by
      show (mlens (.chr (Char.ofNat 10)) prev (c :: rest)).head? = none
      rw [mlens_chr_cons, if_neg ?hne]
      · rfl
      case hne =>
        intro hEq
        have h10 : lowN (Char.ofNat 10) = 10 := by decide
        exact hc (eq_nl_of_lowN_ten (by omega))
    rw [findMatch_rule_none hml, findMatch_nil]

/-- Closed instance of claim C3's quantified parts. -/
theorem spec_c3_witness :
    (istep ijmFlat ['\n', 'x'] 1 ["badregex", "root"] false =
      .go (some ⟨1, .Error, (['\n', 'x'].drop 1).take 1⟩) 2
        ["badregex", "root"] false) ∧
    findMatch (ijmFlat "badregex") (some '\n') ['x'] = none := by
  constructor
  · exact spec_c3_fallback_single_error_char.1 ijmFlat ['\n', 'x'] 1
      ["badregex", "root"] false (by decide) (by decide)
  · exact spec_c3_fallback_single_error_char.2.1 'x' (by decide)
      (some '\n') []

/-- A one-state demonstration table whose only entry is `default('#pop')`:
on the single-frame root stack the pop is a no-op, so the default makes no
progress twice in a row and the scan reports the table error the design
prescribes. -/
def demoFlat : String → List FEntry := fun _ => [.dflt [.pop]]

/-- Claim C5: a Default transition consumes no input and installs its
target state before the next match attempt; a zero-width step that makes
no progress twice in a row at the same offset is reported as a table
error rather than looping.  The last conjunct shows `default('#pop')` of
`slashstartsregex` popping back to `root` without moving the cursor. -/
theorem spec_c5_default_zero_width_guarded :
    (∀ (flat : String → List FEntry) (input : List Char) (pos : Nat)
       (stack : List String) (g : Bool) (k : TokenKind) (ops : List StackCmd),
       ¬ input.length ≤ pos →
       findMatch (flat (stackTop stack)) (prevAt input pos)
         (input.drop pos) = some (0, k, ops) →
       applyOps ops stack ≠ stack →
       istep flat input pos stack g = .go none pos (applyOps ops stack) false) ∧
    (∀ (flat : String → List FEntry) (input : List Char) (pos : Nat)
       (stack : List String) (k : TokenKind) (ops : List StackCmd),
       ¬ input.length ≤ pos →
       findMatch (flat (stackTop stack)) (prevAt input pos)
         (input.drop pos) = some (0, k, ops) →
       applyOps ops stack = stack →
       istep flat input pos stack true = .fail) ∧
    scanLoop demoFlat ['x'] 5 0 ["root"] false = .tableError ∧
    istep ijmFlat ['x'] 0 ["slashstartsregex", "root"] false =
      .go none 0 ["root"] false := by
  refine ⟨?_, ?_, by decide, by decide⟩
  · intro flat input pos stack g k ops hend hfm hne
    rw [istep_eq_found hend hfm, istepGo_zero, if_neg hne]
  · intro flat input pos stack k ops hend hfm heq
    rw [istep_eq_found hend hfm, istepGo_zero, if_pos heq]
    rfl

/-- Closed instance of claim C5's quantified parts. -/
theorem spec_c5_witness :
    (istep ijmFlat ['x'] 0 ["slashstartsregex", "root"] true =
      .go none 0 (applyOps [.pop] ["slashstartsregex", "root"]) false) ∧
    istep demoFlat ['x'] 0 ["root"] true = .fail := by
  constructor
  · exact spec_c5_default_zero_width_guarded.1 ijmFlat ['x'] 0
      ["slashstartsregex", "root"] true .Text [.pop] (by decide) (by decide)
      (by decide)
  · exact spec_c5_default_zero_width_guarded.2.1 demoFlat ['x'] 0 ["root"]
      .Text [.pop] (by decide) (by decide) (by decide)

/-- Claim C6: an include never mutates the stack; it only splices rules.
The flattened rule list of `slashstartsregex` is the ordered concatenation
of the included `commentsandwhitespace` rules with its own, and
`interp-inside` prepends its brace rule to the whole spliced `root` list;
matching over a concatenation searches the spliced prefix first; the
spliced `commentsandwhitespace` rules all carry the empty transition, and
the empty transition leaves any stack unchanged. -/
theorem spec_c6_include_splices_rules_only :
    ijmFlat "slashstartsregex" = ijmFlat "commentsandwhitespace" ++
      [.rule regexLitRe .StringRegex [.pop],
       .rule slashLookRe .Text [.pop, .push "badregex"],
       .dflt [.pop]] ∧
    ijmFlat "interp-inside" =
      .rule braceCloseRe .StringInterpol [.pop] :: ijmFlat "root" ∧
    (∀ (a b : List FEntry) (prev : Option Char) (l : List Char),
      findMatch (a ++ b) prev l =
        ((findMatch a prev l).rec (findMatch b prev l) (fun r => some r))) ∧
    (∀ (prev : Option Char) (l : List Char) (n : Nat) (k : TokenKind)
       (ops : List StackCmd),
      findMatch (ijmFlat "commentsandwhitespace") prev l = some (n, k, ops) →
      ops = []) ∧
    (∀ st : List String, applyOps [] st = st) := by
  refine ⟨rfl, rfl, findMatch_append, ?_, fun st => rfl⟩
  intro prev l n k ops h
  rw [ijmFlat_cws] at h
  rcases findMatch_some_mem h with ⟨r, hmem, -⟩ | ⟨hmem, -⟩
  · simp only [cwsFlat, List.mem_cons, List.not_mem_nil, or_false] at hmem
    rcases hmem with h'|h'|h'|h'
    all_goals cases h'
    all_goals rfl
  · simp [cwsFlat] at hmem

/-- Closed instance of claim C6's quantified parts. -/
theorem spec_c6_witness :
    (findMatch (ijmFlat "commentsandwhitespace") none [' '] =
      some (1, .Text, [])) ∧
    ([] : List StackCmd) = [] := by
  constructor
  · decide
  · exact spec_c6_include_splices_rules_only.2.2.2.1 none [' '] 1 .Text []
      (by decide)

/-- A table referring to an undefined state: construction must reject it. -/
def badDemoTable : Table := [("root", [TEntry.inc "missing"])]

set_option maxRecDepth 100000 in
/-- Claim C8: engine construction validates the table before any scan:
the table under study passes (every `push`/`include` target among its six
states is defined and include expansion terminates), and any table whose
validation fails is rejected with a `TableError` at construction time. -/
theorem spec_c8_construction_validates :
    (∃ e, new_engine ijmTable = .ok e) ∧
    (∀ tbl : Table, checkTable tbl = false →
      new_engine tbl = .error .badTable) ∧
    checkTable ijmTable = true ∧
    (∀ p ∈ ijmTable, ∀ s ∈ refNames p.2,
      (lookupState ijmTable s).isSome = true) := by
  refine ⟨?_, ?_, by decide, by decide⟩
  · refine ⟨fun s => (flattenState ijmTable (ijmTable.length + 1) s).getD [], ?_⟩
    unfold new_engine
    rw [if_pos (by decide)]
  · intro tbl h
    unfold new_engine
    rw [if_neg (by simp [h])]

set_option maxRecDepth 100000 in
/-- Closed instance of claim C8's quantified part: a table with an
undefined include target is rejected. -/
theorem spec_c8_witness :
    checkTable badDemoTable = false ∧
    new_engine badDemoTable = .error .badTable :=
  ⟨by decide, spec_c8_construction_validates.2.1 badDemoTable (by decide)⟩

/-! ## Case-insensitivity: matching depends only on folded code points -/

theorem foldEq_cases {l₁ l₂ : List Char} (h : l₁.map lowN = l₂.map lowN) :
    (l₁ = [] ∧ l₂ = []) ∨
    ∃ c₁ c₂ t₁ t₂, l₁ = c₁ :: t₁ ∧ l₂ = c₂ :: t₂ ∧ lowN c₁ = lowN c₂ ∧
      t₁.map lowN = t₂.map lowN := by
  cases l₁ with
  | nil => cases l₂ with
    | nil => exact .inl ⟨rfl, rfl⟩
    | cons c t => simp at h
  | cons c₁ t₁ => cases l₂ with
    | nil => simp at h
    | cons c₂ t₂ =>
        simp only [List.map_cons, List.cons.injEq] at h
        exact .inr ⟨c₁, c₂, t₁, t₂, rfl, rfl, h.1, h.2⟩

theorem foldEq_length {l₁ l₂ : List Char} (h : l₁.map lowN = l₂.map lowN) :
    l₁.length = l₂.length := by
  have := congrArg List.length h
  simpa using this

theorem optWord_foldInv {p₁ p₂ : Option Char}
    (h : p₁.map lowN = p₂.map lowN) : optWord p₁ = optWord p₂ := by
  cases p₁ with
  | none => cases p₂ with
    | none => rfl
    | some c => exact Option.noConfusion h
  | some c₁ => cases p₂ with
    | none => exact Option.noConfusion h
    | some c₂ =>
        have h' : lowN c₁ = lowN c₂ := Option.some.inj h
        show wordCls (lowN c₁) = wordCls (lowN c₂)
        rw [h']

theorem newPrev_foldInv {p₁ p₂ : Option Char} {l₁ l₂ : List Char} {n : Nat}
    (hp : p₁.map lowN = p₂.map lowN) (hl : l₁.map lowN = l₂.map lowN) :
    (newPrev p₁ l₁ n).map lowN = (newPrev p₂ l₂ n).map lowN := by
  unfold newPrev
  by_cases hn : n = 0
  · rw [if_pos hn, if_pos hn]; exact hp
  · rw [if_neg hn, if_neg hn]
    rw [← List.get?_map, ← List.get?_map, hl]

theorem drop_foldInv {l₁ l₂ : List Char} {n : Nat}
    (hl : l₁.map lowN = l₂.map lowN) :
    (l₁.drop n).map lowN = (l₂.drop n).map lowN := by
  rw [List.map_drop, List.map_drop, hl]

/-- The matcher sees only folded code points: two inputs (and left
contexts) with the same folding produce identical match-length lists.
This is the content of the `IGNORECASE` flag. -/
theorem mlensF_foldInv : ∀ (fuel : Nat) (r : Regex) (p₁ p₂ : Option Char)
    (l₁ l₂ : List Char), p₁.map lowN = p₂.map lowN →
    l₁.map lowN = l₂.map lowN →
    mlensF fuel r p₁ l₁ = mlensF fuel r p₂ l₂ := by
  intro fuel
  induction fuel with
  | zero => intro r p₁ p₂ l₁ l₂ hp hl; rfl
  | succ fuel ih =>
      intro r
      show ∀ p₁ p₂ l₁ l₂, _ → _ →
        mlensGo (mlensF fuel) r p₁ l₁ = mlensGo (mlensF fuel) r p₂ l₂
      induction r with
      | eps => intro p₁ p₂ l₁ l₂ hp hl; rfl
      | any =>
          intro p₁ p₂ l₁ l₂ hp hl
          rcases foldEq_cases hl with ⟨rfl, rfl⟩ | ⟨c₁, c₂, t₁, t₂, rfl, rfl, -, -⟩
          · rfl
          · rfl
      | chr c =>
          intro p₁ p₂ l₁ l₂ hp hl
          rcases foldEq_cases hl with ⟨rfl, rfl⟩ |
            ⟨c₁, c₂, t₁, t₂, rfl, rfl, hc, -⟩
          · rfl
          · show (if lowN c = lowN c₁ then [1] else [])
              = (if lowN c = lowN c₂ then [1] else [])
            rw [hc]
      | cls p =>
          intro p₁ p₂ l₁ l₂ hp hl
          rcases foldEq_cases hl with ⟨rfl, rfl⟩ |
            ⟨c₁, c₂, t₁, t₂, rfl, rfl, hc, -⟩
          · rfl
          · show (if p (lowN c₁) then [1] else [])
              = (if p (lowN c₂) then [1] else [])
            rw [hc]
      | seq r s ihr ihs =>
          intro p₁ p₂ l₁ l₂ hp hl
          have hlen := foldEq_length hl
          show (mlensGo (mlensF fuel) r p₁ l₁).flatMap _
            = (mlensGo (mlensF fuel) r p₂ l₂).flatMap _
          rw [ihr p₁ p₂ l₁ l₂ hp hl]
          refine flatMap_congr' (fun n _ => ?_)
          rw [← hlen]
          split
          · rw [ihs (newPrev p₁ l₁ n) (newPrev p₂ l₂ n) (l₁.drop n) (l₂.drop n)
              (newPrev_foldInv hp hl) (drop_foldInv hl)]
          · rfl
      | alt r s ihr ihs =>
          intro p₁ p₂ l₁ l₂ hp hl
          show mlensGo (mlensF fuel) r p₁ l₁ ++ mlensGo (mlensF fuel) s p₁ l₁
            = _ ++ _
          rw [ihr p₁ p₂ l₁ l₂ hp hl, ihs p₁ p₂ l₁ l₂ hp hl]
      | star r ihr =>
          intro p₁ p₂ l₁ l₂ hp hl
          have hlen := foldEq_length hl
          show ((mlensGo (mlensF fuel) r p₁ l₁).flatMap _) ++ [0]
            = ((mlensGo (mlensF fuel) r p₂ l₂).flatMap _) ++ [0]
          rw [ihr p₁ p₂ l₁ l₂ hp hl]
          congr 1
          refine flatMap_congr' (fun n _ => ?_)
          rw [← hlen]
          split
          · rw [ih (.star r) (newPrev p₁ l₁ n) (newPrev p₂ l₂ n) (l₁.drop n)
              (l₂.drop n) (newPrev_foldInv hp hl) (drop_foldInv hl)]
          · rfl
      | lazyStar r ihr =>
          intro p₁ p₂ l₁ l₂ hp hl
          have hlen := foldEq_length hl
          show 0 :: ((mlensGo (mlensF fuel) r p₁ l₁).flatMap _)
            = 0 :: ((mlensGo (mlensF fuel) r p₂ l₂).flatMap _)
          rw [ihr p₁ p₂ l₁ l₂ hp hl]
          congr 1
          refine flatMap_congr' (fun n _ => ?_)
          rw [← hlen]
          split
          · rw [ih (.lazyStar r) (newPrev p₁ l₁ n) (newPrev p₂ l₂ n)
              (l₁.drop n) (l₂.drop n) (newPrev_foldInv hp hl) (drop_foldInv hl)]
          · rfl
      | look r ihr =>
          intro p₁ p₂ l₁ l₂ hp hl
          show (if (mlensGo (mlensF fuel) r p₁ l₁).isEmpty then _ else _)
            = (if (mlensGo (mlensF fuel) r p₂ l₂).isEmpty then _ else _)
          rw [ihr p₁ p₂ l₁ l₂ hp hl]
      | wordB =>
          intro p₁ p₂ l₁ l₂ hp hl
          show (if optWord p₁ ≠ optWord l₁.head? then _ else _)
            = (if optWord p₂ ≠ optWord l₂.head? then _ else _)
          rw [optWord_foldInv hp]
          have hh : optWord l₁.head? = optWord l₂.head? := by
            refine optWord_foldInv ?_
            rcases foldEq_cases hl with ⟨rfl, rfl⟩ |
              ⟨c₁, c₂, t₁, t₂, rfl, rfl, hc, -⟩
            · rfl
            · simpa using hc
          rw [hh]
      | nonWordB =>
          intro p₁ p₂ l₁ l₂ hp hl
          show (if optWord p₁ = optWord l₁.head? then _ else _)
            = (if optWord p₂ = optWord l₂.head? then _ else _)
          rw [optWord_foldInv hp]
          have hh : optWord l₁.head? = optWord l₂.head? := by
            refine optWord_foldInv ?_
            rcases foldEq_cases hl with ⟨rfl, rfl⟩ |
              ⟨c₁, c₂, t₁, t₂, rfl, rfl, hc, -⟩
            · rfl
            · simpa using hc
          rw [hh]
      | bos =>
          intro p₁ p₂ l₁ l₂ hp hl
          show (if p₁.isNone then _ else _) = (if p₂.isNone then _ else _)
          have : p₁.isNone = p₂.isNone := by
            cases p₁ <;> cases p₂ <;> simp_all
          rw [this]
      | lineStart =>
          intro p₁ p₂ l₁ l₂ hp hl
          show (if p₁.isNone ∨ p₁.map lowN = some 10 then _ else _)
            = (if p₂.isNone ∨ p₂.map lowN = some 10 then _ else _)
          have h1 : p₁.isNone = p₂.isNone := by
            cases p₁ <;> cases p₂ <;> simp_all
          rw [if_congr (by rw [h1, hp]) rfl rfl]

theorem matchLen_foldInv {r : Regex} {p₁ p₂ : Option Char} {l₁ l₂ : List Char}
    (hp : p₁.map lowN = p₂.map lowN) (hl : l₁.map lowN = l₂.map lowN) :
    matchLen r p₁ l₁ = matchLen r p₂ l₂ := by
  unfold matchLen mlens
  rw [foldEq_length hl, mlensF_foldInv (l₂.length + 1) r p₁ p₂ l₁ l₂ hp hl]

theorem findMatch_foldInv {es : List FEntry} {p₁ p₂ : Option Char}
    {l₁ l₂ : List Char} (hp : p₁.map lowN = p₂.map lowN)
    (hl : l₁.map lowN = l₂.map lowN) :
    findMatch es p₁ l₁ = findMatch es p₂ l₂ := by
  induction es with
  | nil => rfl
  | cons e t ih =>
      match e with
      | .rule r k ops =>
          rw [findMatch_cons_rule, findMatch_cons_rule,
            matchLen_foldInv hp hl]
          cases matchLen r p₂ l₂ with
          | none => exact ih
          | some n => rfl
      | .dflt ops => rfl

/-- The case-independent shape of a token: start offset, kind, length. -/
def tokShape (t : Token) : Nat × TokenKind × Nat := (t.start, t.kind, t.text.length)

/-- The case-independent shape of a scan outcome. -/
def resShape : ScanResult → Option (List (Nat × TokenKind × Nat) × List String)
  | .ok toks fs => some (toks.map tokShape, fs)
  | .tableError => none
  | .outOfFuel => none

theorem consTok_none {r : ScanResult} : consTok none r = r := by
  cases r <;> rfl

theorem resShape_consTok {t₁ t₂ : Token} {r₁ r₂ : ScanResult}
    (ht : tokShape t₁ = tokShape t₂) (hr : resShape r₁ = resShape r₂) :
    resShape (consTok (some t₁) r₁) = resShape (consTok (some t₂) r₂) := by
  cases r₁ with
  | ok toks₁ fs₁ =>
      cases r₂ with
      | ok toks₂ fs₂ =>
          have h' := Option.some.inj hr
          have h1 : toks₁.map tokShape = toks₂.map tokShape :=
            congrArg Prod.fst h'
          have h2 : fs₁ = fs₂ := congrArg Prod.snd h'
          show some (((t₁ :: toks₁).map tokShape), fs₁)
            = some (((t₂ :: toks₂).map tokShape), fs₂)
          rw [List.map_cons, List.map_cons, ht, h1, h2]
      | tableError => exact absurd hr (by simp [resShape])
      | outOfFuel => exact absurd hr (by simp [resShape])
  | tableError =>
      cases r₂ with
      | ok toks₂ fs₂ => exact absurd hr (by simp [resShape])
      | tableError => rfl
      | outOfFuel => rfl
  | outOfFuel =>
      cases r₂ with
      | ok toks₂ fs₂ => exact absurd hr (by simp [resShape])
      | tableError => rfl
      | outOfFuel => rfl

/-- Scanning two inputs with the same case folding produces outcomes of
the same shape: same token offsets, kinds and lengths, same final stack. -/
theorem scanLoop_foldInv (flat : String → List FEntry) :
    ∀ (fuel pos : Nat) (stack : List String) (g : Bool) (l₁ l₂ : List Char),
    l₁.map lowN = l₂.map lowN →
    resShape (scanLoop flat l₁ fuel pos stack g)
      = resShape (scanLoop flat l₂ fuel pos stack g) := by
  intro fuel
  induction fuel with
  | zero => intro pos stack g l₁ l₂ hl; rfl
  | succ fuel ih =>
      intro pos stack g l₁ l₂ hl
      have hlen := foldEq_length hl
      have hprev : (prevAt l₁ pos).map lowN = (prevAt l₂ pos).map lowN := by
        unfold prevAt
        by_cases hp : pos = 0
        · rw [if_pos hp, if_pos hp]
        · simp only [if_neg hp, ← List.get?_map, hl]
      have hdrop : (l₁.drop pos).map lowN = (l₂.drop pos).map lowN :=
        drop_foldInv hl
      by_cases hend : l₁.length ≤ pos
      · rw [scanLoop_succ_halt (istep_eq_halt hend),
          scanLoop_succ_halt (istep_eq_halt (by omega))]
      · have hend₂ : ¬ l₂.length ≤ pos := by omega
        have hfm₁₂ : findMatch (flat (stackTop stack)) (prevAt l₁ pos)
            (l₁.drop pos) = findMatch (flat (stackTop stack)) (prevAt l₂ pos)
            (l₂.drop pos) := findMatch_foldInv hprev hdrop
        cases hfm : findMatch (flat (stackTop stack)) (prevAt l₂ pos)
            (l₂.drop pos) with
        | none =>
            rw [scanLoop_succ_go (istep_eq_fallback hend (hfm₁₂.trans hfm)),
              scanLoop_succ_go (istep_eq_fallback hend₂ hfm)]
            refine resShape_consTok ?_ (ih (pos + 1) stack false l₁ l₂ hl)
            unfold tokShape
            simp [List.length_take, List.length_drop, hlen]
        | some res =>
            obtain ⟨n, k, ops⟩ := res
            cases n with
            | zero =>
                by_cases hst : applyOps ops stack = stack
                · cases g with
                  | true =>
                      rw [scanLoop_succ_fail (by
                          rw [istep_eq_found hend (hfm₁₂.trans hfm),
                            istepGo_zero, if_pos hst]; rfl),
                        scanLoop_succ_fail (by
                          rw [istep_eq_found hend₂ hfm,
                            istepGo_zero, if_pos hst]; rfl)]
                  | false =>
                      have hs₁ : istep flat l₁ pos stack false
                          = .go none pos stack true := by
                        rw [istep_eq_found hend (hfm₁₂.trans hfm),
                          istepGo_zero, if_pos hst]; rfl
                      have hs₂ : istep flat l₂ pos stack false
                          = .go none pos stack true := by
                        rw [istep_eq_found hend₂ hfm,
                          istepGo_zero, if_pos hst]; rfl
                      rw [scanLoop_succ_go hs₁, scanLoop_succ_go hs₂]
                      rw [consTok_none, consTok_none]
                      exact ih pos stack true l₁ l₂ hl
                · have hs₁ : istep flat l₁ pos stack g
                      = .go none pos (applyOps ops stack) false := by
                    rw [istep_eq_found hend (hfm₁₂.trans hfm),
                      istepGo_zero, if_neg hst]
                  have hs₂ : istep flat l₂ pos stack g
                      = .go none pos (applyOps ops stack) false := by
                    rw [istep_eq_found hend₂ hfm, istepGo_zero, if_neg hst]
                  rw [scanLoop_succ_go hs₁, scanLoop_succ_go hs₂]
                  rw [consTok_none, consTok_none]
                  exact ih pos (applyOps ops stack) false l₁ l₂ hl
            | succ m =>
                rw [scanLoop_succ_go
                    ((istep_eq_found hend (hfm₁₂.trans hfm)).trans istepGo_succ),
                  scanLoop_succ_go
                    ((istep_eq_found hend₂ hfm).trans istepGo_succ)]
                refine resShape_consTok ?_
                  (ih (pos + (m + 1)) (applyOps ops stack) false l₁ l₂ hl)
                unfold tokShape
                simp [List.length_take, List.length_drop, hlen]

/-- Claim C9: with IGNORECASE set by the table, scanning depends on the
input only through its case folding: any two spellings with the same
folding get tokens of the same kinds and spans.  In particular `IF`,
`Macro` and `TRUE` are classified exactly like `if`, `macro` and `true`:
keyword, declaration keyword and constant. -/
theorem spec_c9_ignorecase :
    (∀ l₁ l₂ : List Char, l₁.map lowN = l₂.map lowN →
      resShape (scan ijmFlat l₁) = resShape (scan ijmFlat l₂)) ∧
    resShape (scanIjm "IF") = resShape (scanIjm "if") ∧
    resShape (scanIjm "Macro") = resShape (scanIjm "macro") ∧
    resShape (scanIjm "TRUE") = resShape (scanIjm "true") ∧
    resShape (scanIjm "IF")
      = some ([(0, .Keyword, 2)], ["slashstartsregex", "root"]) ∧
    resShape (scanIjm "Macro")
      = some ([(0, .KeywordDeclaration, 5)], ["slashstartsregex", "root"]) ∧
    resShape (scanIjm "TRUE") = some ([(0, .KeywordConstant, 4)], ["root"]) := by
  refine ⟨?_, by decide, by decide, by decide, by decide, by decide, by decide⟩
  intro l₁ l₂ hl
  show resShape (scanLoop ijmFlat l₁ (3 * l₁.length + 3) 0 ["root"] false)
    = resShape (scanLoop ijmFlat l₂ (3 * l₂.length + 3) 0 ["root"] false)
  rw [foldEq_length hl]
  exact scanLoop_foldInv ijmFlat (3 * l₂.length + 3) 0 ["root"] false l₁ l₂ hl

/-- Closed instance of claim C9's quantified part. -/
theorem spec_c9_witness :
    ("IF".data.map lowN = "if".data.map lowN) ∧
    resShape (scan ijmFlat "IF".data) = resShape (scan ijmFlat "if".data) :=
  ⟨by decide, spec_c9_ignorecase.1 "IF".data "if".data (by decide)⟩

/-! ## Claim C10: backtick strings and interpolation

The interp-inside state splices all of root, and the builtin-name rule of
root contains unescaped dots that under DOTALL match any character, the
closing brace included.  A builtin alternative can therefore swallow the
brace that should close an interpolation, so a balanced backtick string
need not restore the stack.  The development below first exhibits such an
input, then proves the amended claim for interpolation bodies on which the
spliced root rules cannot cross the brace (nonempty digit runs). -/

/-- Whether a match consuming at least one character can begin with the
folded code point: a conservative first-character analysis of the
pattern. -/
def headOK : Regex → Nat → Bool
  | .eps, _ => false
  | .any, _ => true
  | .chr a, n => decide (lowN a = n)
  | .cls p, n => p n
  | .seq r s, n => headOK r n || (decide (minLen r = 0) && headOK s n)
  | .alt r s, n => headOK r n || headOK s n
  | .star r, n => headOK r n
  | .lazyStar r, n => headOK r n
  | .look _, _ => false
  | .wordB, _ => false
  | .nonWordB, _ => false
  | .bos, _ => false
  | .lineStart, _ => false

/-- Length of the maximal prefix of characters whose folded code point
satisfies the class. -/
def runP (p : Nat → Bool) (l : List Char) : Nat :=
  (l.takeWhile (fun c => p (lowN c))).length

/-- The character class of the chunk rule of `interp`: everything but a
backtick, a backslash and a dollar. -/
def chunkP : Nat → Bool := fun n =>
  !([btC, Char.ofNat 92, '$'].any (fun c => lowN c = n))

/-- Restricted backtick-string content: chunk characters, the escapes of
a backslash and of a backtick, a dollar that does not open an
interpolation, and interpolations whose body is a nonempty digit run. -/
inductive ICont : List Char → Prop where
  | nil : ICont []
  | chunk : ∀ (c : Char) (r : List Char), chunkP (lowN c) = true →
      ICont r → ICont (c :: r)
  | esc2 : ∀ (r : List Char), ICont r →
      ICont (Char.ofNat 92 :: Char.ofNat 92 :: r)
  | escBt : ∀ (r : List Char), ICont r → ICont (Char.ofNat 92 :: btC :: r)
  | interp : ∀ (ds r : List Char), ds ≠ [] →
      (∀ c ∈ ds, digitP (lowN c) = true) → ICont r →
      ICont ('$' :: obrC :: (ds ++ cbrC :: r))
  | dollar : ∀ (r : List Char), (∀ c t, r = c :: t → lowN c ≠ 123) →
      ICont r → ICont ('$' :: r)

/-- One progressing step of the scanner between configurations
(cursor, stack, zero-width flag). -/
def Step (flat : String → List FEntry) (l : List Char)
    (a b : Nat × List String × Bool) : Prop :=
  ∃ t, istep flat l a.1 a.2.1 a.2.2 = .go t b.1 b.2.1 b.2.2

/-- Reachability by scanner steps. -/
def Reach (flat : String → List FEntry) (l : List Char) :
    Nat × List String × Bool → Nat × List String × Bool → Prop :=
  Relation.ReflTransGen (Step flat l)

/-- Well-formedness of the body of a backtick string as the claim
describes it: no stray backtick, escaped backslashes and backticks are
literal, and every interpolation opened by a dollar-brace is closed by a
brace.  The flag records an open interpolation. -/
def btContentOk : Bool → List Char → Bool
  | false, [] => true
  | true, [] => false
  | false, c :: r =>
      if c = Char.ofNat 92 then
        match r with
        | [] => false
        | _ :: r' => btContentOk false r'
      else if c = btC then false
      else if c = '$' then
        match r with
        | [] => true
        | d :: r' =>
            if d = obrC then btContentOk true r'
            else btContentOk false (d :: r')
      else btContentOk false r
  | true, c :: r =>
      if c = cbrC then btContentOk false r
      else if c = btC then false
      else btContentOk true r

/-- An input that is exactly one backtick string whose backticks are
balanced and whose interpolations are closed. -/
def isBalancedBacktickString (l : List Char) : Bool :=
  match l with
  | [] => false
  | c :: rest =>
      c = btC && rest.getLast? = some btC && btContentOk false rest.dropLast

/-- The input of the C10 counterexample: a backtick string whose
interpolation holds a name the builtin rule matches across the closing
brace (the unescaped dot of the alternative for the Fit functions
matches the brace under DOTALL). -/
def c10Input : List Char := [btC, '$', obrC, 'f', 'i', 't', cbrC, 'f', btC]

/-! Unfolding equations of the fuelled matcher, one constructor each. -/

theorem mlensF_eps {f : Nat} {prev : Option Char} {l : List Char} :
    mlensF (f + 1) .eps prev l = [0] := rfl

theorem mlensF_chr_cons {f : Nat} {a : Char} {prev : Option Char} {c : Char}
    {t : List Char} :
    mlensF (f + 1) (.chr a) prev (c :: t) =
      if lowN a = lowN c then [1] else [] := rfl

theorem mlensF_cls_cons {f : Nat} {p : Nat → Bool} {prev : Option Char}
    {c : Char} {t : List Char} :
    mlensF (f + 1) (.cls p) prev (c :: t) =
      if p (lowN c) then [1] else [] := rfl

theorem mlensF_seq {f : Nat} {r s : Regex} {prev : Option Char}
    {l : List Char} :
    mlensF (f + 1) (.seq r s) prev l =
      (mlensF (f + 1) r prev l).flatMap (fun n =>
        if n ≤ l.length then
          (mlensF (f + 1) s (newPrev prev l n) (l.drop n)).map (n + ·)
        else []) := rfl

theorem mlensF_alt {f : Nat} {r s : Regex} {prev : Option Char}
    {l : List Char} :
    mlensF (f + 1) (.alt r s) prev l =
      mlensF (f + 1) r prev l ++ mlensF (f + 1) s prev l := rfl

theorem mlensF_star {f : Nat} {r : Regex} {prev : Option Char}
    {l : List Char} :
    mlensF (f + 1) (.star r) prev l =
      ((mlensF (f + 1) r prev l).flatMap (fun n =>
        if 0 < n ∧ n ≤ l.length then
          (mlensF f (.star r) (newPrev prev l n) (l.drop n)).map (n + ·)
        else [])) ++ [0] := rfl

theorem mlensF_lazyStar {f : Nat} {r : Regex} {prev : Option Char}
    {l : List Char} :
    mlensF (f + 1) (.lazyStar r) prev l =
      0 :: ((mlensF (f + 1) r prev l).flatMap (fun n =>
        if 0 < n ∧ n ≤ l.length then
          (mlensF f (.lazyStar r) (newPrev prev l n) (l.drop n)).map (n + ·)
        else [])) := rfl

theorem mlensF_look {f : Nat} {r : Regex} {prev : Option Char}
    {l : List Char} :
    mlensF (f + 1) (.look r) prev l =
      if (mlensF (f + 1) r prev l).isEmpty then [] else [0] := rfl

theorem mlensF_wordB {f : Nat} {prev : Option Char} {l : List Char} :
    mlensF (f + 1) .wordB prev l =
      if optWord prev ≠ optWord l.head? then [0] else [] := rfl

theorem mlensF_nonWordB {f : Nat} {prev : Option Char} {l : List Char} :
    mlensF (f + 1) .nonWordB prev l =
      if optWord prev = optWord l.head? then [0] else [] := rfl

theorem mlensF_bos {f : Nat} {prev : Option Char} {l : List Char} :
    mlensF (f + 1) .bos prev l = if prev.isNone then [0] else [] := rfl

theorem mlensF_lineStart {f : Nat} {prev : Option Char} {l : List Char} :
    mlensF (f + 1) .lineStart prev l =
      if prev.isNone ∨ prev.map lowN = some 10 then [0] else [] := rfl

theorem mlens_lineStart {prev : Option Char} {l : List Char} :
    mlens .lineStart prev l =
      if prev.isNone ∨ prev.map lowN = some 10 then [0] else [] := rfl

theorem one_le_len_cons {A : Type} {c : A} {t : List A} :
    1 ≤ (c :: t).length := by
  simp only [List.length_cons]
  omega

/-- A mismatching mandatory first character makes a sequence fail. -/
theorem seq_chr_nil {a : Char} {s : Regex} {prev : Option Char} {c : Char}
    {t : List Char} (h : ¬ lowN a = lowN c) :
    mlens (.seq (.chr a) s) prev (c :: t) = [] := by
  rw [mlens_seq, mlens_chr_cons, if_neg h]
  rfl

theorem matchLen_eq_none {r : Regex} {prev : Option Char} {l : List Char}
    (h : mlens r prev l = []) : matchLen r prev l = none := by
  unfold matchLen
  rw [h]
  rfl

/-- Soundness of the first-character analysis: a reported match of at
least one character starts with an accepted character. -/
theorem headOK_of_mem : ∀ (r : Regex) (fuel : Nat) (prev : Option Char)
    (c : Char) (t : List Char) (n : Nat),
    n ∈ mlensF fuel r prev (c :: t) → 1 ≤ n → headOK r (lowN c) = true := by
  intro r
  induction r with
  | eps =>
      intro fuel prev c t n hn h1
      cases fuel with
      | zero => simp [mlensF] at hn
      | succ f =>
          rw [mlensF_eps] at hn
          simp at hn
          omega
  | any => intro fuel prev c t n hn h1; rfl
  | chr a =>
      intro fuel prev c t n hn h1
      cases fuel with
      | zero => simp [mlensF] at hn
      | succ f =>
          rw [mlensF_chr_cons] at hn
          by_cases h : lowN a = lowN c
          · simp [headOK, h]
          · rw [if_neg h] at hn
            simp at hn
  | cls p =>
      intro fuel prev c t n hn h1
      cases fuel with
      | zero => simp [mlensF] at hn
      | succ f =>
          rw [mlensF_cls_cons] at hn
          by_cases h : p (lowN c) = true
          · simpa [headOK] using h
          · rw [if_neg h] at hn
            simp at hn
  | seq r s ihr ihs =>
      intro fuel prev c t n hn h1
      cases fuel with
      | zero => simp [mlensF] at hn
      | succ f =>
          rw [mlensF_seq, List.mem_flatMap] at hn
          obtain ⟨m, hm, hn2⟩ := hn
          by_cases hmle : m ≤ (c :: t).length
          · rw [if_pos hmle, List.mem_map] at hn2
            obtain ⟨m2, hm2, rfl⟩ := hn2
            cases m with
            | zero =>
                have hm0 : minLen r = 0 :=
                  Nat.le_zero.mp (mem_mlensF_minLen (f + 1) r prev (c :: t) 0 hm)
                have hh := ihs (f + 1) prev c t m2
                  (by simpa [newPrev] using hm2) (by omega)
                simp [headOK, hm0, hh]
            | succ m' =>
                have hh := ihr (f + 1) prev c t (m' + 1) hm (by omega)
                simp [headOK, hh]
          · rw [if_neg hmle] at hn2
            simp at hn2
  | alt r s ihr ihs =>
      intro fuel prev c t n hn h1
      cases fuel with
      | zero => simp [mlensF] at hn
      | succ f =>
          rw [mlensF_alt, List.mem_append] at hn
          rcases hn with hn | hn
          · have := ihr (f + 1) prev c t n hn h1
            simp [headOK, this]
          · have := ihs (f + 1) prev c t n hn h1
            simp [headOK, this]
  | star r ihr =>
      intro fuel prev c t n hn h1
      cases fuel with
      | zero => simp [mlensF] at hn
      | succ f =>
          rw [mlensF_star, List.mem_append] at hn
          rcases hn with hn | hn
          · rw [List.mem_flatMap] at hn
            obtain ⟨m, hm, hn2⟩ := hn
            by_cases hc : 0 < m ∧ m ≤ (c :: t).length
            · have := ihr (f + 1) prev c t m hm (by omega)
              simpa [headOK] using this
            · rw [if_neg hc] at hn2
              simp at hn2
          · simp at hn
            omega
  | lazyStar r ihr =>
      intro fuel prev c t n hn h1
      cases fuel with
      | zero => simp [mlensF] at hn
      | succ f =>
          rw [mlensF_lazyStar, List.mem_cons] at hn
          rcases hn with hn | hn
          · omega
          · rw [List.mem_flatMap] at hn
            obtain ⟨m, hm, hn2⟩ := hn
            by_cases hc : 0 < m ∧ m ≤ (c :: t).length
            · have := ihr (f + 1) prev c t m hm (by omega)
              simpa [headOK] using this
            · rw [if_neg hc] at hn2
              simp at hn2
  | look r ihr =>
      intro fuel prev c t n hn h1
      cases fuel with
      | zero => simp [mlensF] at hn
      | succ f =>
          rw [mlensF_look] at hn
          split at hn
          · simp at hn
          · simp at hn
            omega
  | wordB =>
      intro fuel prev c t n hn h1
      cases fuel with
      | zero => simp [mlensF] at hn
      | succ f =>
          rw [mlensF_wordB] at hn
          split at hn
          · simp at hn
            omega
          · simp at hn
  | nonWordB =>
      intro fuel prev c t n hn h1
      cases fuel with
      | zero => simp [mlensF] at hn
      | succ f =>
          rw [mlensF_nonWordB] at hn
          split at hn
          · simp at hn
            omega
          · simp at hn
  | bos =>
      intro fuel prev c t n hn h1
      cases fuel with
      | zero => simp [mlensF] at hn
      | succ f =>
          rw [mlensF_bos] at hn
          split at hn
          · simp at hn
            omega
          · simp at hn
  | lineStart =>
      intro fuel prev c t n hn h1
      cases fuel with
      | zero => simp [mlensF] at hn
      | succ f =>
          rw [mlensF_lineStart] at hn
          split at hn
          · simp at hn
            omega
          · simp at hn

/-- A pattern that must consume a character but rejects the head cannot
match at all. -/
theorem mlens_nil_of_head {r : Regex} {prev : Option Char} {c : Char}
    {t : List Char} (h1 : minLen r ≠ 0) (h2 : headOK r (lowN c) = false) :
    mlens r prev (c :: t) = [] := by
  cases hml : mlens r prev (c :: t) with
  | nil => rfl
  | cons a as =>
      exfalso
      have ha : a ∈ mlens r prev (c :: t) := by
        rw [hml]
        exact List.mem_cons_self a as
      have h1' : 1 ≤ a := by
        have := mem_mlens_minLen a ha
        omega
      have := headOK_of_mem r ((c :: t).length + 1) prev c t a ha h1'
      rw [h2] at this
      exact Bool.noConfusion this

theorem matchLen_none_of_head {r : Regex} {prev : Option Char} {c : Char}
    {t : List Char} (h1 : minLen r ≠ 0) (h2 : headOK r (lowN c) = false) :
    matchLen r prev (c :: t) = none :=
  matchLen_eq_none (mlens_nil_of_head h1 h2)

/-! Arithmetic of maximal class runs. -/

theorem runP_nil {p : Nat → Bool} : runP p [] = 0 := rfl

theorem runP_cons_pos {p : Nat → Bool} {c : Char} {t : List Char}
    (h : p (lowN c) = true) : runP p (c :: t) = runP p t + 1 := by
  simp [runP, List.takeWhile_cons, h]

theorem runP_cons_neg {p : Nat → Bool} {c : Char} {t : List Char}
    (h : p (lowN c) = false) : runP p (c :: t) = 0 := by
  simp [runP, List.takeWhile_cons, h]

theorem runP_append_stop {p : Nat → Bool} {y : Char} {r : List Char}
    (hy : p (lowN y) = false) :
    ∀ xs : List Char, runP p (xs ++ y :: r) = runP p xs := by
  intro xs
  induction xs with
  | nil => rw [List.nil_append, runP_cons_neg hy, runP_nil]
  | cons a t ih =>
      cases hpa : p (lowN a) with
      | true => rw [List.cons_append, runP_cons_pos hpa, runP_cons_pos hpa, ih]
      | false => rw [List.cons_append, runP_cons_neg hpa, runP_cons_neg hpa]

theorem runP_all {p : Nat → Bool} :
    ∀ xs : List Char, (∀ c ∈ xs, p (lowN c) = true) →
      runP p xs = xs.length := by
  intro xs
  induction xs with
  | nil => intro h; rfl
  | cons a t ih =>
      intro h
      rw [runP_cons_pos (h a (List.mem_cons_self a t)),
        ih (fun c hc => h c (List.mem_cons_of_mem a hc)), List.length_cons]

theorem runP_le_length {p : Nat → Bool} {l : List Char} :
    runP p l ≤ l.length := by
  unfold runP
  induction l with
  | nil => simp
  | cons a t ih =>
      rw [List.takeWhile_cons]
      cases hpa : p (lowN a) with
      | true => simpa using ih
      | false => simp

theorem take_runP {p : Nat → Bool} :
    ∀ l : List Char, l.take (runP p l) = l.takeWhile (fun c => p (lowN c)) := by
  intro l
  induction l with
  | nil => rfl
  | cons a t ih =>
      cases hpa : p (lowN a) with
      | true =>
          rw [runP_cons_pos hpa, List.takeWhile_cons, List.take_succ_cons, ih]
          simp [hpa]
      | false =>
          rw [runP_cons_neg hpa, List.takeWhile_cons]
          simp [hpa]

/-- The greedy star of a class places the maximal run first. -/
theorem star_cls_head {p : Nat → Bool} :
    ∀ (l : List Char) (prev : Option Char),
      (mlens (.star (.cls p)) prev l).head? = some (runP p l) := by
  intro l
  induction l with
  | nil =>
      intro prev
      rw [mlens_star, mlens_cls_nil]
      rfl
  | cons c t ih =>
      intro prev
      rw [mlens_star, mlens_cls_cons]
      cases hpc : p (lowN c) with
      | true =>
          rw [if_pos rfl, runP_cons_pos hpc]
          simp only [List.flatMap_cons, List.flatMap_nil, List.append_nil]
          rw [if_pos ⟨Nat.one_pos, one_le_len_cons⟩]
          have hd : ((c : Char) :: t).drop 1 = t := rfl
          rw [hd]
          have hih := ih (newPrev prev (c :: t) 1)
          cases hm : mlens (.star (.cls p)) (newPrev prev (c :: t) 1) t with
          | nil => exact absurd hm mlens_star_ne_nil
          | cons a as =>
              rw [hm] at hih
              simp only [List.head?_cons, Option.some.injEq] at hih
              simp [hih, Nat.add_comm]
      | false =>
          rw [if_neg (by simp), runP_cons_neg hpc]
          rfl

/-- The nonempty greedy repetition of a class reports the maximal run. -/
theorem plus_cls_pos {p : Nat → Bool} {prev : Option Char} {c : Char}
    {t : List Char} (h : p (lowN c) = true) :
    matchLen (.plus (.cls p)) prev (c :: t) = some (runP p t + 1) := by
  show (mlens (.seq (.cls p) (.star (.cls p))) prev (c :: t)).head?
    = some (runP p t + 1)
  rw [mlens_seq, mlens_cls_cons, if_pos h]
  simp only [List.flatMap_cons, List.flatMap_nil, List.append_nil]
  rw [if_pos one_le_len_cons]
  have hd : ((c : Char) :: t).drop 1 = t := rfl
  rw [hd]
  cases hm : mlens (.star (.cls p)) (newPrev prev (c :: t) 1) t with
  | nil => exact absurd hm mlens_star_ne_nil
  | cons a as =>
      have hih := @star_cls_head p t (newPrev prev (c :: t) 1)
      rw [hm] at hih
      simp only [List.head?_cons, Option.some.injEq] at hih
      simp [hih, Nat.add_comm]

theorem plus_cls_neg {p : Nat → Bool} {prev : Option Char} {c : Char}
    {t : List Char} (h : p (lowN c) = false) :
    matchLen (.plus (.cls p)) prev (c :: t) = none := by
  show (mlens (.seq (.cls p) (.star (.cls p))) prev (c :: t)).head? = none
  rw [mlens_seq, mlens_cls_cons, if_neg (by simp [h])]
  rfl

/-- Every length the star of a class reports lies within the maximal
run. -/
theorem star_cls_mem_le {p : Nat → Bool} :
    ∀ (l : List Char) (prev : Option Char) (n : Nat),
      n ∈ mlens (.star (.cls p)) prev l → n ≤ runP p l := by
  intro l
  induction l with
  | nil =>
      intro prev n hn
      have := mem_mlens_le n hn
      simp at this
      omega
  | cons c t ih =>
      intro prev n hn
      rw [mlens_star, mlens_cls_cons] at hn
      cases hpc : p (lowN c) with
      | true =>
          rw [if_pos hpc] at hn
          rw [List.mem_append] at hn
          rcases hn with hn | hn
          · simp only [List.flatMap_cons, List.flatMap_nil,
              List.append_nil] at hn
            rw [if_pos ⟨Nat.one_pos, one_le_len_cons⟩, List.mem_map] at hn
            obtain ⟨m, hm, rfl⟩ := hn
            have hd : ((c : Char) :: t).drop 1 = t := rfl
            rw [hd] at hm
            have := ih (newPrev prev (c :: t) 1) m hm
            rw [runP_cons_pos hpc]
            omega
          · simp at hn
            omega
      | false =>
          rw [if_neg (by simp [hpc])] at hn
          simp at hn
          omega

theorem matchLen_chr2 {a b : Char} {prev : Option Char} {c d : Char}
    {t : List Char} (h1 : lowN a = lowN c) (h2 : lowN b = lowN d) :
    matchLen (.seq (.chr a) (.chr b)) prev (c :: d :: t) = some 2 := by
  unfold matchLen
  rw [mlens_seq, mlens_chr_cons, if_pos h1]
  simp only [List.flatMap_cons, List.flatMap_nil, List.append_nil]
  rw [if_pos one_le_len_cons]
  have hd : ((c : Char) :: d :: t).drop 1 = d :: t := rfl
  rw [hd, mlens_chr_cons, if_pos h2]
  rfl

theorem matchLen_chr2_ne {a b : Char} {prev : Option Char} {c d : Char}
    {t : List Char} (h1 : lowN a = lowN c) (h2 : ¬ lowN b = lowN d) :
    matchLen (.seq (.chr a) (.chr b)) prev (c :: d :: t) = none := by
  unfold matchLen
  rw [mlens_seq, mlens_chr_cons, if_pos h1]
  simp only [List.flatMap_cons, List.flatMap_nil, List.append_nil]
  rw [if_pos one_le_len_cons]
  have hd : ((c : Char) :: d :: t).drop 1 = d :: t := rfl
  rw [hd, mlens_chr_cons, if_neg h2]
  rfl

theorem matchLen_chr2e {a b : Char} {prev : Option Char} {c d : Char}
    {t : List Char} (h1 : lowN a = lowN c) (h2 : lowN b = lowN d) :
    matchLen (.seq (.chr a) (.seq (.chr b) .eps)) prev (c :: d :: t)
      = some 2 := by
  unfold matchLen
  rw [mlens_seq, mlens_chr_cons, if_pos h1]
  simp only [List.flatMap_cons, List.flatMap_nil, List.append_nil]
  rw [if_pos one_le_len_cons]
  have hd : ((c : Char) :: d :: t).drop 1 = d :: t := rfl
  rw [hd, mlens_seq, mlens_chr_cons, if_pos h2]
  simp only [List.flatMap_cons, List.flatMap_nil, List.append_nil]
  rw [if_pos one_le_len_cons]
  have hd2 : ((d : Char) :: t).drop 1 = t := rfl
  rw [hd2, mlens_eps]
  rfl

theorem matchLen_chr2e_ne {a b : Char} {prev : Option Char} {c d : Char}
    {t : List Char} (h1 : lowN a = lowN c) (h2 : ¬ lowN b = lowN d) :
    matchLen (.seq (.chr a) (.seq (.chr b) .eps)) prev (c :: d :: t)
      = none := by
  unfold matchLen
  rw [mlens_seq, mlens_chr_cons, if_pos h1]
  simp only [List.flatMap_cons, List.flatMap_nil, List.append_nil]
  rw [if_pos one_le_len_cons]
  have hd : ((c : Char) :: d :: t).drop 1 = d :: t := rfl
  rw [hd, seq_chr_nil h2]
  rfl

/-- The line-start anchor fails after a character other than a newline. -/
theorem lsl_none_of_prev {c : Char} {l : List Char} (h : lowN c ≠ 10) :
    matchLen lslRe (some c) l = none := by
  apply matchLen_eq_none
  unfold lslRe
  rw [mlens_seq, mlens_lineStart, if_neg (by simp [h])]
  rfl

theorem plus_cls_mem_le {p : Nat → Bool} {prev : Option Char} {l : List Char}
    {n : Nat} (hn : n ∈ mlens (.plus (.cls p)) prev l) : n ≤ runP p l := by
  replace hn : n ∈ mlens (.seq (.cls p) (.star (.cls p))) prev l := hn
  rw [mlens_seq, List.mem_flatMap] at hn
  obtain ⟨m, hm, hn2⟩ := hn
  cases l with
  | nil =>
      rw [mlens_cls_nil] at hm
      simp at hm
  | cons c t =>
      rw [mlens_cls_cons] at hm
      cases hpc : p (lowN c) with
      | true =>
          rw [if_pos hpc] at hm
          simp only [List.mem_singleton] at hm
          subst hm
          rw [if_pos one_le_len_cons, List.mem_map] at hn2
          obtain ⟨m2, hm2, rfl⟩ := hn2
          have hd : ((c : Char) :: t).drop 1 = t := rfl
          rw [hd] at hm2
          have := star_cls_mem_le t (newPrev prev (c :: t) 1) m2 hm2
          rw [runP_cons_pos hpc]
          omega
      | false =>
          rw [if_neg (by simp [hpc])] at hm
          simp at hm

theorem flatMap_nil_all {A B : Type} {L : List A} {f : A → List B}
    (h : ∀ a ∈ L, f a = []) : L.flatMap f = [] := by
  induction L with
  | nil => rfl
  | cons a t ih =>
      rw [List.flatMap_cons, h a (List.mem_cons_self a t), List.nil_append]
      exact ih (fun x hx => h x (List.mem_cons_of_mem a hx))

/-- On a digit run followed by a closing brace the float rule fails: no
dot ever follows a prefix of the run. -/
theorem float_none_digits {prev : Option Char} {ds r₂ : List Char}
    (hne : ds ≠ []) (hds : ∀ c ∈ ds, digitP (lowN c) = true) :
    matchLen floatRe prev (ds ++ cbrC :: r₂) = none := by
  apply matchLen_eq_none
  obtain ⟨d, ds', rfl⟩ : ∃ d ds', ds = d :: ds' := by
    cases ds with
    | nil => exact absurd rfl hne
    | cons d ds' => exact ⟨d, ds', rfl⟩
  have hd : digitP (lowN d) = true := hds d (List.mem_cons_self d ds')
  have hd' : 48 ≤ lowN d ∧ lowN d ≤ 57 := by simpa [digitP] using hd
  have hrun_le : runP digitP ((d :: ds') ++ cbrC :: r₂) ≤ (d :: ds').length := by
    rw [runP_append_stop (by decide) (d :: ds')]
    exact runP_le_length
  have hA : mlens (.alt (.seq (.chr '.') (.plus (.cls digitP)))
      (.seq (.plus (.cls digitP))
        (.seq (.chr '.') (.star (.cls digitP)))))
      prev ((d :: ds') ++ cbrC :: r₂) = [] := by
    rw [mlens_alt]
    have h1 : mlens (.seq (.chr '.') (.plus (.cls digitP))) prev
        ((d :: ds') ++ cbrC :: r₂) = [] := by
      rw [List.cons_append]
      exact seq_chr_nil (by
        have e46 : lowN '.' = 46 := by decide
        omega)
    have h2 : mlens (.seq (.plus (.cls digitP))
        (.seq (.chr '.') (.star (.cls digitP)))) prev
        ((d :: ds') ++ cbrC :: r₂) = [] := by
      rw [mlens_seq]
      apply flatMap_nil_all
      intro m hm
      have hle : m ≤ (d :: ds').length := le_trans (plus_cls_mem_le hm) hrun_le
      rw [if_pos (by simp only [List.length_append]; omega)]
      have hdropm : ((d :: ds') ++ cbrC :: r₂).drop m
          = (d :: ds').drop m ++ cbrC :: r₂ :=
        List.drop_append_of_le_length hle
      rw [hdropm]
      cases hdd : (d :: ds').drop m with
      | nil =>
          rw [List.nil_append]
          have hnil : mlens (.seq (.chr '.') (.star (.cls digitP)))
              (newPrev prev ((d :: ds') ++ cbrC :: r₂) m)
              (cbrC :: r₂) = [] := seq_chr_nil (by decide)
          rw [hnil]
          rfl
      | cons e es =>
          have he : e ∈ (d :: ds') :=
            List.mem_of_mem_drop (by rw [hdd]; exact List.mem_cons_self e es)
          have hde : digitP (lowN e) = true := hds e he
          have hde' : 48 ≤ lowN e ∧ lowN e ≤ 57 := by simpa [digitP] using hde
          have hnil : ∀ pv : Option Char,
              mlens (.seq (.chr '.') (.star (.cls digitP))) pv
                ((e :: es) ++ cbrC :: r₂) = [] := fun pv => seq_chr_nil (by
            have e46 : lowN '.' = 46 := by decide
            omega)
          rw [hnil]
          rfl
    rw [h1, h2]
    rfl
  unfold floatRe
  rw [mlens_seq, hA]
  rfl

/-- A rule matching a zero, then a class, then anything fails on a digit
run followed by a closing brace when the class accepts neither a digit
nor the brace. -/
theorem zeroPre_none {p₂ : Nat → Bool} {s : Regex} {prev : Option Char}
    {ds r₂ : List Char} (hne : ds ≠ [])
    (hds : ∀ c ∈ ds, digitP (lowN c) = true)
    (hp : ∀ n, n < 126 → (digitP n || decide (n = 125)) = true →
      p₂ n = false) :
    matchLen (.seq (.chr '0') (.seq (.cls p₂) s)) prev (ds ++ cbrC :: r₂)
      = none := by
  apply matchLen_eq_none
  obtain ⟨d, ds', rfl⟩ : ∃ d ds', ds = d :: ds' := by
    cases ds with
    | nil => exact absurd rfl hne
    | cons d ds' => exact ⟨d, ds', rfl⟩
  have hd : digitP (lowN d) = true := hds d (List.mem_cons_self d ds')
  have hd' : 48 ≤ lowN d ∧ lowN d ≤ 57 := by simpa [digitP] using hd
  rw [List.cons_append]
  by_cases h0 : lowN '0' = lowN d
  · rw [mlens_seq, mlens_chr_cons, if_pos h0]
    simp only [List.flatMap_cons, List.flatMap_nil, List.append_nil]
    rw [if_pos one_le_len_cons]
    have hd1 : ((d : Char) :: (ds' ++ cbrC :: r₂)).drop 1
        = ds' ++ cbrC :: r₂ := rfl
    rw [hd1]
    have hinner : mlens (.seq (.cls p₂) s)
        (newPrev prev (d :: (ds' ++ cbrC :: r₂)) 1)
        (ds' ++ cbrC :: r₂) = [] := by
      cases ds' with
      | nil =>
          rw [List.nil_append, mlens_seq, mlens_cls_cons]
          have hpc : p₂ (lowN cbrC) = false := by
            have e : lowN cbrC = 125 := by decide
            rw [e]
            exact hp 125 (by omega) (by decide)
          rw [if_neg (by simp [hpc])]
          rfl
      | cons e es =>
          have he : digitP (lowN e) = true :=
            hds e (List.mem_cons_of_mem d (List.mem_cons_self e es))
          have he' : 48 ≤ lowN e ∧ lowN e ≤ 57 := by simpa [digitP] using he
          have hpe : p₂ (lowN e) = false := hp (lowN e) (by omega)
            (by simp [he])
          rw [List.cons_append, mlens_seq, mlens_cls_cons,
            if_neg (by simp [hpe])]
          rfl
    rw [hinner]
    rfl
  · rw [seq_chr_nil h0]

theorem chunkP_spec {n : Nat} (h : chunkP n = true) :
    ¬ n = 96 ∧ ¬ n = 92 ∧ ¬ n = 36 := by
  refine ⟨fun hx => ?_, fun hx => ?_, fun hx => ?_⟩ <;> subst hx <;>
    exact absurd h (by decide)

theorem matchLen_chr1 {a : Char} {prev : Option Char} {c : Char}
    {t : List Char} (h : lowN a = lowN c) :
    matchLen (.chr a) prev (c :: t) = some 1 := by
  unfold matchLen
  rw [mlens_chr_cons, if_pos h]
  rfl

theorem escEscRe_eq :
    escEscRe = .seq (.chr (Char.ofNat 92)) (.seq (.chr (Char.ofNat 92)) .eps) :=
  rfl

theorem chunkRe_eq : chunkRe = .plus (.cls chunkP) := rfl

/-! The winning rule of `interp` at each kind of content head. -/

theorem interp_at_bt {prev : Option Char} {t : List Char} :
    findMatch interpFlat prev (btC :: t)
      = some (1, .StringBacktick, [.pop]) := by
  have h : matchLen btRe prev (btC :: t) = some 1 := by
    unfold btRe
    exact matchLen_chr1 rfl
  unfold interpFlat
  rw [findMatch_rule_some h]

theorem interp_at_esc2 {prev : Option Char} {t : List Char} :
    findMatch interpFlat prev (Char.ofNat 92 :: Char.ofNat 92 :: t)
      = some (2, .StringBacktick, []) := by
  have h1 : matchLen btRe prev (Char.ofNat 92 :: Char.ofNat 92 :: t)
      = none := matchLen_none_of_head (by decide) (by decide)
  have h2 : matchLen escEscRe prev (Char.ofNat 92 :: Char.ofNat 92 :: t)
      = some 2 := by
    rw [escEscRe_eq]
    exact matchLen_chr2e rfl rfl
  unfold interpFlat
  rw [findMatch_rule_none h1, findMatch_rule_some h2]

theorem interp_at_escBt {prev : Option Char} {t : List Char} :
    findMatch interpFlat prev (Char.ofNat 92 :: btC :: t)
      = some (2, .StringBacktick, []) := by
  have h1 : matchLen btRe prev (Char.ofNat 92 :: btC :: t) = none :=
    matchLen_none_of_head (by decide) (by decide)
  have h2 : matchLen escEscRe prev (Char.ofNat 92 :: btC :: t) = none := by
    rw [escEscRe_eq]
    exact matchLen_chr2e_ne rfl (by decide)
  have h3 : matchLen escBtRe prev (Char.ofNat 92 :: btC :: t) = some 2 := by
    unfold escBtRe
    exact matchLen_chr2 rfl rfl
  unfold interpFlat
  rw [findMatch_rule_none h1, findMatch_rule_none h2, findMatch_rule_some h3]

theorem interp_at_open {prev : Option Char} {t : List Char} :
    findMatch interpFlat prev ('$' :: obrC :: t)
      = some (2, .StringInterpol, [.push "interp-inside"]) := by
  have h1 : matchLen btRe prev ('$' :: obrC :: t) = none :=
    matchLen_none_of_head (by decide) (by decide)
  have h2 : matchLen escEscRe prev ('$' :: obrC :: t) = none :=
    matchLen_none_of_head (by decide) (by decide)
  have h3 : matchLen escBtRe prev ('$' :: obrC :: t) = none :=
    matchLen_none_of_head (by decide) (by decide)
  have h4 : matchLen interpOpenRe prev ('$' :: obrC :: t) = some 2 := by
    unfold interpOpenRe
    exact matchLen_chr2 rfl rfl
  unfold interpFlat
  rw [findMatch_rule_none h1, findMatch_rule_none h2, findMatch_rule_none h3,
    findMatch_rule_some h4]

theorem interp_at_dollar {prev : Option Char} {c₂ : Char} {t : List Char}
    (h : lowN c₂ ≠ 123) :
    findMatch interpFlat prev ('$' :: c₂ :: t)
      = some (1, .StringBacktick, []) := by
  have h1 : matchLen btRe prev ('$' :: c₂ :: t) = none :=
    matchLen_none_of_head (by decide) (by decide)
  have h2 : matchLen escEscRe prev ('$' :: c₂ :: t) = none :=
    matchLen_none_of_head (by decide) (by decide)
  have h3 : matchLen escBtRe prev ('$' :: c₂ :: t) = none :=
    matchLen_none_of_head (by decide) (by decide)
  have h4 : matchLen interpOpenRe prev ('$' :: c₂ :: t) = none := by
    unfold interpOpenRe
    exact matchLen_chr2_ne rfl (by
      have e : lowN obrC = 123 := by decide
      omega)
  have h5 : matchLen dollarRe prev ('$' :: c₂ :: t) = some 1 := by
    unfold dollarRe
    exact matchLen_chr1 rfl
  unfold interpFlat
  rw [findMatch_rule_none h1, findMatch_rule_none h2, findMatch_rule_none h3,
    findMatch_rule_none h4, findMatch_rule_some h5]

theorem interp_at_chunk {prev : Option Char} {c : Char} {t : List Char}
    (h : chunkP (lowN c) = true) :
    findMatch interpFlat prev (c :: t)
      = some (runP chunkP t + 1, .StringBacktick, []) := by
  obtain ⟨h96, h92, h36⟩ := chunkP_spec h
  have e1 : lowN btC = 96 := by decide
  have e2 : lowN (Char.ofNat 92) = 92 := by decide
  have e3 : lowN '$' = 36 := by decide
  have h1 : matchLen btRe prev (c :: t) = none := by
    apply matchLen_eq_none
    unfold btRe
    rw [mlens_chr_cons, if_neg (by rw [e1]; omega)]
  have h2 : matchLen escEscRe prev (c :: t) = none := by
    rw [escEscRe_eq]
    exact matchLen_eq_none (seq_chr_nil (by rw [e2]; omega))
  have h3 : matchLen escBtRe prev (c :: t) = none := by
    unfold escBtRe
    exact matchLen_eq_none (seq_chr_nil (by rw [e2]; omega))
  have h4 : matchLen interpOpenRe prev (c :: t) = none := by
    unfold interpOpenRe
    exact matchLen_eq_none (seq_chr_nil (by rw [e3]; omega))
  have h5 : matchLen dollarRe prev (c :: t) = none := by
    apply matchLen_eq_none
    unfold dollarRe
    rw [mlens_chr_cons, if_neg (by rw [e3]; omega)]
  have h6 : matchLen chunkRe prev (c :: t)
      = some (runP chunkP t + 1) := by
    rw [chunkRe_eq]
    exact plus_cls_pos h
  unfold interpFlat
  rw [findMatch_rule_none h1, findMatch_rule_none h2, findMatch_rule_none h3,
    findMatch_rule_none h4, findMatch_rule_none h5, findMatch_rule_some h6]

/-- In `interp-inside`, a closing brace fires the first rule. -/
theorem ii_at_close {prev : Option Char} {t : List Char} :
    findMatch iiFlat prev (cbrC :: t)
      = some (1, .StringInterpol, [.pop]) := by
  have h : matchLen braceCloseRe prev (cbrC :: t) = some 1 := by
    unfold braceCloseRe
    exact matchLen_chr1 rfl
  unfold iiFlat
  rw [findMatch_rule_some h]

/-- In `interp-inside`, a nonempty digit run up to a closing brace is
consumed in one step by the integer rule, every earlier rule failing. -/
theorem ii_at_digits {pc : Char} {ds r₂ : List Char}
    (hne : ds ≠ []) (hds : ∀ c ∈ ds, digitP (lowN c) = true)
    (hpc : lowN pc ≠ 10) :
    findMatch iiFlat (some pc) (ds ++ cbrC :: r₂)
      = some (ds.length, .NumberInteger, []) := by
  obtain ⟨d, ds', rfl⟩ : ∃ d ds', ds = d :: ds' := by
    cases ds with
    | nil => exact absurd rfl hne
    | cons d ds' => exact ⟨d, ds', rfl⟩
  have hd : digitP (lowN d) = true := hds d (List.mem_cons_self d ds')
  have hd' : 48 ≤ lowN d ∧ lowN d ≤ 57 := by simpa [digitP] using hd
  have hdig : ∀ n, n < 58 → 48 ≤ n →
      headOK braceCloseRe n = false ∧ headOK hashbangRe n = false ∧
      headOK wsRe n = false ∧ headOK htmlRe n = false ∧
      headOK lineCommentRe n = false ∧ headOK blockCommentRe n = false := by
    decide
  obtain ⟨hH1, hH2, hH3, hH4, hH5, hH6⟩ :=
    hdig (lowN d) (by omega) (by omega)
  have e1 : matchLen braceCloseRe (some pc) ((d :: ds') ++ cbrC :: r₂)
      = none := by
    rw [List.cons_append]
    exact matchLen_none_of_head (by decide) hH1
  have e2 : matchLen hashbangRe (some pc) ((d :: ds') ++ cbrC :: r₂)
      = none := by
    rw [List.cons_append]
    exact matchLen_none_of_head (by decide) hH2
  have e3 : matchLen lslRe (some pc) ((d :: ds') ++ cbrC :: r₂) = none :=
    lsl_none_of_prev hpc
  have e4 : matchLen wsRe (some pc) ((d :: ds') ++ cbrC :: r₂) = none := by
    rw [List.cons_append]
    exact matchLen_none_of_head (by decide) hH3
  have e5 : matchLen htmlRe (some pc) ((d :: ds') ++ cbrC :: r₂) = none := by
    rw [List.cons_append]
    exact matchLen_none_of_head (by decide) hH4
  have e6 : matchLen lineCommentRe (some pc) ((d :: ds') ++ cbrC :: r₂)
      = none := by
    rw [List.cons_append]
    exact matchLen_none_of_head (by decide) hH5
  have e7 : matchLen blockCommentRe (some pc) ((d :: ds') ++ cbrC :: r₂)
      = none := by
    rw [List.cons_append]
    exact matchLen_none_of_head (by decide) hH6
  have e8 : matchLen floatRe (some pc) ((d :: ds') ++ cbrC :: r₂) = none :=
    float_none_digits hne hds
  have e9 : matchLen binRe (some pc) ((d :: ds') ++ cbrC :: r₂) = none :=
    zeroPre_none hne hds (by decide)
  have e10 : matchLen octRe (some pc) ((d :: ds') ++ cbrC :: r₂) = none :=
    zeroPre_none hne hds (by decide)
  have e11 : matchLen hexRe (some pc) ((d :: ds') ++ cbrC :: r₂) = none :=
    zeroPre_none hne hds (by decide)
  have e12 : matchLen intRe (some pc) ((d :: ds') ++ cbrC :: r₂)
      = some ((d :: ds').length) := by
    rw [List.cons_append]
    show matchLen (.plus (.cls digitP)) (some pc)
      (d :: (ds' ++ cbrC :: r₂)) = some ((d :: ds').length)
    rw [plus_cls_pos hd, runP_append_stop (by decide) ds',
      runP_all ds' (fun c hc => hds c (List.mem_cons_of_mem d hc))]
    rfl
  unfold iiFlat rootFlat
  rw [findMatch_rule_none e1, findMatch_rule_none e2, findMatch_rule_none e3,
    findMatch_rule_none e4, findMatch_rule_none e5, findMatch_rule_none e6,
    findMatch_rule_none e7, findMatch_rule_none e8, findMatch_rule_none e9,
    findMatch_rule_none e10, findMatch_rule_none e11,
    findMatch_rule_some e12]

set_option maxRecDepth 100000 in
/-- At an opening backtick the root state fires its backtick rule: every
earlier rule fails on a backtick head. -/
theorem root_at_backtick (prev : Option Char) (t : List Char) :
    findMatch rootFlat prev (btC :: t)
      = some (1, .StringBacktick, [.push "interp"]) := by
  have hws : ∀ c rest, btC :: t = c :: rest → spaceP (lowN c) = false := by
    intro c rest h
    cases h
    decide
  have hsl : mlens (.chr '/') prev (btC :: t) = [] := by
    rw [mlens_chr_cons, if_neg (by decide)]
  have hhtml : mlens htmlRe prev (btC :: t) = [] :=
    mlens_nil_of_head (by decide) (by decide)
  have e01 : matchLen hashbangRe prev (btC :: t) = none :=
    matchLen_none_of_head (by decide) (by decide)
  have e02 : matchLen lslRe prev (btC :: t) = none :=
    matchLen_lsl_none_of hws hsl hhtml
  have e03 : matchLen wsRe prev (btC :: t) = none :=
    matchLen_none_of_head (by decide) (by decide)
  have e04 : matchLen htmlRe prev (btC :: t) = none :=
    matchLen_eq_none hhtml
  have e05 : matchLen lineCommentRe prev (btC :: t) = none :=
    matchLen_none_of_head (by decide) (by decide)
  have e06 : matchLen blockCommentRe prev (btC :: t) = none :=
    matchLen_none_of_head (by decide) (by decide)
  have e07 : matchLen floatRe prev (btC :: t) = none :=
    matchLen_none_of_head (by decide) (by decide)
  have e08 : matchLen binRe prev (btC :: t) = none :=
    matchLen_none_of_head (by decide) (by decide)
  have e09 : matchLen octRe prev (btC :: t) = none :=
    matchLen_none_of_head (by decide) (by decide)
  have e10 : matchLen hexRe prev (btC :: t) = none :=
    matchLen_none_of_head (by decide) (by decide)
  have e11 : matchLen intRe prev (btC :: t) = none :=
    matchLen_none_of_head (by decide) (by decide)
  have e12 : matchLen dotsRe prev (btC :: t) = none :=
    matchLen_none_of_head (by decide) (by decide)
  have e13 : matchLen opRe prev (btC :: t) = none :=
    matchLen_none_of_head (by decide) (by decide)
  have e14 : matchLen openPunctRe prev (btC :: t) = none :=
    matchLen_none_of_head (by decide) (by decide)
  have e15 : matchLen closePunctRe prev (btC :: t) = none :=
    matchLen_none_of_head (by decide) (by decide)
  have e16 : matchLen kwRe prev (btC :: t) = none :=
    matchLen_none_of_head (by decide) (by decide)
  have e17 : matchLen declKwRe prev (btC :: t) = none :=
    matchLen_none_of_head (by decide) (by decide)
  have e18 : matchLen constKwRe prev (btC :: t) = none :=
    matchLen_none_of_head (by decide) (by decide)
  have e19 : matchLen builtinRe prev (btC :: t) = none :=
    matchLen_none_of_head (by decide) (by decide)
  have e20 : matchLen dqRe prev (btC :: t) = none :=
    matchLen_none_of_head (by decide) (by decide)
  have e21 : matchLen sqRe prev (btC :: t) = none :=
    matchLen_none_of_head (by decide) (by decide)
  have e22 : matchLen btRe prev (btC :: t) = some 1 := by
    unfold btRe
    exact matchLen_chr1 rfl
  unfold rootFlat
  rw [findMatch_rule_none e01, findMatch_rule_none e02,
    findMatch_rule_none e03, findMatch_rule_none e04,
    findMatch_rule_none e05, findMatch_rule_none e06,
    findMatch_rule_none e07, findMatch_rule_none e08,
    findMatch_rule_none e09, findMatch_rule_none e10,
    findMatch_rule_none e11, findMatch_rule_none e12,
    findMatch_rule_none e13, findMatch_rule_none e14,
    findMatch_rule_none e15, findMatch_rule_none e16,
    findMatch_rule_none e17, findMatch_rule_none e18,
    findMatch_rule_none e19, findMatch_rule_none e20,
    findMatch_rule_none e21, findMatch_rule_some e22]

theorem drop_cons_lt {l : List Char} {pos : Nat} {x : Char} {xs : List Char}
    (h : l.drop pos = x :: xs) : pos < l.length := by
  by_contra hc
  rw [List.drop_eq_nil_of_le (by omega)] at h
  exact List.noConfusion h

/-- One matched rule consuming characters is one step of the scanner. -/
theorem step_go {flat : String → List FEntry} {l : List Char} {pos : Nat}
    {stack : List String} {g : Bool} {n : Nat} {k : TokenKind}
    {ops : List StackCmd} (hpos : pos < l.length)
    (hfm : findMatch (flat (stackTop stack)) (prevAt l pos) (l.drop pos)
      = some (n + 1, k, ops)) :
    Step flat l (pos, stack, g) (pos + (n + 1), applyOps ops stack, false) :=
  ⟨some ⟨pos, k, (l.drop pos).take (n + 1)⟩, by
    rw [istep_eq_found (by omega) hfm, istepGo_succ]⟩

/-- The closing backtick pops `interp` in one step. -/
theorem interp_close_step {l : List Char} {pos : Nat} {st : List String}
    {rest : List Char} {g : Bool} (hdrop : l.drop pos = btC :: rest)
    (hst : st ≠ []) :
    Step ijmFlat l (pos, "interp" :: st, g) (pos + 1, st, false) := by
  have hpos : pos < l.length := drop_cons_lt hdrop
  have hfm : findMatch (ijmFlat (stackTop ("interp" :: st))) (prevAt l pos)
      (l.drop pos) = some (1, .StringBacktick, [.pop]) := by
    rw [stackTop_cons, ijmFlat_interp, hdrop]
    exact interp_at_bt
  have happ : applyOps [.pop] ("interp" :: st) = st := by
    have hlen : ¬ ("interp" :: st).length ≤ 1 := by
      cases st with
      | nil => exact absurd rfl hst
      | cons a t => simp [List.length_cons]
    rw [applyOps_pop, if_neg hlen]
    rfl
  have h := step_go (g := g) (n := 0) hpos hfm
  rw [happ] at h
  exact h

/-- Dropping a prefix of chunk characters preserves well-formed
content. -/
theorem ICont_drop_run : ∀ (k : Nat) (content : List Char),
    ICont content → k ≤ content.length →
    (∀ c ∈ content.take k, chunkP (lowN c) = true) →
    ICont (content.drop k) := by
  intro k
  induction k with
  | zero =>
      intro content hc _ _
      simpa using hc
  | succ k ih =>
      intro content hc hk htake
      cases hc with
      | nil => simp at hk
      | chunk c r hcp hr =>
          have hd : ((c : Char) :: r).drop (k + 1) = r.drop k := rfl
          rw [hd]
          exact ih r hr (by simpa using hk) (fun x hx =>
            htake x (by rw [List.take_succ_cons]; exact List.mem_cons_of_mem c hx))
      | esc2 r hr =>
          exfalso
          have hx := htake (Char.ofNat 92)
            (by rw [List.take_succ_cons]; exact List.mem_cons_self _ _)
          have e : lowN (Char.ofNat 92) = 92 := by decide
          rw [e] at hx
          exact absurd hx (by decide)
      | escBt r hr =>
          exfalso
          have hx := htake (Char.ofNat 92)
            (by rw [List.take_succ_cons]; exact List.mem_cons_self _ _)
          have e : lowN (Char.ofNat 92) = 92 := by decide
          rw [e] at hx
          exact absurd hx (by decide)
      | interp ds r hne hds hr =>
          exfalso
          have hx := htake '$'
            (by rw [List.take_succ_cons]; exact List.mem_cons_self _ _)
          have e : lowN '$' = 36 := by decide
          rw [e] at hx
          exact absurd hx (by decide)
      | dollar r hno hr =>
          exfalso
          have hx := htake '$'
            (by rw [List.take_succ_cons]; exact List.mem_cons_self _ _)
          have e : lowN '$' = 36 := by decide
          rw [e] at hx
          exact absurd hx (by decide)

theorem drop_add {l : List Char} {pos m : Nat} :
    l.drop (pos + m) = (l.drop pos).drop m := by
  rw [List.drop_drop]

/-- Scanning well-formed content from the `interp` state consumes it and
the closing backtick, ending just past the string with the frames below
`interp` untouched. -/
theorem interp_reach : ∀ (N : Nat) (content : List Char),
    content.length ≤ N → ICont content →
    ∀ (l : List Char) (pos : Nat) (st : List String) (rest : List Char)
      (g : Bool),
    l.drop pos = content ++ btC :: rest → st ≠ [] →
    Reach ijmFlat l (pos, "interp" :: st, g)
      (pos + (content.length + 1), st, false) := by
  intro N
  induction N with
  | zero =>
      intro content hlen hc l pos st rest g hdrop hst
      have hnil : content = [] := List.length_eq_zero.mp (by omega)
      subst hnil
      rw [List.nil_append] at hdrop
      exact Relation.ReflTransGen.single (interp_close_step hdrop hst)
  | succ N ih =>
      intro content hlen hc l pos st rest g hdrop hst
      cases hc with
      | nil =>
          rw [List.nil_append] at hdrop
          exact Relation.ReflTransGen.single (interp_close_step hdrop hst)
      | chunk c r hcp hr =>
          simp only [List.length_cons] at hlen
          have hdrop' : l.drop pos = c :: (r ++ btC :: rest) := by
            simpa using hdrop
          have hpos : pos < l.length := drop_cons_lt hdrop'
          have hfm : findMatch (ijmFlat (stackTop ("interp" :: st)))
              (prevAt l pos) (l.drop pos)
              = some (runP chunkP (r ++ btC :: rest) + 1,
                  .StringBacktick, []) := by
            rw [stackTop_cons, ijmFlat_interp, hdrop']
            exact interp_at_chunk hcp
          have hrr : runP chunkP (r ++ btC :: rest) = runP chunkP r :=
            runP_append_stop (by decide) r
          rw [hrr] at hfm
          have hstep := step_go (g := g) hpos hfm
          have hrle : runP chunkP r ≤ r.length := runP_le_length
          have hk1 : runP chunkP r + 1 ≤ (c :: r).length := by
            simp only [List.length_cons]
            omega
          have hIC : ICont ((c :: r).drop (runP chunkP r + 1)) := by
            apply ICont_drop_run _ _ (ICont.chunk c r hcp hr) hk1
            intro x hx
            rw [List.take_succ_cons] at hx
            rcases List.mem_cons.mp hx with hx | hx
            · subst hx
              exact hcp
            · rw [take_runP r] at hx
              have := List.mem_takeWhile_imp hx
              simpa using this
          have hdrop2 : l.drop (pos + (runP chunkP r + 1))
              = (c :: r).drop (runP chunkP r + 1) ++ btC :: rest := by
            rw [drop_add, hdrop']
            have hstep1 : ((c : Char) :: (r ++ btC :: rest)).drop
                (runP chunkP r + 1) = (r ++ btC :: rest).drop (runP chunkP r) :=
              rfl
            rw [hstep1, List.drop_append_of_le_length hrle]
            rfl
          have hrec := ih ((c :: r).drop (runP chunkP r + 1))
            (by simp only [List.length_drop, List.length_cons]; omega)
            hIC l (pos + (runP chunkP r + 1)) st rest false hdrop2 hst
          refine Relation.ReflTransGen.head hstep ?_
          have e : (pos + (runP chunkP r + 1))
              + (((c :: r).drop (runP chunkP r + 1)).length + 1)
              = pos + ((c :: r).length + 1) := by
            simp only [List.length_drop, List.length_cons]
            omega
          rw [← e]
          exact hrec
      | esc2 r hr =>
          simp only [List.length_cons] at hlen
          have hdrop' : l.drop pos
              = Char.ofNat 92 :: Char.ofNat 92 :: (r ++ btC :: rest) := by
            simpa using hdrop
          have hpos : pos < l.length := drop_cons_lt hdrop'
          have hfm : findMatch (ijmFlat (stackTop ("interp" :: st)))
              (prevAt l pos) (l.drop pos)
              = some (2, .StringBacktick, []) := by
            rw [stackTop_cons, ijmFlat_interp, hdrop']
            exact interp_at_esc2
          have hstep := step_go (g := g) (n := 1) hpos hfm
          have hdrop2 : l.drop (pos + 2) = r ++ btC :: rest := by
            rw [drop_add, hdrop']
            rfl
          have hrec := ih r (by omega) hr l (pos + 2) st rest false hdrop2 hst
          refine Relation.ReflTransGen.head hstep ?_
          have e : (pos + 2) + (r.length + 1)
              = pos + ((Char.ofNat 92 :: Char.ofNat 92 :: r).length + 1) := by
            simp only [List.length_cons]
            omega
          rw [← e]
          exact hrec
      | escBt r hr =>
          simp only [List.length_cons] at hlen
          have hdrop' : l.drop pos
              = Char.ofNat 92 :: btC :: (r ++ btC :: rest) := by
            simpa using hdrop
          have hpos : pos < l.length := drop_cons_lt hdrop'
          have hfm : findMatch (ijmFlat (stackTop ("interp" :: st)))
              (prevAt l pos) (l.drop pos)
              = some (2, .StringBacktick, []) := by
            rw [stackTop_cons, ijmFlat_interp, hdrop']
            exact interp_at_escBt
          have hstep := step_go (g := g) (n := 1) hpos hfm
          have hdrop2 : l.drop (pos + 2) = r ++ btC :: rest := by
            rw [drop_add, hdrop']
            rfl
          have hrec := ih r (by omega) hr l (pos + 2) st rest false hdrop2 hst
          refine Relation.ReflTransGen.head hstep ?_
          have e : (pos + 2) + (r.length + 1)
              = pos + ((Char.ofNat 92 :: btC :: r).length + 1) := by
            simp only [List.length_cons]
            omega
          rw [← e]
          exact hrec
      | dollar r hno hr =>
          simp only [List.length_cons] at hlen
          have hdrop' : l.drop pos = '$' :: (r ++ btC :: rest) := by
            simpa using hdrop
          obtain ⟨c₂, t₂, he, hc2⟩ :
              ∃ c₂ t₂, r ++ btC :: rest = c₂ :: t₂ ∧ lowN c₂ ≠ 123 := by
            cases r with
            | nil => exact ⟨btC, rest, by simp, by decide⟩
            | cons e es =>
                exact ⟨e, es ++ btC :: rest, by simp, hno e es rfl⟩
          have hdrop'' : l.drop pos = '$' :: c₂ :: t₂ := by rw [hdrop', he]
          have hpos : pos < l.length := drop_cons_lt hdrop''
          have hfm : findMatch (ijmFlat (stackTop ("interp" :: st)))
              (prevAt l pos) (l.drop pos)
              = some (1, .StringBacktick, []) := by
            rw [stackTop_cons, ijmFlat_interp, hdrop'']
            exact interp_at_dollar hc2
          have hstep := step_go (g := g) (n := 0) hpos hfm
          have hdrop2 : l.drop (pos + 1) = r ++ btC :: rest := by
            rw [drop_add, hdrop']
            rfl
          have hrec := ih r (by omega) hr l (pos + 1) st rest false hdrop2 hst
          refine Relation.ReflTransGen.head hstep ?_
          have e : (pos + 1) + (r.length + 1)
              = pos + (('$' :: r).length + 1) := by
            simp only [List.length_cons]
            omega
          rw [← e]
          exact hrec
      | interp ds r hne hds hr =>
          simp only [List.length_cons, List.length_append] at hlen
          obtain ⟨d, ds', rfl⟩ : ∃ d ds', ds = d :: ds' := by
            cases ds with
            | nil => exact absurd rfl hne
            | cons d ds' => exact ⟨d, ds', rfl⟩
          have hdrop' : l.drop pos
              = '$' :: obrC :: ((d :: ds') ++ cbrC :: (r ++ btC :: rest)) := by
            rw [hdrop]
            simp
          have hpos : pos < l.length := drop_cons_lt hdrop'
          have hfm1 : findMatch (ijmFlat (stackTop ("interp" :: st)))
              (prevAt l pos) (l.drop pos)
              = some (2, .StringInterpol, [.push "interp-inside"]) := by
            rw [stackTop_cons, ijmFlat_interp, hdrop']
            exact interp_at_open
          have hstep1 := step_go (g := g) (n := 1) hpos hfm1
          have hdropA : l.drop (pos + 2)
              = (d :: ds') ++ cbrC :: (r ++ btC :: rest) := by
            rw [drop_add, hdrop']
            rfl
          have hposA : pos + 2 < l.length := drop_cons_lt (by
            rw [hdropA, List.cons_append])
          have hprevA : prevAt l (pos + 2) = some obrC := by
            unfold prevAt
            rw [if_neg (by omega)]
            have e21 : pos + 2 - 1 = pos + 1 := by omega
            rw [e21, ← List.get?_drop, hdrop']
            rfl
          have hfm2 : findMatch
              (ijmFlat (stackTop ("interp-inside" :: "interp" :: st)))
              (prevAt l (pos + 2)) (l.drop (pos + 2))
              = some ((d :: ds').length, .NumberInteger, []) := by
            rw [stackTop_cons, ijmFlat_ii, hprevA, hdropA]
            exact ii_at_digits hne hds (by decide)
          have hstep2 := step_go (g := false) (n := ds'.length) hposA hfm2
          have hdropB : l.drop (pos + 2 + (ds'.length + 1))
              = cbrC :: (r ++ btC :: rest) := by
            rw [drop_add, hdropA]
            rw [show ds'.length + 1 = (d :: ds').length from rfl,
              List.drop_left]
          have hposB : pos + 2 + (ds'.length + 1) < l.length :=
            drop_cons_lt hdropB
          have hfm3 : findMatch
              (ijmFlat (stackTop ("interp-inside" :: "interp" :: st)))
              (prevAt l (pos + 2 + (ds'.length + 1)))
              (l.drop (pos + 2 + (ds'.length + 1)))
              = some (1, .StringInterpol, [.pop]) := by
            rw [stackTop_cons, ijmFlat_ii, hdropB]
            exact ii_at_close
          have hstep3 := step_go (g := false) (n := 0) hposB hfm3
          have hdropC : l.drop (pos + 2 + (ds'.length + 1) + 1)
              = r ++ btC :: rest := by
            rw [drop_add, hdropB]
            rfl
          have hrec := ih r (by omega) hr l (pos + 2 + (ds'.length + 1) + 1)
            st rest false hdropC hst
          refine Relation.ReflTransGen.head hstep1
            (Relation.ReflTransGen.head hstep2
              (Relation.ReflTransGen.head hstep3 ?_))
          have e : (pos + 2 + (ds'.length + 1) + 1) + (r.length + 1)
              = pos + (('$' :: obrC :: ((d :: ds') ++ cbrC :: r)).length + 1) := by
            simp only [List.length_cons, List.length_append]
            omega
          rw [← e]
          exact hrec

set_option maxRecDepth 100000 in
/-- Claim C10, counterexample: the input holds one backtick string with
balanced backticks and a closed interpolation, yet the scan ends with
stack interp, interp-inside, interp, root instead of the root it started
from: inside the interpolation the spliced builtin rule wins, and the
unescaped dot of its alternative for the Fit functions consumes the
closing brace (DOTALL), so neither brace nor backtick ever pops. -/
theorem spec_c10_counterexample :
    isBalancedBacktickString c10Input = true ∧
    scan ijmFlat c10Input =
      .ok [⟨0, .StringBacktick, [btC]⟩, ⟨1, .StringInterpol, ['$', obrC]⟩,
           ⟨3, .NameBuiltin, ['f', 'i', 't', cbrC, 'f']⟩,
           ⟨8, .StringBacktick, [btC]⟩]
        ["interp", "interp-inside", "interp", "root"] ∧
    (["interp", "interp-inside", "interp", "root"] : List String)
      ≠ ["root"] :=
  ⟨by decide, by decide, by decide⟩

set_option maxRecDepth 100000 in
/-- Claim C10, amended: the claim holds once each interpolation body is
restricted to a nonempty digit run (unrestricted bodies falsify it, see
the counterexample).  For any input containing a backtick string of
well-formed content, scanning from the opening backtick in the root
state pushes `interp` there, pushes `interp-inside` at each dollar-brace,
pops it at the matching brace, pops `interp` at the closing backtick,
and reaches the position just past the string with the state stack it
had before the string. -/
theorem spec_c10_backtick_restores_stack
    (content l : List Char) (pos : Nat) (st : List String)
    (rest : List Char) (g : Bool) (hc : ICont content)
    (hdrop : l.drop pos = btC :: (content ++ btC :: rest)) :
    Reach ijmFlat l (pos, "root" :: st, g)
      (pos + (content.length + 2), "root" :: st, false) := by
  have hpos : pos < l.length := drop_cons_lt hdrop
  have hfm : findMatch (ijmFlat (stackTop ("root" :: st))) (prevAt l pos)
      (l.drop pos) = some (1, .StringBacktick, [.push "interp"]) := by
    rw [stackTop_cons, ijmFlat_root, hdrop]
    exact root_at_backtick _ _
  have hstep := step_go (g := g) (n := 0) hpos hfm
  have hdrop2 : l.drop (pos + 1) = content ++ btC :: rest := by
    rw [drop_add, hdrop]
    rfl
  have hrec := interp_reach content.length content le_rfl hc l (pos + 1)
    ("root" :: st) rest false hdrop2 (fun h => List.noConfusion h)
  refine Relation.ReflTransGen.head hstep ?_
  have e : (pos + 1) + (content.length + 1) = pos + (content.length + 2) := by
    omega
  rw [← e]
  exact hrec

/-- Closed instance of the amended claim C10: scanning the six-character
backtick string whose interpolation body is the digit one, from offset
zero on the root stack, reaches offset six with the root stack
restored. -/
theorem spec_c10_witness :
    Reach ijmFlat [btC, '$', obrC, '1', cbrC, btC] (0, ["root"], false)
      (6, ["root"], false) :=
  spec_c10_backtick_restores_stack ['$', obrC, '1', cbrC]
    [btC, '$', obrC, '1', cbrC, btC] 0 [] [] false
    (ICont.interp ['1'] [] (by decide) (by decide) ICont.nil) rfl

end IJM
